import Mathlib

/-!
Verification development for the `obsidian-workout-log` plugin core.

The TypeScript sources are shallowly embedded:
* strings are lists of characters (`Str`),
* the data model of `types.ts` becomes Lean structures,
* the pure mutation-engine functions of `serializer.ts` become Lean
  functions (`structuredClone` followed by field writes on the clone is a
  functional record update),
* the orchestrator callbacks of `main.ts` become state-passing functions
  that also emit a trace of external effects (timer commands, file writes),
* an "addressed" variant of the data model carries an explicit object id
  on every node, so that `structuredClone`'s freshness and the absence of
  aliasing between input and output become provable statements.

Functions of the repository that are not among the provided source files
(the text-format parser, `addRest`, the duration formatters and the
title-validating file writer) are modelled from the specification; each
such definition carries a doc comment starting with `Modelled from the
spec:`.
-/

namespace WorkoutLog

/-- Character strings, modelled as lists of characters. -/
abbrev Str := List Char

/-- Coerce a Lean string literal to the character-list representation. -/
def str (s : String) : Str := s.data

/-- ASCII lower-casing of one character (model of `toLowerCase`). -/
def lowerChar (c : Char) : Char :=
  if 'A' ≤ c ∧ c ≤ 'Z' then Char.ofNat (c.toNat + 32) else c

/-- Model of JavaScript `String.prototype.toLowerCase` on the keys used here. -/
def lowerStr (s : Str) : Str := s.map lowerChar

/-- The space character, the only whitespace occurring inside a line here. -/
def isSpaceC (c : Char) : Bool := c = ' '

/-- Drop leading spaces. -/
def ltrim (s : Str) : Str := s.dropWhile isSpaceC

/-- Drop trailing spaces. -/
def rtrim (s : Str) : Str := (ltrim s.reverse).reverse

/-- Model of `String.prototype.trim` for the strings manipulated here. -/
def trimC (s : Str) : Str := rtrim (ltrim s)

/-- Split a string at every occurrence of the character `c`
(model of `String.prototype.split`). -/
def splitOnC (c : Char) : Str → List Str
  | [] => [[]]
  | x :: xs =>
    if x = c then [] :: splitOnC c xs
    else
      match splitOnC c xs with
      | [] => [[x]]
      | h :: t => (x :: h) :: t

/-- Join strings with a separator (model of `Array.prototype.join`). -/
def joinWith (sep : Str) : List Str → Str
  | [] => []
  | [x] => x
  | x :: y :: xs => x ++ sep ++ joinWith sep (y :: xs)

/-- The prefix of `s` before the first occurrence of `c` (all of `s` if absent). -/
def takeUntil (c : Char) (s : Str) : Str := s.takeWhile (· ≠ c)

/-- The suffix of `s` after the first occurrence of `c` (empty if absent). -/
def dropThrough (c : Char) (s : Str) : Str := (s.dropWhile (· ≠ c)).drop 1

/-- Character membership test (model of `String.prototype.includes` for
one character). -/
def containsC (c : Char) (s : Str) : Bool := s.any (fun a => decide (a = c))

/-- Decimal digit test. -/
def isDigitC (c : Char) : Bool := c.isDigit

/-- Numeric value of a digit string. -/
def digitsVal (ds : Str) : Nat := ds.foldl (fun acc c => acc * 10 + (c.toNat - 48)) 0

/-- Decimal rendering of a natural number. -/
def natToStr (n : Nat) : Str := (Nat.repr n).data

/-! ## Data model (src/types.ts) -/

/-- Workout states (`types.ts`): `'planned' | 'started' | 'completed'`. -/
inductive WorkoutState
  | planned
  | started
  | completed
deriving DecidableEq, Repr

/-- Exercise completion states (`types.ts`):
`[ ]` pending, `[\]` inProgress, `[x]` completed, `[-]` skipped. -/
inductive ExerciseState
  | pending
  | inProgress
  | completed
  | skipped
deriving DecidableEq, Repr

/-- Key-value pair for exercise parameters (`types.ts` `ExerciseParam`). -/
structure ExerciseParam where
  key : Str
  value : Str
  editable : Bool
  unit : Option Str
deriving DecidableEq, Repr

/-- Single exercise entry (`types.ts` `Exercise`). -/
structure Exercise where
  state : ExerciseState
  name : Str
  params : List ExerciseParam
  targetDuration : Option Nat
  recordedDuration : Option Str
  lineIndex : Nat
deriving DecidableEq, Repr

/-- Parsed metadata from the workout block header (`types.ts` `WorkoutMetadata`,
together with the `restDuration` field the orchestrator and README document). -/
structure WorkoutMetadata where
  title : Option Str
  state : WorkoutState
  startDate : Option Str
  duration : Option Str
  restDuration : Option Str
deriving DecidableEq, Repr

/-- Complete parsed workout block (`types.ts` `ParsedWorkout`). -/
structure ParsedWorkout where
  metadata : WorkoutMetadata
  exercises : List Exercise
  rawLines : List Str
  metadataEndIndex : Nat
deriving DecidableEq, Repr

/-! ## Time literals and duration formatting -/

/-- Helper for `parseTimeLit`: a trailing `<int>s` component. -/
def parseSecondsPart (s : Str) : Option Nat :=
  let d := s.takeWhile isDigitC
  if d = [] then none
  else if s.dropWhile isDigitC = ['s'] then some (digitsVal d) else none

/-- Modelled from the spec: the time-literal grammar used for countdown
targets — "optional `<int>m`, optional space, optional `<int>s`, at least
one component present" (e.g. `"11m 33s"`, `"45s"`); the parser itself is
not among the provided source files. Returns the total in seconds. -/
def parseTimeLit (s : Str) : Option Nat :=
  let d1 := s.takeWhile isDigitC
  let r1 := s.dropWhile isDigitC
  if d1 = [] then none
  else
    match r1 with
    | ['s'] => some (digitsVal d1)
    | 'm' :: rest =>
      let rest2 := ltrim rest
      if rest2 = [] then some (60 * digitsVal d1)
      else
        match parseSecondsPart rest2 with
        | some v2 => some (60 * digitsVal d1 + v2)
        | none => none
    | _ => none

/-- Modelled from the spec: `formatDuration(secs)` — the compact
`"Xm Ys"`/`"Ys"` form, minutes component emitted only if non-zero; the
implementation in `parser/exercise.ts` is not among the provided source
files. -/
def formatDuration (secs : Nat) : Str :=
  if secs / 60 > 0 then
    natToStr (secs / 60) ++ str "m " ++ natToStr (secs % 60) ++ str "s"
  else
    natToStr secs ++ str "s"

/-- Modelled from the spec: `formatDurationHuman`, the longer human-readable
form persisted into `duration`/`recordedDuration` fields; its source is not
among the provided files, and the spec requires it to be an inverse of the
time-literal parsing, so it is modelled with the same time-literal shape as
`formatDuration`. -/
def formatDurationHuman (secs : Nat) : Str := formatDuration secs

/-! ## Mutation engine (src/serializer.ts) -/

/-- `exercise.params.find(p => p.key === paramKey)` followed by a value
write on the found parameter: the first parameter whose key matches
exactly gets the new value. -/
def setFirstValue : List ExerciseParam → Str → Str → List ExerciseParam
  | [], _, _ => []
  | p :: ps, key, v =>
    if p.key = key then { p with value := v } :: ps
    else p :: setFirstValue ps key v

/-- `updateParamValue` from `serializer.ts`: sets a parameter's value by
case-sensitive key match on the first occurrence; returns the input
unchanged when the exercise index is out of range. -/
def updateParamValue (parsed : ParsedWorkout) (exerciseIndex : Nat)
    (paramKey : Str) (newValue : Str) : ParsedWorkout :=
  match parsed.exercises[exerciseIndex]? with
  | none => parsed
  | some exercise =>
    { parsed with
      exercises := parsed.exercises.set exerciseIndex
        { exercise with params := setFirstValue exercise.params paramKey newValue } }

/-- `updateExerciseState` from `serializer.ts`. -/
def updateExerciseState (parsed : ParsedWorkout) (exerciseIndex : Nat)
    (newState : ExerciseState) : ParsedWorkout :=
  match parsed.exercises[exerciseIndex]? with
  | none => parsed
  | some exercise =>
    { parsed with
      exercises := parsed.exercises.set exerciseIndex { exercise with state := newState } }

/-- `lockAllFields` from `serializer.ts`: sets every parameter's
`editable` to `false` across all exercises. -/
def lockAllFields (parsed : ParsedWorkout) : ParsedWorkout :=
  { parsed with
    exercises := parsed.exercises.map fun e =>
      { e with params := e.params.map fun p => { p with editable := false } } }

/-- The `for (const param of newExercise.params)` loop body of `addSet`:
a non-editable duration parameter becomes editable exactly when the
original exercise had a `targetDuration`. -/
def addSetParamFix (target : Option Nat) (p : ExerciseParam) : ExerciseParam :=
  if lowerStr p.key = str "duration" ∧ p.editable = false then
    { p with editable := target.isSome }
  else p

/-- The duplicate exercise `addSet` builds from the original: state reset
to `pending`, `recordedDuration` cleared, `lineIndex` one greater, and
the duration-parameter editability fix applied. -/
def addSetDup (e : Exercise) : Exercise :=
  { e with
    state := .pending
    recordedDuration := none
    lineIndex := e.lineIndex + 1
    params := e.params.map (addSetParamFix e.targetDuration) }

/-- `addSet` from `serializer.ts`: duplicates the exercise at the index
with state reset to `pending`, cleared `recordedDuration` and
`lineIndex + 1`, fixes duration-parameter editability, inserts the copy
right after the original (`splice(exerciseIndex + 1, 0, newExercise)`) and
bumps `lineIndex` of every exercise from position `exerciseIndex + 2` on. -/
def addSet (parsed : ParsedWorkout) (exerciseIndex : Nat) : ParsedWorkout :=
  match parsed.exercises[exerciseIndex]? with
  | none => parsed
  | some exercise =>
    let newExercise : Exercise := addSetDup exercise
    let inserted := parsed.exercises.insertIdx (exerciseIndex + 1) newExercise
    { parsed with
      exercises :=
        inserted.take (exerciseIndex + 2) ++
          (inserted.drop (exerciseIndex + 2)).map
            (fun ex => { ex with lineIndex := ex.lineIndex + 1 }) }

/-- `exercise.params.find(p => p.key.toLowerCase() === 'duration')`
followed by value and editability writes on the found parameter. -/
def setDurationValue : List ExerciseParam → Str → List ExerciseParam
  | [], _ => []
  | p :: ps, d =>
    if lowerStr p.key = str "duration" then
      { p with value := d, editable := false } :: ps
    else p :: setDurationValue ps d

/-- `setRecordedDuration` from `serializer.ts`: finds or creates a
Duration parameter, sets its value, marks it non-editable and records the
duration on the exercise. -/
def setRecordedDuration (parsed : ParsedWorkout) (exerciseIndex : Nat)
    (durationStr : Str) : ParsedWorkout :=
  match parsed.exercises[exerciseIndex]? with
  | none => parsed
  | some exercise =>
    let params' :=
      if exercise.params.any (fun p => decide (lowerStr p.key = str "duration")) then
        setDurationValue exercise.params durationStr
      else
        exercise.params ++ [⟨str "Duration", durationStr, false, none⟩]
    { parsed with
      exercises := parsed.exercises.set exerciseIndex
        { exercise with params := params', recordedDuration := some durationStr } }

/-- The synthetic "Rest" exercise `addRest` inserts: a single editable
Duration parameter holding the rest duration as a time literal (countdown
mode), state `pending`. -/
def mkRestExercise (restDuration : Str) (lineIndex : Nat) : Exercise :=
  { state := .pending
    name := str "Rest"
    params := [⟨str "Duration", restDuration, true, none⟩]
    targetDuration := parseTimeLit restDuration
    recordedDuration := none
    lineIndex := lineIndex }

/-- Modelled from the spec: `addRest(w, index, restDuration)` — the
serializer exports it and the orchestrator imports it, but its
implementation is not among the provided source files. Per the spec it
"inserts a synthetic 'Rest' exercise after `index` with a single Duration
parameter set to `restDuration` as a time literal (countdown mode), state
`pending`"; as for `addSet`, later exercises' `lineIndex` shift by one,
and an out-of-range index is a no-op like every engine function. -/
def addRest (parsed : ParsedWorkout) (exerciseIndex : Nat)
    (restDuration : Str) : ParsedWorkout :=
  match parsed.exercises[exerciseIndex]? with
  | none => parsed
  | some exercise =>
    let restExercise : Exercise := mkRestExercise restDuration (exercise.lineIndex + 1)
    let inserted := parsed.exercises.insertIdx (exerciseIndex + 1) restExercise
    { parsed with
      exercises :=
        inserted.take (exerciseIndex + 2) ++
          (inserted.drop (exerciseIndex + 2)).map
            (fun ex => { ex with lineIndex := ex.lineIndex + 1 }) }

/-! ## Text format codec

`parseWorkout` and the per-line (de)serializers live in `src/parser/`,
which is not among the provided source files; they are modelled from the
spec (§4.1 Parse/Serialize and §6 workout block text format).
`serializeWorkout` itself is from `src/serializer.ts`. -/

/-- Modelled from the spec: `getStateChar`, the state → checklist-marker
mapping (space/backslash/x/hyphen). -/
def stateChar : ExerciseState → Char
  | .pending => ' '
  | .inProgress => '\\'
  | .completed => 'x'
  | .skipped => '-'

/-- Modelled from the spec: the marker → state mapping, case-insensitive
for `x`; an unrecognized marker makes the line malformed. -/
def markerState (c : Char) : Option ExerciseState :=
  if c = ' ' then some .pending
  else if c = '\\' then some .inProgress
  else if c = 'x' ∨ c = 'X' then some .completed
  else if c = '-' then some .skipped
  else none

/-- The metadata `state` field rendered to text. -/
def workoutStateStr : WorkoutState → Str
  | .planned => str "planned"
  | .started => str "started"
  | .completed => str "completed"

/-- The metadata `state` field read back from text. -/
def readWorkoutState (v : Str) : Option WorkoutState :=
  if v = str "planned" then some .planned
  else if v = str "started" then some .started
  else if v = str "completed" then some .completed
  else none

/-- Modelled from the spec: one `Key: value` cell of an exercise line —
a still-editable value is re-wrapped in brackets, a unit is appended
after a space. -/
def serializeParam (p : ExerciseParam) : Str :=
  p.key ++ str ": " ++
    (if p.editable then ('[' :: p.value) ++ [']'] else p.value) ++
    (match p.unit with
     | some u => ' ' :: u
     | none => [])

/-- Modelled from the spec: `serializeExercise` — one checklist line
reconstructed from marker, name and parameter cells joined by `|`. -/
def serializeExercise (e : Exercise) : Str :=
  str "- [" ++ [stateChar e.state] ++ str "] " ++ e.name ++
    (e.params.map (fun p => str " | " ++ serializeParam p)).flatten

/-- Modelled from the spec: `serializeMetadata` — metadata lines, omitting
fields with no value except `startDate:` and `duration:`, which stay as
empty keys when absent (as in the README template). -/
def serializeMetadata (m : WorkoutMetadata) : List Str :=
  (match m.title with
   | some t => [str "title: " ++ t]
   | none => []) ++
  [str "state: " ++ workoutStateStr m.state] ++
  [str "startDate:" ++ (match m.startDate with | some d => ' ' :: d | none => [])] ++
  [str "duration:" ++ (match m.duration with | some d => ' ' :: d | none => [])] ++
  (match m.restDuration with
   | some r => [str "restDuration: " ++ r]
   | none => [])

/-- `serializeWorkout` from `serializer.ts`: metadata lines, the `---`
separator, one line per exercise, joined with newlines. -/
def serializeWorkout (parsed : ParsedWorkout) : Str :=
  joinWith ['\n']
    (serializeMetadata parsed.metadata ++ [str "---"] ++
      parsed.exercises.map serializeExercise)

/-- Modelled from the spec: parsing one `Key: value` cell of an exercise
line. The cell is trimmed; the key is everything before the first colon;
a value wrapped in brackets is editable (an optional unit follows the
closing bracket), a bare value is locked. A cell without a colon is not a
parameter. -/
def parseParamPiece (piece : Str) : Option ExerciseParam :=
  let t := trimC piece
  if containsC ':' t then
    let key := trimC (takeUntil ':' t)
    let rest := trimC (dropThrough ':' t)
    match rest with
    | '[' :: r =>
      if containsC ']' r then
        some { key := key, value := takeUntil ']' r, editable := true,
               unit := let u := trimC (dropThrough ']' r)
                       if u = [] then none else some u }
      else
        some { key := key, value := rest, editable := false, unit := none }
    | _ => some { key := key, value := rest, editable := false, unit := none }
  else none

/-- Modelled from the spec: the first parameter whose key case-insensitively
equals "duration" determines the durations — a bracketed (editable) value
matching the time-literal pattern is captured as `targetDuration`
(countdown mode), any other duration value is treated as the
`recordedDuration` instead. -/
def deriveDurations : List ExerciseParam → Option Nat × Option Str
  | [] => (none, none)
  | p :: ps =>
    if lowerStr p.key = str "duration" then
      match (if p.editable then parseTimeLit p.value else none) with
      | some v => (some v, none)
      | none => (none, some p.value)
    else deriveDurations ps

/-- Modelled from the spec: parsing one exercise checklist line
`- [<marker>] <name> (| <Key>: [<value>]? <unit>?)*`. Returns the marker
state, the trimmed name and the parameter cells; `none` when the line has
no recognizable checklist marker (the caller then keeps it only as a raw
line). -/
def parseExerciseLine (line : Str) : Option (ExerciseState × Str × List ExerciseParam) :=
  match line with
  | '-' :: ' ' :: '[' :: c :: ']' :: rest =>
    match markerState c with
    | none => none
    | some st =>
      let content := match rest with
        | ' ' :: r => r
        | r => r
      match splitOnC '|' content with
      | [] => none
      | first :: cells => some (st, trimC first, cells.filterMap parseParamPiece)
  | _ => none

/-- Modelled from the spec: folding one metadata `key: value` line into the
metadata record; recognized keys are `title`, `state`, `startDate`,
`duration`, `restDuration`, an empty value leaves the field absent, and
unrecognized lines are ignored. -/
def parseMetadataLine (m : WorkoutMetadata) (line : Str) : WorkoutMetadata :=
  if containsC ':' line then
    let key := trimC (takeUntil ':' line)
    let v := trimC (dropThrough ':' line)
    if key = str "title" then (if v = [] then m else { m with title := some v })
    else if key = str "state" then
      (match readWorkoutState v with
       | some s => { m with state := s }
       | none => m)
    else if key = str "startDate" then (if v = [] then m else { m with startDate := some v })
    else if key = str "duration" then (if v = [] then m else { m with duration := some v })
    else if key = str "restDuration" then (if v = [] then m else { m with restDuration := some v })
    else m
  else m

/-- Metadata before any line is read: no optional field, state `planned`. -/
def defaultMetadata : WorkoutMetadata :=
  { title := none, state := .planned, startDate := none, duration := none,
    restDuration := none }

/-- Build the exercise list of the exercise section: each parsable
checklist line becomes an `Exercise` whose `lineIndex` is its line's
position relative to the section start; malformed lines are skipped
(they stay only in `rawLines`). -/
def buildExercises : Nat → List Str → List Exercise
  | _, [] => []
  | i, l :: ls =>
    match parseExerciseLine l with
    | some (st, nm, ps) =>
      let d := deriveDurations ps
      { state := st, name := nm, params := ps, targetDuration := d.1,
        recordedDuration := d.2, lineIndex := i } :: buildExercises (i + 1) ls
    | none => buildExercises (i + 1) ls

/-- Modelled from the spec: `parseWorkout` — splits the block into a
metadata section terminated by the first line consisting solely of `---`
and an exercise section of checklist lines; never fails, degrading to the
raw-lines fallback. -/
def parseWorkout (text : Str) : ParsedWorkout :=
  let lines := splitOnC '\n' text
  match lines.findIdx? (fun l => decide (l = str "---")) with
  | some k =>
    { metadata := (lines.take k).foldl parseMetadataLine defaultMetadata
      exercises := buildExercises 0 (lines.drop (k + 1))
      rawLines := lines
      metadataEndIndex := k + 1 }
  | none =>
    { metadata := lines.foldl parseMetadataLine defaultMetadata
      exercises := []
      rawLines := lines
      metadataEndIndex := lines.length }

/-! ## Semantic equality of parsed workouts

The round-trip law compares the semantic fields: marker/state, name,
params, target and recorded durations, and the metadata — not the
reconstruction bookkeeping (`rawLines`, `metadataEndIndex`, `lineIndex`). -/

/-- The semantic fields of an exercise (everything except `lineIndex`). -/
structure ExerciseSem where
  state : ExerciseState
  name : Str
  params : List ExerciseParam
  targetDuration : Option Nat
  recordedDuration : Option Str
deriving DecidableEq, Repr

/-- Project an exercise to its semantic fields. -/
def Exercise.sem (e : Exercise) : ExerciseSem :=
  { state := e.state, name := e.name, params := e.params,
    targetDuration := e.targetDuration, recordedDuration := e.recordedDuration }

/-- Two parsed workouts agree on all semantic fields. -/
def semEq (w₁ w₂ : ParsedWorkout) : Prop :=
  w₁.metadata = w₂.metadata ∧
    w₁.exercises.map Exercise.sem = w₂.exercises.map Exercise.sem

instance (w₁ w₂ : ParsedWorkout) : Decidable (semEq w₁ w₂) :=
  inferInstanceAs (Decidable (_ = _ ∧ _ = _))

/-! ## Orchestrator (src/main.ts `createCallbacks`)

Each callback of the `WorkoutCallbacks` bundle becomes a function on the
closure state (`currentParsed`, `hasPendingChanges`) that also returns the
ordered trace of external effects it performs: timer-engine commands and
file writes. The timer snapshot a callback would obtain from
`timerManager.getTimerState(workoutId)` is an input (`none` models a timer
that is not running), and the wall-clock start date string is an input to
`onStartWorkout`. -/

/-- Timer snapshot as delivered by `getTimerState` (elapsed seconds). -/
structure TimerVal where
  workoutElapsed : Nat
  exerciseElapsed : Nat
deriving DecidableEq, Repr

/-- One external effect of a callback, in program order: a file write of
serialized text (with the expected title passed for validation), or a
timer-engine command. -/
inductive Event
  | write (content : Str) (expectedTitle : Option Str)
  | startTimer (activeIndex : Nat)
  | stopTimer
  | advanceTimer (newIndex : Nat)
deriving DecidableEq, Repr

/-- The mutable closure state captured by `createCallbacks`. -/
structure CState where
  currentParsed : ParsedWorkout
  hasPendingChanges : Bool
deriving DecidableEq, Repr

/-- The falsiness test `!restDuration` on an optional string. -/
def isFalsyStr : Option Str → Bool
  | none => true
  | some s => s.isEmpty

/-- `updateFile` from `createCallbacks`: stores the new parsed state,
clears the pending flag, serializes, and writes to the host document
passing the title for validation. -/
def updateFile (s : CState) (newParsed : ParsedWorkout) : CState × List Event :=
  ({ currentParsed := newParsed, hasPendingChanges := false },
   [.write (serializeWorkout newParsed) newParsed.metadata.title])

/-- `currentParsed.metadata.state = 'started'` together with the start
date write of `onStartWorkout`. -/
def startMeta (w : ParsedWorkout) (date : Str) : ParsedWorkout :=
  { w with metadata := { w.metadata with state := .started, startDate := some date } }

/-- `currentParsed.metadata.state = 'completed'`. -/
def completeMeta (w : ParsedWorkout) : ParsedWorkout :=
  { w with metadata := { w.metadata with state := .completed } }

/-- `if (timerState) currentParsed.metadata.duration = formatDurationHuman(
timerState.workoutElapsed)`. -/
def setDurationMeta (w : ParsedWorkout) (ts : Option TimerVal) : ParsedWorkout :=
  match ts with
  | some t =>
    { w with metadata :=
        { w.metadata with duration := some (formatDurationHuman t.workoutElapsed) } }
  | none => w

/-- `if (timerState) currentParsed = setRecordedDuration(...)` — the
duration-recording step shared by finish/add-set/add-rest. -/
def recordStep (w : ParsedWorkout) (i : Nat) (ts : Option TimerVal) : ParsedWorkout :=
  match ts with
  | some t => setRecordedDuration w i (formatDurationHuman t.exerciseElapsed)
  | none => w

/-- `if (timerState && timerState.exerciseElapsed > 0) ...` — the
duration-recording step of `onExerciseSkip`. -/
def skipRecordStep (w : ParsedWorkout) (i : Nat) (ts : Option TimerVal) : ParsedWorkout :=
  match ts with
  | some t =>
    if t.exerciseElapsed > 0 then
      setRecordedDuration w i (formatDurationHuman t.exerciseElapsed)
    else w
  | none => w

/-- `findIndex((e, i) => i > exerciseIndex && e.state === 'pending')`,
scanning from absolute position `n`. -/
def findNextPendingFrom (i : Nat) : Nat → List Exercise → Option Nat
  | _, [] => none
  | n, e :: es =>
    if n > i ∧ e.state = .pending then some n else findNextPendingFrom i (n + 1) es

/-- Index of the first pending exercise strictly after index `i`. -/
def findNextPending (exs : List Exercise) (i : Nat) : Option Nat :=
  findNextPendingFrom i 0 exs

/-- `onStartWorkout`: marks the workout started with the given start date,
activates the first pending exercise if any, writes the file, then starts
the workout timer at that exercise (index 0 if none was pending). -/
def onStartWorkout (s : CState) (date : Str) : CState × List Event :=
  let w₁ := startMeta s.currentParsed date
  match w₁.exercises.findIdx? (fun e => decide (e.state = .pending)) with
  | some firstPending =>
    let w₂ := updateExerciseState w₁ firstPending .inProgress
    let u := updateFile s w₂
    (u.1, u.2 ++ [.startTimer firstPending])
  | none =>
    let u := updateFile s w₁
    (u.1, u.2 ++ [.startTimer 0])

/-- `onFinishWorkout`: records the workout duration when a timer snapshot
is available, marks the workout completed, locks all fields, writes the
file, then stops the timer. -/
def onFinishWorkout (s : CState) (ts : Option TimerVal) : CState × List Event :=
  let w₁ := setDurationMeta s.currentParsed ts
  let w₂ := completeMeta w₁
  let w₃ := lockAllFields w₂
  let u := updateFile s w₃
  (u.1, u.2 ++ [.stopTimer])

/-- `onExerciseFinish`: no-op for a missing exercise; otherwise records
the exercise duration, marks it completed, and either activates the next
pending exercise (advancing the timer before the file write) or completes
the whole workout (setting its duration, locking fields, stopping the
timer after the write). -/
def onExerciseFinish (s : CState) (exerciseIndex : Nat) (ts : Option TimerVal) :
    CState × List Event :=
  let s₀ : CState := { s with hasPendingChanges := false }
  match s₀.currentParsed.exercises[exerciseIndex]? with
  | none => (s₀, [])
  | some _ =>
    let w₁ := recordStep s₀.currentParsed exerciseIndex ts
    let w₂ := updateExerciseState w₁ exerciseIndex .completed
    match findNextPending w₂.exercises exerciseIndex with
    | some nextPending =>
      let w₃ := updateExerciseState w₂ nextPending .inProgress
      let u := updateFile s₀ w₃
      (u.1, .advanceTimer nextPending :: u.2)
    | none =>
      let w₃ := completeMeta w₂
      let w₄ := setDurationMeta w₃ ts
      let w₅ := lockAllFields w₄
      let u := updateFile s₀ w₅
      (u.1, u.2 ++ [.stopTimer])

/-- `onExerciseAddSet`: no-op for a missing exercise; otherwise records
the current set's duration, marks it completed, inserts the duplicate set,
activates it, advances the timer, then writes the file. -/
def onExerciseAddSet (s : CState) (exerciseIndex : Nat) (ts : Option TimerVal) :
    CState × List Event :=
  let s₀ : CState := { s with hasPendingChanges := false }
  match s₀.currentParsed.exercises[exerciseIndex]? with
  | none => (s₀, [])
  | some _ =>
    let w₁ := recordStep s₀.currentParsed exerciseIndex ts
    let w₂ := updateExerciseState w₁ exerciseIndex .completed
    let w₃ := addSet w₂ exerciseIndex
    let w₄ := updateExerciseState w₃ (exerciseIndex + 1) .inProgress
    let u := updateFile s₀ w₄
    (u.1, .advanceTimer (exerciseIndex + 1) :: u.2)

/-- `onExerciseAddRest`: silent no-op when the exercise is missing or the
metadata `restDuration` is unset (falsy); otherwise records the current
exercise's duration, marks it completed, inserts the rest exercise,
activates it, advances the timer, then writes the file. -/
def onExerciseAddRest (s : CState) (exerciseIndex : Nat) (ts : Option TimerVal) :
    CState × List Event :=
  let s₀ : CState := { s with hasPendingChanges := false }
  let restDuration := s₀.currentParsed.metadata.restDuration
  if s₀.currentParsed.exercises[exerciseIndex]?.isNone ∨ isFalsyStr restDuration then
    (s₀, [])
  else
    let w₁ := recordStep s₀.currentParsed exerciseIndex ts
    let w₂ := updateExerciseState w₁ exerciseIndex .completed
    let w₃ := addRest w₂ exerciseIndex (restDuration.getD [])
    let w₄ := updateExerciseState w₃ (exerciseIndex + 1) .inProgress
    let u := updateFile s₀ w₄
    (u.1, .advanceTimer (exerciseIndex + 1) :: u.2)

/-- `onExerciseSkip`: records the duration only when time elapsed, marks
the exercise skipped, and either activates the next pending exercise
(advancing the timer before the file write) or completes the workout
(stopping the timer before the write). -/
def onExerciseSkip (s : CState) (exerciseIndex : Nat) (ts : Option TimerVal) :
    CState × List Event :=
  let s₀ : CState := { s with hasPendingChanges := false }
  let w₁ := skipRecordStep s₀.currentParsed exerciseIndex ts
  let w₂ := updateExerciseState w₁ exerciseIndex .skipped
  match findNextPending w₂.exercises exerciseIndex with
  | some nextPending =>
    let w₃ := updateExerciseState w₂ nextPending .inProgress
    let u := updateFile s₀ w₃
    (u.1, .advanceTimer nextPending :: u.2)
  | none =>
    let w₃ := completeMeta w₂
    let w₄ := setDurationMeta w₃ ts
    let w₅ := lockAllFields w₄
    let u := updateFile s₀ w₅
    (u.1, .stopTimer :: u.2)

/-- `onParamChange`: returns unchanged when the addressed parameter's
current value already equals the new value; otherwise applies
`updateParamValue` and marks pending changes without writing the file. -/
def onParamChange (s : CState) (exerciseIndex : Nat) (paramKey newValue : Str) :
    CState :=
  let unchanged : Bool :=
    match s.currentParsed.exercises[exerciseIndex]? with
    | some e =>
      match e.params.find? (fun p => decide (p.key = paramKey)) with
      | some p => decide (p.value = newValue)
      | none => false
    | none => false
  if unchanged then s
  else
    { currentParsed := updateParamValue s.currentParsed exerciseIndex paramKey newValue,
      hasPendingChanges := true }

/-- `flushChanges`: writes the file only when pending changes exist. -/
def flushChanges (s : CState) : CState × List Event :=
  if s.hasPendingChanges then updateFile s s.currentParsed else (s, [])

/-! ## Operation sequences and the single-active invariant -/

/-- One orchestrator operation of the kind quantified over by the
single-active invariant, with its external inputs attached. -/
inductive Op
  | startW (date : Str)
  | finishW (ts : Option TimerVal)
  | exFinish (i : Nat) (ts : Option TimerVal)
  | exSkip (i : Nat) (ts : Option TimerVal)
  | exAddSet (i : Nat) (ts : Option TimerVal)
  | exAddRest (i : Nat) (ts : Option TimerVal)
deriving DecidableEq, Repr

/-- Dispatch one operation to its callback. -/
def applyOp (s : CState) : Op → CState × List Event
  | .startW date => onStartWorkout s date
  | .finishW ts => onFinishWorkout s ts
  | .exFinish i ts => onExerciseFinish s i ts
  | .exSkip i ts => onExerciseSkip s i ts
  | .exAddSet i ts => onExerciseAddSet s i ts
  | .exAddRest i ts => onExerciseAddRest s i ts

/-- Run a sequence of operations, keeping only the closure state. -/
def runOps (s : CState) : List Op → CState
  | [] => s
  | op :: ops => runOps (applyOp s op).1 ops

/-- Number of exercises of a list in state `inProgress`. -/
def inProgressCountL (exs : List Exercise) : Nat :=
  exs.countP (fun e => decide (e.state = .inProgress))

/-- Number of exercises in state `inProgress`. -/
def inProgressCount (w : ParsedWorkout) : Nat := inProgressCountL w.exercises

/-- The single-active invariant: at most one exercise is `inProgress`,
and only while the workout metadata state is `started`. -/
def SingleActive (w : ParsedWorkout) : Prop :=
  inProgressCount w ≤ 1 ∧ (w.metadata.state ≠ .started → inProgressCount w = 0)

instance (w : ParsedWorkout) : Decidable (SingleActive w) :=
  inferInstanceAs (Decidable (_ ∧ _))

/-- No exercise other than the one at index `i` is `inProgress`: none
before `i` and none after `i`. -/
def othersNotInProgress (exs : List Exercise) (i : Nat) : Prop :=
  inProgressCountL (exs.take i) = 0 ∧ inProgressCountL (exs.drop (i + 1)) = 0

instance (exs : List Exercise) (i : Nat) : Decidable (othersNotInProgress exs i) :=
  inferInstanceAs (Decidable (_ ∧ _))

/-- The situations in which the rendered UI issues each operation:
Start is offered on a `planned` workout; the per-exercise buttons are
rendered only while the workout is `started` and only on the active
exercise (so no other exercise is `inProgress`); Finish-workout is taken
with no exercise active. -/
def guardOk (s : CState) : Op → Prop
  | .startW _ => s.currentParsed.metadata.state = .planned
  | .finishW _ => inProgressCount s.currentParsed = 0
  | .exFinish i _ =>
    s.currentParsed.metadata.state = .started ∧
      othersNotInProgress s.currentParsed.exercises i
  | .exSkip i _ =>
    s.currentParsed.metadata.state = .started ∧
      othersNotInProgress s.currentParsed.exercises i
  | .exAddSet i _ =>
    s.currentParsed.metadata.state = .started ∧
      othersNotInProgress s.currentParsed.exercises i
  | .exAddRest i _ =>
    s.currentParsed.metadata.state = .started ∧
      othersNotInProgress s.currentParsed.exercises i

instance (s : CState) (op : Op) : Decidable (guardOk s op) := by
  cases op <;> unfold guardOk <;> infer_instance

/-- A run in which every operation fires only in a situation the UI
offers it (each guard holds in the state where the operation executes). -/
inductive GuardedRun : CState → List Op → Prop
  | nil (s : CState) : GuardedRun s []
  | cons (s : CState) (op : Op) (ops : List Op) :
      guardOk s op → GuardedRun (applyOp s op).1 ops → GuardedRun s (op :: ops)

/-! ## Addressed data model (object identity)

To make `structuredClone`'s freshness and the mutation discipline of the
engine provable, every mutable object of the data model (the workout
root — covering its `exercises` array —, each exercise and each
parameter) carries an id. Field writes of the TypeScript source become
writes addressed by id, applied simultaneously to the function's input
object and to its clone: a write to an id present in both would visibly
mutate both, exactly as reference aliasing would in JavaScript. -/

/-- `ExerciseParam` with an object id. -/
structure AParam where
  pid : Nat
  key : Str
  value : Str
  editable : Bool
  unit : Option Str
deriving DecidableEq, Repr

/-- `Exercise` with an object id. -/
structure AExercise where
  eid : Nat
  state : ExerciseState
  name : Str
  params : List AParam
  targetDuration : Option Nat
  recordedDuration : Option Str
  lineIndex : Nat
deriving DecidableEq, Repr

/-- `ParsedWorkout` with an object id. -/
structure AWorkout where
  wid : Nat
  metadata : WorkoutMetadata
  exercises : List AExercise
  rawLines : List Str
  metadataEndIndex : Nat
deriving DecidableEq, Repr

/-- All object ids reachable from an exercise. -/
def AExercise.ids (e : AExercise) : List Nat := e.eid :: e.params.map AParam.pid

/-- All object ids reachable from a workout. -/
def AWorkout.ids (w : AWorkout) : List Nat :=
  w.wid :: (w.exercises.map AExercise.ids).flatten

/-- A strict upper bound on a list of naturals. -/
def natsBound (l : List Nat) : Nat := l.foldr (fun a b => max (a + 1) b) 0

/-- Relabel parameter ids with consecutive fresh ids starting at `n`;
also returns the next unused id. -/
def relabelParams (n : Nat) : List AParam → List AParam × Nat
  | [] => ([], n)
  | p :: ps =>
    let r := relabelParams (n + 1) ps
    ({ p with pid := n } :: r.1, r.2)

/-- Relabel exercise and parameter ids with consecutive fresh ids
starting at `n`; also returns the next unused id. -/
def relabelExercises (n : Nat) : List AExercise → List AExercise × Nat
  | [] => ([], n)
  | e :: es =>
    let rp := relabelParams (n + 1) e.params
    let re := relabelExercises rp.2 es
    ({ e with eid := n, params := rp.1 } :: re.1, re.2)

/-- `structuredClone(parsed)`: an equal value whose every object id is
fresh (no id below `natsBound parsed.ids` remains). -/
def structuredCloneA (w : AWorkout) : AWorkout :=
  let n := natsBound w.ids
  { w with wid := n, exercises := (relabelExercises (n + 1) w.exercises).1 }

/-- `{...structuredClone(exercise)}` — a copy of one exercise under
entirely fresh ids starting at `n`. -/
def cloneExerciseA (n : Nat) (e : AExercise) : AExercise :=
  { e with eid := n, params := (relabelParams (n + 1) e.params).1 }

/-- A field write on the parameter object with id `pid`, wherever that
object occurs below the given root. -/
def writeParamById (pid : Nat) (f : AParam → AParam) (w : AWorkout) : AWorkout :=
  { w with exercises := w.exercises.map fun e =>
      { e with params := e.params.map fun p => if p.pid = pid then f p else p } }

/-- A field write on the exercise object with id `eid`, wherever that
object occurs below the given root. -/
def writeExerciseById (eid : Nat) (f : AExercise → AExercise) (w : AWorkout) : AWorkout :=
  { w with exercises := w.exercises.map fun e => if e.eid = eid then f e else e }

/-- A write to the exercises array of the root object with id `wid`. -/
def writeRootExercises (wid : Nat) (f : List AExercise → List AExercise)
    (w : AWorkout) : AWorkout :=
  if w.wid = wid then { w with exercises := f w.exercises } else w

/-- The returned workout holds no object id of `w` — no mutable aliasing
between the two. -/
def IdsFresh (w result : AWorkout) : Prop := ∀ a ∈ result.ids, a ∉ w.ids

instance (w result : AWorkout) : Decidable (IdsFresh w result) :=
  inferInstanceAs (Decidable (∀ a ∈ result.ids, a ∉ w.ids))

/-- `updateParamValue` in the addressed model: clone, look up the
exercise on the clone, find the parameter by exact key, write its value
by id. The first component is the state of the input object after the
call, the second the returned object (`return parsed` on an out-of-range
index returns the input object itself). -/
def updateParamValueA (parsed : AWorkout) (exerciseIndex : Nat)
    (paramKey newValue : Str) : AWorkout × AWorkout :=
  let c := structuredCloneA parsed
  match c.exercises[exerciseIndex]? with
  | none => (parsed, parsed)
  | some exercise =>
    match exercise.params.find? (fun p => decide (p.key = paramKey)) with
    | some param =>
      let write := writeParamById param.pid (fun q => { q with value := newValue })
      (write parsed, write c)
    | none => (parsed, c)

/-- `updateExerciseState` in the addressed model. -/
def updateExerciseStateA (parsed : AWorkout) (exerciseIndex : Nat)
    (newState : ExerciseState) : AWorkout × AWorkout :=
  let c := structuredCloneA parsed
  match c.exercises[exerciseIndex]? with
  | none => (parsed, parsed)
  | some exercise =>
    let write := writeExerciseById exercise.eid (fun e => { e with state := newState })
    (write parsed, write c)

/-- `lockAllFields` in the addressed model: one editability write per
parameter object of the clone, in iteration order. -/
def lockAllFieldsA (parsed : AWorkout) : AWorkout × AWorkout :=
  let c := structuredCloneA parsed
  let pids := (c.exercises.map (fun e => e.params.map AParam.pid)).flatten
  let write := fun (w : AWorkout) =>
    pids.foldl
      (fun acc pid => writeParamById pid (fun p => { p with editable := false }) acc) w
  (write parsed, write c)

/-- `addSet` in the addressed model: clone, build the duplicate exercise
from a nested `structuredClone` of the original under fresh ids, splice
it into the clone's exercises array (a root write), then bump `lineIndex`
of the exercises from position `exerciseIndex + 2` on, one write per
exercise id. -/
def addSetA (parsed : AWorkout) (exerciseIndex : Nat) : AWorkout × AWorkout :=
  let c := structuredCloneA parsed
  match c.exercises[exerciseIndex]? with
  | none => (parsed, parsed)
  | some exercise =>
    let base := natsBound (parsed.ids ++ c.ids)
    let dup := cloneExerciseA base exercise
    let newExercise : AExercise :=
      { dup with
        state := .pending
        recordedDuration := none
        lineIndex := exercise.lineIndex + 1
        params := dup.params.map fun p =>
          if lowerStr p.key = str "duration" ∧ p.editable = false then
            { p with editable := exercise.targetDuration.isSome }
          else p }
    let spliceW := writeRootExercises c.wid
      (fun exs => exs.insertIdx (exerciseIndex + 1) newExercise)
    let w₁ := spliceW parsed
    let c₁ := spliceW c
    let bumpIds := (c₁.exercises.drop (exerciseIndex + 2)).map AExercise.eid
    let bump := fun (w : AWorkout) =>
      bumpIds.foldl
        (fun acc eid =>
          writeExerciseById eid (fun e => { e with lineIndex := e.lineIndex + 1 }) acc) w
    (bump w₁, bump c₁)

/-- `setRecordedDuration` in the addressed model: clone, find or push a
Duration parameter (a push allocates a fresh parameter object), write
value/editability by parameter id and the recorded duration by exercise
id. -/
def setRecordedDurationA (parsed : AWorkout) (exerciseIndex : Nat)
    (durationStr : Str) : AWorkout × AWorkout :=
  let c := structuredCloneA parsed
  match c.exercises[exerciseIndex]? with
  | none => (parsed, parsed)
  | some exercise =>
    match exercise.params.find? (fun p => decide (lowerStr p.key = str "duration")) with
    | some durationParam =>
      let write₁ := writeParamById durationParam.pid
        (fun p => { p with value := durationStr, editable := false })
      let write₂ := writeExerciseById exercise.eid
        (fun e => { e with recordedDuration := some durationStr })
      (write₂ (write₁ parsed), write₂ (write₁ c))
    | none =>
      let freshPid := natsBound (parsed.ids ++ c.ids)
      let write₁ := writeExerciseById exercise.eid
        (fun e => { e with params :=
          e.params ++ [⟨freshPid, str "Duration", durationStr, false, none⟩] })
      let write₂ := writeExerciseById exercise.eid
        (fun e => { e with recordedDuration := some durationStr })
      (write₂ (write₁ parsed), write₂ (write₁ c))

/-! ## Host-document writer (src/file/updater.ts) -/

/-- Section info from the host editor (`types.ts`): `lineStart` is the
opening fence line, `lineEnd` the closing fence line. -/
structure SectionInfo where
  lineStart : Nat
  lineEnd : Nat
deriving DecidableEq, Repr

/-- The title of the workout block currently at the target location of a
document (the lines strictly between the two fences). -/
def blockTitle (docLines : List Str) (info : SectionInfo) : Option Str :=
  (parseWorkout
    (joinWith ['\n'] ((docLines.take info.lineEnd).drop (info.lineStart + 1)))).metadata.title

/-- Modelled from the spec: `FileUpdater.updateCodeBlock` taking the
`expectedTitle` argument that `updateFile` passes ("Pass title for
validation to prevent cross-block contamination"); the provided
`file/updater.ts` is the earlier three-parameter snapshot without that
parameter, so the validating version is modelled from the spec: the
writer "must validate that the block at that location still matches an
expected title/fingerprint before writing", refusing the write and
leaving the document unchanged on a mismatch (and on a missing
location). On success it replaces the lines strictly between the fences
with the new content. -/
def updateCodeBlock (docLines : List Str) (sectionInfo : Option SectionInfo)
    (newContent : Str) (expectedTitle : Option Str) : List Str :=
  match sectionInfo with
  | none => docLines
  | some info =>
    if blockTitle docLines info = expectedTitle then
      docLines.take (info.lineStart + 1) ++ splitOnC '\n' newContent ++
        docLines.drop info.lineEnd
    else docLines

/-! ## Grammar acceptance and well-formedness -/

/-- A metadata line of the grammar of §6: `key: value` with a recognized
key, the `state` value being one of the three states. -/
def acceptedMetadataLine (l : Str) : Bool :=
  containsC ':' l &&
    (let key := trimC (takeUntil ':' l)
     decide (key = str "title") ||
       (decide (key = str "state") &&
         (readWorkoutState (trimC (dropThrough ':' l))).isSome) ||
       decide (key = str "startDate") || decide (key = str "duration") ||
       decide (key = str "restDuration"))

/-- A workout text accepted by the grammar of §6: recognized metadata
lines, a separator line, and parseable exercise checklist lines. -/
def acceptedByGrammar (text : Str) : Bool :=
  let lines := splitOnC '\n' text
  match lines.findIdx? (fun l => decide (l = str "---")) with
  | some k =>
    (lines.take k).all acceptedMetadataLine &&
      (lines.drop (k + 1)).all (fun l => (parseExerciseLine l).isSome)
  | none => false

/-- The invariants a parameter produced by `parseParamPiece` satisfies;
exactly what the serializer needs for the cell to read back identically. -/
def ParamWf (p : ExerciseParam) : Prop :=
  ('\n' ∉ p.key ∧ '|' ∉ p.key ∧ ':' ∉ p.key ∧ trimC p.key = p.key) ∧
  ('\n' ∉ p.value ∧ '|' ∉ p.value) ∧
  (if p.editable then
    ']' ∉ p.value ∧
      ∀ u, p.unit = some u → '\n' ∉ u ∧ '|' ∉ u ∧ trimC u = u ∧ u ≠ []
   else
    trimC p.value = p.value ∧
      ¬(p.value.head? = some '[' ∧ ']' ∈ p.value) ∧ p.unit = none)

/-- The invariants an exercise produced by the parser satisfies. -/
def ExerciseWf (e : Exercise) : Prop :=
  '\n' ∉ e.name ∧ '|' ∉ e.name ∧ trimC e.name = e.name ∧
    (∀ p ∈ e.params, ParamWf p) ∧
    (e.targetDuration, e.recordedDuration) = deriveDurations e.params

/-- The invariants an optional metadata value produced by the parser
satisfies. -/
def MetaValWf (v : Option Str) : Prop :=
  ∀ x, v = some x → '\n' ∉ x ∧ trimC x = x ∧ x ≠ []

/-- The invariants the parsed metadata satisfies. -/
def MetadataWf (m : WorkoutMetadata) : Prop :=
  MetaValWf m.title ∧ MetaValWf m.startDate ∧ MetaValWf m.duration ∧
    MetaValWf m.restDuration

/-- The invariants a parsed workout satisfies. -/
def WorkoutWf (w : ParsedWorkout) : Prop :=
  MetadataWf w.metadata ∧ ∀ e ∈ w.exercises, ExerciseWf e

/-- The cell strings produced by splitting a serialized exercise line at
`|`: the name cell (with the following separator space), then each
serialized parameter cell padded by the separator spaces. -/
def piecesAux (pre : Str) : List ExerciseParam → List Str
  | [] => [pre]
  | p :: rest => (pre ++ [' ']) :: piecesAux (' ' :: serializeParam p) rest

/-! ## Fixtures for witnesses and counterexamples -/

/-- A pending strength exercise. -/
def exSquats : Exercise :=
  { state := .pending, name := str "Squats",
    params := [⟨str "Weight", str "60", true, some (str "kg")⟩],
    targetDuration := none, recordedDuration := none, lineIndex := 0 }

/-- A pending countdown exercise. -/
def exPlank : Exercise :=
  { state := .pending, name := str "Plank",
    params := [⟨str "Duration", str "60s", true, none⟩],
    targetDuration := some 60, recordedDuration := none, lineIndex := 1 }

/-- A two-exercise planned workout with a default rest duration. -/
def wAB : ParsedWorkout :=
  { metadata := { defaultMetadata with restDuration := some (str "45s") },
    exercises := [exSquats, exPlank], rawLines := [], metadataEndIndex := 0 }

/-- Closure state over `wAB` with no pending changes. -/
def sAB : CState := { currentParsed := wAB, hasPendingChanges := false }

/-- A workout whose only exercise has an editable Duration parameter that
is not a time literal, hence no `targetDuration`. -/
def exStretch : Exercise :=
  { state := .inProgress, name := str "Stretch",
    params := [⟨str "Duration", str "abc", true, none⟩],
    targetDuration := none, recordedDuration := none, lineIndex := 0 }

/-- The stretch exercise wrapped in a workout (see `exStretch`). -/
def wEditDur : ParsedWorkout :=
  { metadata := defaultMetadata, exercises := [exStretch], rawLines := [],
    metadataEndIndex := 0 }

/-- An addressed workout with no exercises. -/
def aw0 : AWorkout :=
  { wid := 0, metadata := defaultMetadata, exercises := [], rawLines := [],
    metadataEndIndex := 0 }

/-- An addressed pending exercise with one parameter. -/
def aexSquats : AExercise :=
  { eid := 1, state := .pending, name := str "Squats",
    params := [⟨2, str "Weight", str "60", true, some (str "kg")⟩],
    targetDuration := none, recordedDuration := none, lineIndex := 0 }

/-- An addressed workout with one exercise and one parameter. -/
def aw1 : AWorkout :=
  { wid := 0, metadata := defaultMetadata, exercises := [aexSquats],
    rawLines := [], metadataEndIndex := 0 }

/-- A grammar-conforming sample workout text. -/
def sampleText : Str :=
  str "title: Morning Workout\nstate: planned\nstartDate:\nduration:\nrestDuration: 45s\n---\n- [ ] Squats | Weight: [60] kg | Reps: [10]\n- [ ] Rest | Duration: [45s]"

/-- A five-line host document: an opening fence line, a three-line
workout block titled `A`, and a closing fence line. -/
def docA : List Str :=
  [str "fence open", str "title: A", str "state: planned", str "---", str "fence close"]

/-! # Theorems -/

/-- C3: every mutation-engine function taking an exercise index returns
the input workout unchanged when the index is out of range. -/
theorem C3_out_of_range_mutation_noop (w : ParsedWorkout) (i : Nat)
    (h : w.exercises.length ≤ i) (key v d : Str) (st : ExerciseState) :
    updateParamValue w i key v = w ∧ updateExerciseState w i st = w ∧
      addSet w i = w ∧ setRecordedDuration w i d = w := by
  have hnone : w.exercises[i]? = none := List.getElem?_eq_none h
  refine ⟨?_, ?_, ?_, ?_⟩ <;>
    simp [updateParamValue, updateExerciseState, addSet, setRecordedDuration, hnone]

/-- Witness for C3 at the two-exercise workout `wAB` and index 2. -/
theorem C3_out_of_range_mutation_noop_witness :
    wAB.exercises.length ≤ 2 ∧
      (updateParamValue wAB 2 (str "Weight") (str "70") = wAB ∧
        updateExerciseState wAB 2 .completed = wAB ∧ addSet wAB 2 = wAB ∧
        setRecordedDuration wAB 2 (str "10s") = wAB) :=
  ⟨by decide,
   C3_out_of_range_mutation_noop wAB 2 (by decide) (str "Weight") (str "70")
     (str "10s") .completed⟩

/-- C8: when the metadata `restDuration` is unset (falsy),
`onExerciseAddRest` is a silent no-op — the in-memory workout is
unchanged (so no rest exercise is inserted) and no effect, in particular
no file write, is performed. -/
theorem C8_add_rest_noop_without_rest_duration (s : CState) (i : Nat)
    (ts : Option TimerVal)
    (h : isFalsyStr s.currentParsed.metadata.restDuration = true) :
    (onExerciseAddRest s i ts).1.currentParsed = s.currentParsed ∧
      (onExerciseAddRest s i ts).2 = [] := by
  unfold onExerciseAddRest
  simp [h]

/-- Witness for C8 on a workout whose metadata has no `restDuration`. -/
theorem C8_add_rest_noop_without_rest_duration_witness :
    isFalsyStr (CState.mk wEditDur false).currentParsed.metadata.restDuration = true ∧
      ((onExerciseAddRest ⟨wEditDur, false⟩ 0 none).1.currentParsed = wEditDur ∧
        (onExerciseAddRest ⟨wEditDur, false⟩ 0 none).2 = []) :=
  ⟨by decide, C8_add_rest_noop_without_rest_duration ⟨wEditDur, false⟩ 0 none (by decide)⟩

/-- C10: calling `onParamChange` with a value equal to the addressed
parameter's current value leaves the closure state untouched (the
workout is not modified and pending changes are not marked), and with no
pending changes a subsequent `flushChanges` writes nothing. -/
theorem C10_param_change_equal_value_noop (s : CState) (i : Nat) (key : Str)
    (e : Exercise) (p : ExerciseParam)
    (he : s.currentParsed.exercises[i]? = some e)
    (hp : e.params.find? (fun q => decide (q.key = key)) = some p) :
    onParamChange s i key p.value = s ∧
      (s.hasPendingChanges = false → flushChanges s = (s, [])) := by
  constructor
  · unfold onParamChange
    simp [he, hp]
  · intro hf
    unfold flushChanges
    simp [hf]

/-- Witness for C10 at `sAB`, exercise 0, key `Weight`, current value
`60`. -/
theorem C10_param_change_equal_value_noop_witness :
    (sAB.currentParsed.exercises[0]? = some exSquats ∧
      exSquats.params.find? (fun q => decide (q.key = str "Weight")) =
        some ⟨str "Weight", str "60", true, some (str "kg")⟩) ∧
      (onParamChange sAB 0 (str "Weight") (str "60") = sAB ∧
        (sAB.hasPendingChanges = false → flushChanges sAB = (sAB, []))) :=
  ⟨⟨by decide, by decide⟩,
   C10_param_change_equal_value_noop sAB 0 (str "Weight") exSquats
     ⟨str "Weight", str "60", true, some (str "kg")⟩ (by decide) (by decide)⟩

/-- `findNextPendingFrom` only depends on the states at positions whose
absolute index exceeds `i`. -/
theorem findNextPendingFrom_congr (i : Nat) :
    ∀ (xs ys : List Exercise) (n : Nat), xs.length = ys.length →
      (∀ k, i < n + k → xs[k]?.map Exercise.state = ys[k]?.map Exercise.state) →
      findNextPendingFrom i n xs = findNextPendingFrom i n ys
  | [], [], _, _, _ => rfl
  | [], _ :: _, _, hlen, _ => by simp at hlen
  | _ :: _, [], _, hlen, _ => by simp at hlen
  | x :: xs, y :: ys, n, hlen, h => by
    have htail : findNextPendingFrom i (n + 1) xs = findNextPendingFrom i (n + 1) ys :=
      findNextPendingFrom_congr i xs ys (n + 1) (by simpa using hlen)
        (fun k hk => by
          have := h (k + 1) (by omega)
          simpa using this)
    unfold findNextPendingFrom
    by_cases hn : n > i
    · have hxy : x.state = y.state := by
        have := h 0 (by omega)
        simpa using this
      rw [hxy]
      by_cases hp : y.state = .pending
      · simp [hn, hp]
      · simp [hn, hp, htail]
    · simp [hn, htail]

/-- `setRecordedDuration` does not change any exercise's state. -/
theorem state_setRecordedDuration (w : ParsedWorkout) (i : Nat) (d : Str) (k : Nat) :
    (setRecordedDuration w i d).exercises[k]?.map Exercise.state =
      w.exercises[k]?.map Exercise.state := by
  unfold setRecordedDuration
  cases hw : w.exercises[i]? with
  | none => rfl
  | some e =>
    have hlt : i < w.exercises.length := (List.getElem?_eq_some.mp hw).1
    simp only [List.getElem?_set]
    by_cases hik : i = k
    · subst hik
      simp [hlt, hw]
    · simp [hik]

/-- `updateExerciseState` does not change states at other indices. -/
theorem state_updateExerciseState_ne (w : ParsedWorkout) (i : Nat)
    (st : ExerciseState) (k : Nat) (hik : i ≠ k) :
    (updateExerciseState w i st).exercises[k]?.map Exercise.state =
      w.exercises[k]?.map Exercise.state := by
  unfold updateExerciseState
  cases hw : w.exercises[i]? with
  | none => rfl
  | some e =>
    simp only [List.getElem?_set]
    simp [hik]

/-- `setRecordedDuration` preserves the number of exercises. -/
theorem length_setRecordedDuration (w : ParsedWorkout) (i : Nat) (d : Str) :
    (setRecordedDuration w i d).exercises.length = w.exercises.length := by
  unfold setRecordedDuration
  cases hw : w.exercises[i]? with
  | none => rfl
  | some e => simp

/-- `updateExerciseState` preserves the number of exercises. -/
theorem length_updateExerciseState (w : ParsedWorkout) (i : Nat) (st : ExerciseState) :
    (updateExerciseState w i st).exercises.length = w.exercises.length := by
  unfold updateExerciseState
  cases hw : w.exercises[i]? with
  | none => rfl
  | some e => simp

/-- The forward scan for the next pending exercise is unaffected by
recording a duration at index `i`. -/
theorem findNextPending_setRecordedDuration (w : ParsedWorkout) (i : Nat) (d : Str) :
    findNextPending (setRecordedDuration w i d).exercises i =
      findNextPending w.exercises i :=
  findNextPendingFrom_congr i _ _ 0 (length_setRecordedDuration w i d)
    (fun k _ => state_setRecordedDuration w i d k)

/-- The forward scan for the next pending exercise is unaffected by a
state write at index `i` itself. -/
theorem findNextPending_updateExerciseState (w : ParsedWorkout) (i : Nat)
    (st : ExerciseState) :
    findNextPending (updateExerciseState w i st).exercises i =
      findNextPending w.exercises i :=
  findNextPendingFrom_congr i _ _ 0 (length_updateExerciseState w i st)
    (fun k hk => state_updateExerciseState_ne w i st k (by omega))

/-- C2: when the workout block currently at the target location does not
carry the expected title supplied by the orchestrator, `updateCodeBlock`
refuses the write and returns the document unchanged. -/
theorem C2_stale_target_write_refused (docLines : List Str) (info : SectionInfo)
    (newContent : Str) (expectedTitle : Option Str)
    (h : blockTitle docLines info ≠ expectedTitle) :
    updateCodeBlock docLines (some info) newContent expectedTitle = docLines := by
  unfold updateCodeBlock
  simp [h]

/-- Witness for C2: the block of `docA` is titled `A`, so a write
expecting title `B` leaves the document unchanged. -/
theorem C2_stale_target_write_refused_witness :
    blockTitle docA ⟨0, 4⟩ ≠ some (str "B") ∧
      updateCodeBlock docA (some ⟨0, 4⟩) (str "state: started") (some (str "B")) = docA :=
  ⟨by decide, C2_stale_target_write_refused docA ⟨0, 4⟩ (str "state: started")
    (some (str "B")) (by decide)⟩

/-- Dropping leading spaces ignores one more leading space. -/
theorem ltrim_cons_space (s : Str) : ltrim (' ' :: s) = ltrim s := by
  simp [ltrim, isSpaceC]

/-- A string headed by a non-space is already left-trimmed. -/
theorem ltrim_cons_of_ne (c : Char) (s : Str) (h : c ≠ ' ') :
    ltrim (c :: s) = c :: s := by
  simp [ltrim, isSpaceC, h]

/-- Left-trimming an append. -/
theorem ltrim_append (s t : Str) :
    ltrim (s ++ t) = if ltrim s = [] then ltrim t else ltrim s ++ t := by
  induction s with
  | nil => simp [ltrim]
  | cons c s ih =>
    by_cases hc : c = ' '
    · subst hc
      rw [List.cons_append, ltrim_cons_space, ltrim_cons_space, ih]
    · rw [List.cons_append, ltrim_cons_of_ne c _ hc, ltrim_cons_of_ne c _ hc]
      simp

/-- Right-trimming ignores a trailing space. -/
theorem rtrim_append_space (s : Str) : rtrim (s ++ [' ']) = rtrim s := by
  unfold rtrim
  rw [List.reverse_append]
  simp only [List.reverse_cons, List.reverse_nil, List.nil_append, List.singleton_append]
  rw [ltrim_cons_space]

/-- Right-trimming an append whose right part does not trim away. -/
theorem rtrim_append_of (a b : Str) (h : rtrim b ≠ []) :
    rtrim (a ++ b) = a ++ rtrim b := by
  unfold rtrim at *
  rw [List.reverse_append, ltrim_append]
  have hne : ltrim b.reverse ≠ [] := by
    intro hc
    rw [hc] at h
    exact h rfl
  rw [if_neg hne]
  rw [List.reverse_append, List.reverse_reverse]

/-- Trimming ignores a leading space. -/
theorem trimC_cons_space (s : Str) : trimC (' ' :: s) = trimC s := by
  unfold trimC
  rw [ltrim_cons_space]

/-- Trimming ignores a trailing space. -/
theorem trimC_append_space (s : Str) : trimC (s ++ [' ']) = trimC s := by
  unfold trimC
  rw [ltrim_append]
  by_cases h : ltrim s = []
  · rw [if_pos h, h]
    rfl
  · rw [if_neg h, rtrim_append_space]

/-- The left trim is a sublist. -/
theorem ltrim_sublist (s : Str) : List.Sublist (ltrim s) s :=
  List.dropWhile_sublist _

/-- The right trim is a sublist. -/
theorem rtrim_sublist (s : Str) : List.Sublist (rtrim s) s := by
  unfold rtrim
  have := (List.dropWhile_sublist (l := s.reverse) (p := isSpaceC)).reverse
  simpa using this

/-- The trim is a sublist. -/
theorem trimC_sublist (s : Str) : List.Sublist (trimC s) s :=
  (rtrim_sublist (ltrim s)).trans (ltrim_sublist s)

/-- A trimmed string is left-trimmed. -/
theorem ltrim_of_trimC_eq (s : Str) (h : trimC s = s) : ltrim s = s := by
  apply (ltrim_sublist s).eq_of_length_le
  have h1 := (rtrim_sublist (ltrim s)).length_le
  have h2 : (trimC s).length = s.length := by rw [h]
  unfold trimC at h2
  omega

/-- A trimmed string is right-trimmed. -/
theorem rtrim_of_trimC_eq (s : Str) (h : trimC s = s) : rtrim s = s := by
  have hl := ltrim_of_trimC_eq s h
  unfold trimC at h
  rw [hl] at h
  exact h

/-- The right trim is a prefix. -/
theorem rtrim_prefix_self (s : Str) : List.IsPrefix (rtrim s) s := by
  unfold rtrim
  have := List.dropWhile_suffix (l := s.reverse) (p := isSpaceC)
  have h2 := this.reverse
  simpa using h2

/-- A prefix of a left-trimmed string is left-trimmed. -/
theorem ltrim_of_prefix_self (x y : Str) (hx : ltrim x = x) (hp : List.IsPrefix y x) :
    ltrim y = y := by
  cases y with
  | nil => rfl
  | cons c y' =>
    cases x with
    | nil =>
      have := hp.length_le
      simp at this
    | cons d x' =>
      have hcd : c = d := by
        obtain ⟨t, ht⟩ := hp
        rw [List.cons_append] at ht
        exact (List.cons.injEq _ _ _ _ ▸ ht).1
      subst hcd
      by_cases hc : c = ' '
      · subst hc
        rw [ltrim_cons_space] at hx
        have := congrArg List.length hx
        have h2 := (ltrim_sublist x').length_le
        simp at this
        omega
      · exact ltrim_cons_of_ne c y' hc

/-- Left-trimming is idempotent. -/
theorem ltrim_idem (s : Str) : ltrim (ltrim s) = ltrim s := by
  induction s with
  | nil => rfl
  | cons c s ih =>
    by_cases hc : c = ' '
    · subst hc
      rw [ltrim_cons_space]
      exact ih
    · rw [ltrim_cons_of_ne c _ hc, ltrim_cons_of_ne c _ hc]

/-- Trimming is idempotent. -/
theorem trimC_idem (s : Str) : trimC (trimC s) = trimC s := by
  have h1 : ltrim (trimC s) = trimC s := by
    unfold trimC
    exact ltrim_of_prefix_self (ltrim s) (rtrim (ltrim s)) (ltrim_idem s)
      (rtrim_prefix_self (ltrim s))
  show trimC (trimC s) = trimC s
  unfold trimC
  unfold trimC at h1
  rw [h1]
  show rtrim (rtrim (ltrim s)) = rtrim (ltrim s)
  unfold rtrim
  rw [List.reverse_reverse, ltrim_idem]

/-- `splitOnC` never returns the empty list of pieces. -/
theorem splitOnC_ne_nil (c : Char) (s : Str) : splitOnC c s ≠ [] := by
  cases s with
  | nil => simp [splitOnC]
  | cons x xs =>
    unfold splitOnC
    by_cases h : x = c
    · simp [h]
    · rw [if_neg h]
      cases splitOnC c xs <;> simp

/-- Splitting a separator-free string yields the single piece. -/
theorem splitOnC_of_not_mem (c : Char) (s : Str) (h : c ∉ s) :
    splitOnC c s = [s] := by
  induction s with
  | nil => rfl
  | cons x xs ih =>
    have hx : x ≠ c := fun hc => h (hc ▸ List.mem_cons_self x xs)
    have hxs : c ∉ xs := fun hc => h (List.mem_cons_of_mem x hc)
    unfold splitOnC
    rw [if_neg hx, ih hxs]

/-- Unfolding equation for `splitOnC` on a cons cell. -/
theorem splitOnC_cons_eq (c x : Char) (xs : Str) :
    splitOnC c (x :: xs) =
      if x = c then [] :: splitOnC c xs
      else match splitOnC c xs with
        | [] => [[x]]
        | h :: t => (x :: h) :: t := rfl

/-- Splitting at the first separator occurrence peels off the first piece. -/
theorem splitOnC_append_cons (c : Char) (a b : Str) (h : c ∉ a) :
    splitOnC c (a ++ c :: b) = a :: splitOnC c b := by
  induction a with
  | nil =>
    show splitOnC c (c :: b) = [] :: splitOnC c b
    rw [splitOnC_cons_eq, if_pos rfl]
  | cons x xs ih =>
    have hx : x ≠ c := fun hc => h (hc ▸ List.mem_cons_self x xs)
    have hxs : c ∉ xs := fun hc => h (List.mem_cons_of_mem x hc)
    show splitOnC c (x :: (xs ++ c :: b)) = (x :: xs) :: splitOnC c b
    rw [splitOnC_cons_eq, if_neg hx, ih hxs]

/-- No piece produced by `splitOnC` contains the separator. -/
theorem not_mem_of_mem_splitOnC (c : Char) (s p : Str)
    (hp : p ∈ splitOnC c s) : c ∉ p := by
  induction s generalizing p with
  | nil =>
    simp [splitOnC] at hp
    subst hp
    simp
  | cons x xs ih =>
    unfold splitOnC at hp
    by_cases hx : x = c
    · rw [if_pos hx] at hp
      rcases List.mem_cons.mp hp with h1 | h1
      · subst h1; simp
      · exact ih p h1
    · rw [if_neg hx] at hp
      cases hs : splitOnC c xs with
      | nil => exact absurd hs (splitOnC_ne_nil c xs)
      | cons hd tl =>
        rw [hs] at hp
        rcases List.mem_cons.mp hp with h1 | h1
        · subst h1
          intro hc
          rcases List.mem_cons.mp hc with h2 | h2
          · exact hx h2.symm
          · exact ih hd (hs ▸ List.mem_cons_self hd tl) h2
        · exact ih p (hs ▸ List.mem_cons_of_mem hd h1)

/-- Characters of a `splitOnC` piece come from the source string. -/
theorem mem_of_mem_splitOnC (c : Char) (s p : Str)
    (hp : p ∈ splitOnC c s) : ∀ a ∈ p, a ∈ s := by
  induction s generalizing p with
  | nil =>
    simp [splitOnC] at hp
    subst hp
    simp
  | cons x xs ih =>
    intro a ha
    unfold splitOnC at hp
    by_cases hx : x = c
    · rw [if_pos hx] at hp
      rcases List.mem_cons.mp hp with h1 | h1
      · subst h1; simp at ha
      · exact List.mem_cons_of_mem x (ih p h1 a ha)
    · rw [if_neg hx] at hp
      cases hs : splitOnC c xs with
      | nil => exact absurd hs (splitOnC_ne_nil c xs)
      | cons hd tl =>
        rw [hs] at hp
        rcases List.mem_cons.mp hp with h1 | h1
        · subst h1
          rcases List.mem_cons.mp ha with h2 | h2
          · exact h2 ▸ List.mem_cons_self x xs
          · exact List.mem_cons_of_mem x
              (ih hd (hs ▸ List.mem_cons_self hd tl) a h2)
        · exact List.mem_cons_of_mem x
            (ih p (hs ▸ List.mem_cons_of_mem hd h1) a ha)

/-- Splitting inverts joining when no piece contains the separator. -/
theorem splitOnC_joinWith (c : Char) (L : List Str) (hne : L ≠ [])
    (h : ∀ l ∈ L, c ∉ l) : splitOnC c (joinWith [c] L) = L := by
  induction L with
  | nil => exact absurd rfl hne
  | cons x xs ih =>
    cases xs with
    | nil =>
      show splitOnC c (joinWith [c] [x]) = [x]
      exact splitOnC_of_not_mem c x (h x (List.mem_cons_self x []))
    | cons y ys =>
      show splitOnC c (x ++ [c] ++ joinWith [c] (y :: ys)) = x :: y :: ys
      rw [List.append_assoc, List.singleton_append,
        splitOnC_append_cons c x _ (h x (List.mem_cons_self x _))]
      rw [ih (by simp) (fun l hl => h l (List.mem_cons_of_mem x hl))]

/-- `containsC` decides character membership. -/
theorem containsC_eq_true_iff (c : Char) (s : Str) :
    containsC c s = true ↔ c ∈ s := by
  simp [containsC, List.any_eq_true]

/-- `containsC` is false exactly on separator-free strings. -/
theorem containsC_eq_false_iff (c : Char) (s : Str) :
    containsC c s = false ↔ c ∉ s := by
  rw [← Bool.not_eq_true, not_iff_not]
  exact containsC_eq_true_iff c s

/-- `takeUntil` keeps everything before the first separator. -/
theorem takeUntil_append_cons (c : Char) (a b : Str) (h : c ∉ a) :
    takeUntil c (a ++ c :: b) = a := by
  induction a with
  | nil => simp [takeUntil]
  | cons x xs ih =>
    have hx : x ≠ c := fun hc => h (hc ▸ List.mem_cons_self x xs)
    have hxs : c ∉ xs := fun hc => h (List.mem_cons_of_mem x hc)
    show takeUntil c (x :: (xs ++ c :: b)) = x :: xs
    unfold takeUntil at *
    rw [List.takeWhile_cons, if_pos (by simp [hx]), ih hxs]

/-- `takeUntil` of a separator-free string is the string. -/
theorem takeUntil_of_not_mem (c : Char) (s : Str) (h : c ∉ s) :
    takeUntil c s = s := by
  induction s with
  | nil => rfl
  | cons x xs ih =>
    have hx : x ≠ c := fun hc => h (hc ▸ List.mem_cons_self x xs)
    have hxs : c ∉ xs := fun hc => h (List.mem_cons_of_mem x hc)
    unfold takeUntil at *
    rw [List.takeWhile_cons, if_pos (by simp [hx]), ih hxs]

/-- `dropThrough` drops through the first separator. -/
theorem dropThrough_append_cons (c : Char) (a b : Str) (h : c ∉ a) :
    dropThrough c (a ++ c :: b) = b := by
  induction a with
  | nil => simp [dropThrough]
  | cons x xs ih =>
    have hx : x ≠ c := fun hc => h (hc ▸ List.mem_cons_self x xs)
    have hxs : c ∉ xs := fun hc => h (List.mem_cons_of_mem x hc)
    show dropThrough c (x :: (xs ++ c :: b)) = b
    unfold dropThrough at *
    rw [List.dropWhile_cons, if_pos (by simp [hx])]
    exact ih hxs

/-- `dropThrough` of a separator-free string is empty. -/
theorem dropThrough_of_not_mem (c : Char) (s : Str) (h : c ∉ s) :
    dropThrough c s = [] := by
  unfold dropThrough
  have : s.dropWhile (· ≠ c) = [] := by
    rw [List.dropWhile_eq_nil_iff]
    intro x hx
    simp
    exact fun hc => h (hc ▸ hx)
  rw [this]
  rfl

/-- Decompose a list at an index known to hold `e`. -/
theorem list_eq_take_cons_drop {α : Type} (l : List α) (i : Nat) (e : α)
    (h : l[i]? = some e) : l = l.take i ++ e :: l.drop (i + 1) := by
  obtain ⟨hlt, hval⟩ := List.getElem?_eq_some.mp h
  conv_lhs => rw [← List.take_append_drop i l]
  rw [List.drop_eq_getElem_cons hlt, hval]

/-- `set` as take/append/drop at an index known to be in range. -/
theorem set_eq_take_cons_drop {α : Type} (l : List α) (i : Nat) (e e' : α)
    (h : l[i]? = some e) : l.set i e' = l.take i ++ e' :: l.drop (i + 1) := by
  obtain ⟨hlt, _⟩ := List.getElem?_eq_some.mp h
  rw [List.set_eq_take_append_cons_drop, if_pos hlt]

/-- `insertIdx` as take/append/drop (for an in-range position). -/
theorem insertIdx_eq_take_cons_drop {α : Type} (l : List α) (n : Nat) (x : α)
    (hn : n ≤ l.length) : l.insertIdx n x = l.take n ++ x :: l.drop n := by
  induction l generalizing n with
  | nil => simp_all
  | cons a as ih =>
    cases n with
    | zero => simp
    | succ m => simp [List.insertIdx_succ_cons, ih m (Nat.le_of_succ_le_succ hn)]

/-- A write at index `i` does not affect the prefix before `i`. -/
theorem take_set_self {α : Type} (l : List α) (i : Nat) (x : α) :
    (l.set i x).take i = l.take i := by
  cases h : l[i]? with
  | none =>
    rw [List.set_eq_of_length_le]
    exact List.getElem?_eq_none_iff.mp h
  | some e =>
    rw [set_eq_take_cons_drop l i e x h, List.take_append_eq_append_take]
    obtain ⟨hlt, _⟩ := List.getElem?_eq_some.mp h
    have hlen : (l.take i).length = i := by simp; omega
    rw [hlen, List.take_of_length_le (by omega), Nat.sub_self]
    simp

/-- A write at index `i` does not affect the suffix after `i`. -/
theorem drop_set_succ {α : Type} (l : List α) (i : Nat) (x : α) :
    (l.set i x).drop (i + 1) = l.drop (i + 1) := by
  cases h : l[i]? with
  | none =>
    rw [List.set_eq_of_length_le]
    exact List.getElem?_eq_none_iff.mp h
  | some e =>
    rw [set_eq_take_cons_drop l i e x h, List.drop_append_eq_append_drop]
    obtain ⟨hlt, _⟩ := List.getElem?_eq_some.mp h
    have hlen : (l.take i).length = i := by simp; omega
    rw [hlen, List.drop_of_length_le (by omega)]
    simp

/-- Counting `inProgress` over an append. -/
theorem cntL_append (a b : List Exercise) :
    inProgressCountL (a ++ b) = inProgressCountL a + inProgressCountL b :=
  List.countP_append _ _ _

/-- Counting `inProgress` over a cons. -/
theorem cntL_cons (e : Exercise) (l : List Exercise) :
    inProgressCountL (e :: l) =
      (if e.state = .inProgress then 1 else 0) + inProgressCountL l := by
  unfold inProgressCountL
  rw [List.countP_cons]
  by_cases h : e.state = .inProgress <;> simp [h] <;> omega

/-- A zero total count forces zero on the prefix and suffix parts. -/
theorem cnt_zero_parts (l : List Exercise) (i j : Nat)
    (h : inProgressCountL l = 0) :
    inProgressCountL (l.take i) = 0 ∧ inProgressCountL (l.drop j) = 0 := by
  constructor
  · have := (List.take_sublist i l).countP_le
      (p := fun e => decide (e.state = .inProgress))
    unfold inProgressCountL at *
    omega
  · have := (List.drop_sublist j l).countP_le
      (p := fun e => decide (e.state = .inProgress))
    unfold inProgressCountL at *
    omega

/-- Writing a non-`inProgress` exercise at `i` when everything outside
`i` is inactive yields a fully inactive list. -/
theorem cnt_set_zero (l : List Exercise) (i : Nat) (e' : Exercise)
    (hst : e'.state ≠ .inProgress)
    (g1 : inProgressCountL (l.take i) = 0)
    (g2 : inProgressCountL (l.drop (i + 1)) = 0) :
    inProgressCountL (l.set i e') = 0 := by
  cases h : l[i]? with
  | none =>
    have hlen : l.length ≤ i := List.getElem?_eq_none_iff.mp h
    rw [List.set_eq_of_length_le hlen, ← List.take_of_length_le (le_trans hlen (Nat.le_refl i))]
    exact g1
  | some e =>
    rw [set_eq_take_cons_drop l i e e' h, cntL_append, cntL_cons]
    simp [hst, g1, g2]

/-- Writing an `inProgress` exercise at an in-range `i` when everything
outside `i` is inactive yields exactly one active exercise. -/
theorem cnt_set_one (l : List Exercise) (i : Nat) (e e' : Exercise)
    (h : l[i]? = some e) (hst : e'.state = .inProgress)
    (g1 : inProgressCountL (l.take i) = 0)
    (g2 : inProgressCountL (l.drop (i + 1)) = 0) :
    inProgressCountL (l.set i e') = 1 := by
  rw [set_eq_take_cons_drop l i e e' h, cntL_append, cntL_cons]
  simp [hst, g1, g2]

/-- A successful `findIdx?` returns a position satisfying the predicate. -/
theorem findIdx?_some_spec {α : Type} (p : α → Bool) :
    ∀ (l : List α) (i : Nat), l.findIdx? p = some i → ∃ a, l[i]? = some a ∧ p a
  | [], i, h => by simp at h
  | x :: xs, i, h => by
    rw [List.findIdx?_cons] at h
    by_cases hp : p x
    · rw [if_pos hp] at h
      injection h with h
      subst h
      exact ⟨x, by simp, hp⟩
    · rw [if_neg hp, List.findIdx?_succ] at h
      obtain ⟨j, hj, hji⟩ := Option.map_eq_some'.mp h
      obtain ⟨a, ha, hpa⟩ := findIdx?_some_spec p xs j hj
      subst hji
      exact ⟨a, by simpa using ha, hpa⟩

/-- A successful forward scan returns the least pending position after
`i` (absolute positions offset by `n`). -/
theorem findNextPendingFrom_some_spec (i : Nat) :
    ∀ (exs : List Exercise) (n j : Nat), findNextPendingFrom i n exs = some j →
      n ≤ j ∧ i < j ∧ (∃ e, exs[j - n]? = some e ∧ e.state = .pending) ∧
        ∀ k e, n + k < j → i < n + k → exs[k]? = some e → e.state ≠ .pending
  | [], n, j, h => by simp [findNextPendingFrom] at h
  | x :: xs, n, j, h => by
    unfold findNextPendingFrom at h
    by_cases hc : n > i ∧ x.state = .pending
    · rw [if_pos hc] at h
      injection h with h
      subst h
      refine ⟨Nat.le_refl n, hc.1, ⟨x, by simp, hc.2⟩, ?_⟩
      intro k e hk _ _
      omega
    · rw [if_neg hc] at h
      obtain ⟨h1, h2, ⟨e, he, hp⟩, hmin⟩ :=
        findNextPendingFrom_some_spec i xs (n + 1) j h
      refine ⟨by omega, h2, ⟨e, ?_, hp⟩, ?_⟩
      · have hjn : j - n = (j - (n + 1)) + 1 := by omega
        rw [hjn]
        simpa using he
      · intro k e' hk hik hg
        cases k with
        | zero =>
          have hxe : x = e' := by simpa using hg
          intro hpend
          exact hc ⟨by omega, hxe ▸ hpend⟩
        | succ m =>
          apply hmin m e' (by omega) (by omega)
          simpa using hg

/-- A failed forward scan means no pending exercise after `i`. -/
theorem findNextPendingFrom_none_spec (i : Nat) :
    ∀ (exs : List Exercise) (n : Nat), findNextPendingFrom i n exs = none →
      ∀ k e, i < n + k → exs[k]? = some e → e.state ≠ .pending
  | [], _, _, k, e, _, hg => by simp at hg
  | x :: xs, n, h, k, e, hik, hg => by
    unfold findNextPendingFrom at h
    by_cases hc : n > i ∧ x.state = .pending
    · rw [if_pos hc] at h
      exact absurd h (by simp)
    · rw [if_neg hc] at h
      cases k with
      | zero =>
        have hxe : x = e := by simpa using hg
        intro hpend
        exact hc ⟨by omega, hxe ▸ hpend⟩
      | succ m =>
        exact findNextPendingFrom_none_spec i xs (n + 1) h m e (by omega)
          (by simpa using hg)

/-- The forward scan is unaffected by the optional duration-recording
step. -/
theorem findNextPending_recordStep (w : ParsedWorkout) (i : Nat) (ts : Option TimerVal) :
    findNextPending (recordStep w i ts).exercises i = findNextPending w.exercises i := by
  cases ts with
  | none => rfl
  | some t => exact findNextPending_setRecordedDuration w i _

/-- The forward scan is unaffected by the skip variant of the
duration-recording step. -/
theorem findNextPending_skipRecordStep (w : ParsedWorkout) (i : Nat)
    (ts : Option TimerVal) :
    findNextPending (skipRecordStep w i ts).exercises i = findNextPending w.exercises i := by
  cases ts with
  | none => rfl
  | some t =>
    unfold skipRecordStep
    dsimp only
    by_cases h : t.exerciseElapsed > 0
    · rw [if_pos h]
      exact findNextPending_setRecordedDuration w i _
    · rw [if_neg h]

/-- C9: on every exercise advance — finish, skip, add-set or add-rest
with a next active exercise — the callback's effect trace is exactly the
timer `advanceExercise` command for the new active index followed by the
file write: the timer is advanced strictly before the new text is
persisted. -/
theorem C9_advance_timer_before_write :
    (∀ (s : CState) (i : Nat) (ts : Option TimerVal) (e : Exercise) (j : Nat),
        s.currentParsed.exercises[i]? = some e →
        findNextPending s.currentParsed.exercises i = some j →
        ∃ c t₀, (onExerciseFinish s i ts).2 = [.advanceTimer j, .write c t₀]) ∧
    (∀ (s : CState) (i : Nat) (ts : Option TimerVal) (j : Nat),
        findNextPending s.currentParsed.exercises i = some j →
        ∃ c t₀, (onExerciseSkip s i ts).2 = [.advanceTimer j, .write c t₀]) ∧
    (∀ (s : CState) (i : Nat) (ts : Option TimerVal) (e : Exercise),
        s.currentParsed.exercises[i]? = some e →
        ∃ c t₀, (onExerciseAddSet s i ts).2 = [.advanceTimer (i + 1), .write c t₀]) ∧
    (∀ (s : CState) (i : Nat) (ts : Option TimerVal) (e : Exercise),
        s.currentParsed.exercises[i]? = some e →
        isFalsyStr s.currentParsed.metadata.restDuration = false →
        ∃ c t₀, (onExerciseAddRest s i ts).2 = [.advanceTimer (i + 1), .write c t₀]) := by
  refine ⟨?_, ?_, ?_, ?_⟩
  · intro s i ts e j he hnext
    unfold onExerciseFinish
    simp only [he]
    rw [findNextPending_updateExerciseState, findNextPending_recordStep, hnext]
    exact ⟨_, _, rfl⟩
  · intro s i ts j hnext
    unfold onExerciseSkip
    dsimp only
    rw [findNextPending_updateExerciseState, findNextPending_skipRecordStep, hnext]
    exact ⟨_, _, rfl⟩
  · intro s i ts e he
    unfold onExerciseAddSet
    simp only [he]
    exact ⟨_, _, rfl⟩
  · intro s i ts e he hrest
    unfold onExerciseAddRest
    simp only [he, hrest]
    simp
    exact ⟨_, _, rfl⟩

/-- The exercise list produced by `addSet` at an in-range index. -/
theorem addSet_exercises_eq (w : ParsedWorkout) (i : Nat) (e : Exercise)
    (h : w.exercises[i]? = some e) :
    (addSet w i).exercises =
      w.exercises.take (i + 1) ++ addSetDup e ::
        (w.exercises.drop (i + 1)).map
          (fun ex => { ex with lineIndex := ex.lineIndex + 1 }) := by
  obtain ⟨hlt, _⟩ := List.getElem?_eq_some.mp h
  unfold addSet
  rw [h]
  dsimp only
  rw [insertIdx_eq_take_cons_drop _ _ _ (by omega)]
  have hlen : (w.exercises.take (i + 1)).length = i + 1 := by
    rw [List.length_take]
    omega
  rw [List.take_append_eq_append_take, List.drop_append_eq_append_drop, hlen]
  rw [@List.take_of_length_le _ (i + 2) (w.exercises.take (i + 1)) (by rw [hlen]; omega),
    @List.drop_of_length_le _ (i + 2) (w.exercises.take (i + 1)) (by rw [hlen]; omega)]
  have h2 : i + 2 - (i + 1) = 1 := by omega
  rw [h2]
  simp

/-- The exercise list produced by `addRest` at an in-range index. -/
theorem addRest_exercises_eq (w : ParsedWorkout) (i : Nat) (e : Exercise)
    (restDuration : Str) (h : w.exercises[i]? = some e) :
    (addRest w i restDuration).exercises =
      w.exercises.take (i + 1) ++ mkRestExercise restDuration (e.lineIndex + 1) ::
        (w.exercises.drop (i + 1)).map
          (fun ex => { ex with lineIndex := ex.lineIndex + 1 }) := by
  obtain ⟨hlt, _⟩ := List.getElem?_eq_some.mp h
  unfold addRest
  rw [h]
  dsimp only
  rw [insertIdx_eq_take_cons_drop _ _ _ (by omega)]
  have hlen : (w.exercises.take (i + 1)).length = i + 1 := by
    rw [List.length_take]
    omega
  rw [List.take_append_eq_append_take, List.drop_append_eq_append_drop, hlen]
  rw [@List.take_of_length_le _ (i + 2) (w.exercises.take (i + 1)) (by rw [hlen]; omega),
    @List.drop_of_length_le _ (i + 2) (w.exercises.take (i + 1)) (by rw [hlen]; omega)]
  have h2 : i + 2 - (i + 1) = 1 := by omega
  rw [h2]
  simp

/-- C7 counterexample: on a workout whose exercise 0 carries an editable
non-time-literal Duration parameter (so no `targetDuration`), the
duplicate inserted by `addSet` keeps that parameter editable — refuting
"a duration parameter editable only if the original exercise had a
targetDuration" at this input. -/
theorem C7_counterexample :
    ¬ (∀ p ∈ ((addSet wEditDur 0).exercises[1]?.elim ([] : List ExerciseParam)
          Exercise.params),
        lowerStr p.key = str "duration" → p.editable = true →
          wEditDur.exercises[0]?.map Exercise.targetDuration ≠ some none) := by
  decide

/-- C7 (amended): `addSet` at an in-range index inserts at position
`i + 1` a duplicate of exercise `i` with state `pending`, cleared
`recordedDuration` and `lineIndex` one greater; every exercise after the
duplicate keeps its fields with `lineIndex` incremented, everything up to
`i` is unchanged, and on the duplicate a *non-editable* duration
parameter becomes editable exactly when the original had a
`targetDuration`, while every other parameter (in particular an
already-editable duration parameter) is kept as is. -/
theorem C7_addSet_inserts_duplicate (w : ParsedWorkout) (i : Nat) (e : Exercise)
    (h : w.exercises[i]? = some e) :
    (addSet w i).exercises.length = w.exercises.length + 1 ∧
      (∀ k, k ≤ i → (addSet w i).exercises[k]? = w.exercises[k]?) ∧
      (addSet w i).exercises[i + 1]? = some (addSetDup e) ∧
      (∀ k, i + 1 < k → (addSet w i).exercises[k]? =
        (w.exercises[k - 1]?).map (fun ex => { ex with lineIndex := ex.lineIndex + 1 })) ∧
      (∀ p : ExerciseParam, lowerStr p.key = str "duration" → p.editable = false →
        (addSetParamFix e.targetDuration p).editable = e.targetDuration.isSome) ∧
      (∀ p : ExerciseParam, ¬(lowerStr p.key = str "duration" ∧ p.editable = false) →
        addSetParamFix e.targetDuration p = p) := by
  obtain ⟨hlt, _⟩ := List.getElem?_eq_some.mp h
  have heq := addSet_exercises_eq w i e h
  have hlenT : (w.exercises.take (i + 1)).length = i + 1 := by
    simp
    omega
  refine ⟨?_, ?_, ?_, ?_, ?_, ?_⟩
  · rw [heq]
    simp
    omega
  · intro k hk
    rw [heq, List.getElem?_append, if_pos (by rw [hlenT]; omega), List.getElem?_take,
      if_pos (by omega)]
  · rw [heq, List.getElem?_append, if_neg (by rw [hlenT]; omega), hlenT, Nat.sub_self]
    simp
  · intro k hk
    rw [heq, List.getElem?_append, if_neg (by rw [hlenT]; omega), hlenT]
    have hsub : k - (i + 1) = (k - (i + 2)) + 1 := by omega
    rw [hsub]
    simp only [List.getElem?_cons_succ, List.getElem?_map, List.getElem?_drop]
    have hidx : i + 1 + (k - (i + 2)) = k - 1 := by omega
    rw [hidx]
  · intro p h1 h2
    unfold addSetParamFix
    rw [if_pos ⟨h1, h2⟩]
  · intro p hp
    unfold addSetParamFix
    rw [if_neg hp]

/-- Witness for C7 (amended) at `wAB`, index 0. -/
theorem C7_addSet_inserts_duplicate_witness :
    wAB.exercises[0]? = some exSquats ∧
      ((addSet wAB 0).exercises.length = wAB.exercises.length + 1 ∧
        (∀ k, k ≤ 0 → (addSet wAB 0).exercises[k]? = wAB.exercises[k]?) ∧
        (addSet wAB 0).exercises[1]? = some (addSetDup exSquats) ∧
        (∀ k, 1 < k → (addSet wAB 0).exercises[k]? =
          (wAB.exercises[k - 1]?).map (fun ex => { ex with lineIndex := ex.lineIndex + 1 })) ∧
        (∀ p : ExerciseParam, lowerStr p.key = str "duration" → p.editable = false →
          (addSetParamFix exSquats.targetDuration p).editable =
            exSquats.targetDuration.isSome) ∧
        (∀ p : ExerciseParam, ¬(lowerStr p.key = str "duration" ∧ p.editable = false) →
          addSetParamFix exSquats.targetDuration p = p)) :=
  ⟨by decide, C7_addSet_inserts_duplicate wAB 0 exSquats (by decide)⟩

/-- Every member of a list of naturals is below its strict bound. -/
theorem lt_natsBound (l : List Nat) : ∀ a ∈ l, a < natsBound l := by
  induction l with
  | nil => simp
  | cons x xs ih =>
    intro a ha
    have hfold : natsBound (x :: xs) = max (x + 1) (natsBound xs) := rfl
    rcases List.mem_cons.mp ha with h | h
    · subst h
      rw [hfold]
      omega
    · have := ih a h
      rw [hfold]
      omega

/-- The id counter of `relabelParams` never decreases. -/
theorem relabelParams_snd_ge (ps : List AParam) : ∀ n, n ≤ (relabelParams n ps).2 := by
  induction ps with
  | nil =>
    intro n
    exact Nat.le_refl n
  | cons p ps ih =>
    intro n
    have := ih (n + 1)
    unfold relabelParams
    dsimp
    omega

/-- Relabelled parameters only carry ids at or above the start id. -/
theorem relabelParams_pid_ge (ps : List AParam) :
    ∀ n q, q ∈ (relabelParams n ps).1 → n ≤ q.pid := by
  induction ps with
  | nil =>
    intro n q h
    simp [relabelParams] at h
  | cons p ps ih =>
    intro n q h
    unfold relabelParams at h
    dsimp at h
    rcases List.mem_cons.mp h with h | h
    · subst h
      exact Nat.le_refl n
    · have := ih (n + 1) q h
      omega

/-- Relabelled exercises only carry ids at or above the start id. -/
theorem relabelExercises_ids_ge (es : List AExercise) :
    ∀ n e a, e ∈ (relabelExercises n es).1 → a ∈ e.ids → n ≤ a := by
  induction es with
  | nil =>
    intro n e a h _
    simp [relabelExercises] at h
  | cons x xs ih =>
    intro n e a he ha
    unfold relabelExercises at he
    dsimp at he
    rcases List.mem_cons.mp he with h | h
    · subst h
      unfold AExercise.ids at ha
      dsimp at ha
      rcases List.mem_cons.mp ha with h | h
      · omega
      · obtain ⟨q, hq, hqa⟩ := List.mem_map.mp h
        have := relabelParams_pid_ge x.params (n + 1) q hq
        omega
    · have hsnd := relabelParams_snd_ge x.params (n + 1)
      have := ih (relabelParams (n + 1) x.params).2 e a h ha
      omega

/-- `relabelExercises` preserves the list length. -/
theorem relabelExercises_length (es : List AExercise) :
    ∀ n, (relabelExercises n es).1.length = es.length := by
  induction es with
  | nil =>
    intro n
    rfl
  | cons x xs ih =>
    intro n
    unfold relabelExercises
    dsimp
    rw [ih]

/-- Every id of the clone is at or above the bound of the original's ids. -/
theorem structuredCloneA_ids_ge (w : AWorkout) :
    ∀ a ∈ (structuredCloneA w).ids, natsBound w.ids ≤ a := by
  intro a ha
  unfold structuredCloneA at ha
  unfold AWorkout.ids at ha ⊢
  dsimp at ha
  rcases List.mem_cons.mp ha with h | h
  · omega
  · obtain ⟨ids', hmem, hin⟩ := List.mem_flatten.mp h
    obtain ⟨e, he, hid⟩ := List.mem_map.mp hmem
    have := relabelExercises_ids_ge w.exercises
      (natsBound (w.wid :: (List.map AExercise.ids w.exercises).flatten) + 1) e a he
      (hid ▸ hin)
    omega

/-- `structuredClone` yields an object graph sharing no id with its
input. -/
theorem structuredCloneA_fresh (w : AWorkout) : IdsFresh w (structuredCloneA w) := by
  intro a ha hw
  have h1 := structuredCloneA_ids_ge w a ha
  have h2 := lt_natsBound w.ids a hw
  omega

/-- The clone has as many exercises as the original. -/
theorem structuredCloneA_exercises_length (w : AWorkout) :
    (structuredCloneA w).exercises.length = w.exercises.length := by
  unfold structuredCloneA
  dsimp
  rw [relabelExercises_length]

/-- A parameter id reachable from a workout is among its ids. -/
theorem pid_mem_ids (w : AWorkout) (e : AExercise) (p : AParam)
    (he : e ∈ w.exercises) (hp : p ∈ e.params) : p.pid ∈ w.ids := by
  unfold AWorkout.ids
  apply List.mem_cons_of_mem
  apply List.mem_flatten.mpr
  refine ⟨e.ids, List.mem_map_of_mem _ he, ?_⟩
  unfold AExercise.ids
  exact List.mem_cons_of_mem _ (List.mem_map_of_mem _ hp)

/-- An exercise id reachable from a workout is among its ids. -/
theorem eid_mem_ids (w : AWorkout) (e : AExercise) (he : e ∈ w.exercises) :
    e.eid ∈ w.ids := by
  unfold AWorkout.ids
  apply List.mem_cons_of_mem
  apply List.mem_flatten.mpr
  refine ⟨e.ids, List.mem_map_of_mem _ he, ?_⟩
  unfold AExercise.ids
  exact List.mem_cons_self _ _

/-- A parameter write addressed at an id not present in the object graph
does not change it. -/
theorem writeParamById_not_present (pid : Nat) (f : AParam → AParam)
    (w : AWorkout) (h : pid ∉ w.ids) : writeParamById pid f w = w := by
  unfold writeParamById
  have hmap : ∀ e ∈ w.exercises,
      ({ e with params := e.params.map fun p => if p.pid = pid then f p else p } :
        AExercise) = e := by
    intro e he
    have hpmap : ∀ p ∈ e.params, (if p.pid = pid then f p else p) = p := by
      intro p hp
      rw [if_neg]
      intro hpp
      exact h (hpp ▸ pid_mem_ids w e p he hp)
    rw [List.map_congr_left hpmap, List.map_id']
  rw [List.map_congr_left hmap, List.map_id']

/-- An exercise write addressed at an id not present in the object graph
does not change it. -/
theorem writeExerciseById_not_present (eid : Nat) (f : AExercise → AExercise)
    (w : AWorkout) (h : eid ∉ w.ids) : writeExerciseById eid f w = w := by
  unfold writeExerciseById
  have hmap : ∀ e ∈ w.exercises, (if e.eid = eid then f e else e) = e := by
    intro e he
    rw [if_neg]
    intro hee
    exact h (hee ▸ eid_mem_ids w e he)
  rw [List.map_congr_left hmap, List.map_id']

/-- A root write addressed at a different root id does not change the
object. -/
theorem writeRootExercises_ne (wid : Nat) (f : List AExercise → List AExercise)
    (w : AWorkout) (h : w.wid ≠ wid) : writeRootExercises wid f w = w := by
  unfold writeRootExercises
  rw [if_neg h]

/-- A pid-preserving parameter write preserves the id set. -/
theorem ids_writeParamById (pid : Nat) (f : AParam → AParam) (w : AWorkout)
    (hf : ∀ p, (f p).pid = p.pid) : (writeParamById pid f w).ids = w.ids := by
  unfold writeParamById AWorkout.ids
  dsimp
  congr 1
  rw [List.map_map]
  congr 1
  apply List.map_congr_left
  intro e _
  unfold AExercise.ids
  dsimp
  congr 1
  rw [List.map_map]
  apply List.map_congr_left
  intro p _
  dsimp
  by_cases h : p.pid = pid
  · simp [h, hf]
  · simp [h]

/-- An ids-preserving exercise write preserves the id set. -/
theorem ids_writeExerciseById (eid : Nat) (f : AExercise → AExercise) (w : AWorkout)
    (hf : ∀ e, (f e).ids = e.ids) : (writeExerciseById eid f w).ids = w.ids := by
  unfold writeExerciseById AWorkout.ids
  dsimp
  congr 1
  rw [List.map_map]
  congr 1
  apply List.map_congr_left
  intro e _
  dsimp
  by_cases h : e.eid = eid
  · simp [h, hf]
  · simp [h]

/-- Folding parameter writes addressed at absent ids does not change the
object. -/
theorem foldl_writeParamById_not_present (f : AParam → AParam) :
    ∀ (pids : List Nat) (w : AWorkout), (∀ pid ∈ pids, pid ∉ w.ids) →
      pids.foldl (fun acc pid => writeParamById pid f acc) w = w
  | [], _, _ => rfl
  | pid :: pids, w, h => by
    rw [List.foldl_cons,
      writeParamById_not_present pid f w (h pid (List.mem_cons_self _ _))]
    exact foldl_writeParamById_not_present f pids w
      (fun q hq => h q (List.mem_cons_of_mem _ hq))

/-- Folding pid-preserving parameter writes preserves the id set. -/
theorem ids_foldl_writeParamById (f : AParam → AParam)
    (hf : ∀ p, (f p).pid = p.pid) :
    ∀ (pids : List Nat) (w : AWorkout),
      (pids.foldl (fun acc pid => writeParamById pid f acc) w).ids = w.ids
  | [], _ => rfl
  | pid :: pids, w => by
    rw [List.foldl_cons, ids_foldl_writeParamById f hf pids _]
    exact ids_writeParamById pid f w hf

/-- Folding exercise writes addressed at absent ids does not change the
object. -/
theorem foldl_writeExerciseById_not_present (f : AExercise → AExercise) :
    ∀ (eids : List Nat) (w : AWorkout), (∀ eid ∈ eids, eid ∉ w.ids) →
      eids.foldl (fun acc eid => writeExerciseById eid f acc) w = w
  | [], _, _ => rfl
  | eid :: eids, w, h => by
    rw [List.foldl_cons,
      writeExerciseById_not_present eid f w (h eid (List.mem_cons_self _ _))]
    exact foldl_writeExerciseById_not_present f eids w
      (fun q hq => h q (List.mem_cons_of_mem _ hq))

/-- Folding ids-preserving exercise writes preserves the id set. -/
theorem ids_foldl_writeExerciseById (f : AExercise → AExercise)
    (hf : ∀ e, (f e).ids = e.ids) :
    ∀ (eids : List Nat) (w : AWorkout),
      (eids.foldl (fun acc eid => writeExerciseById eid f acc) w).ids = w.ids
  | [], _ => rfl
  | eid :: eids, w => by
    rw [List.foldl_cons, ids_foldl_writeExerciseById f hf eids _]
    exact ids_writeExerciseById eid f w hf

/-- The nested clone used by `addSet` carries only ids at or above `n`. -/
theorem cloneExerciseA_ids_ge (n : Nat) (e : AExercise) :
    ∀ a ∈ (cloneExerciseA n e).ids, n ≤ a := by
  intro a ha
  unfold cloneExerciseA AExercise.ids at ha
  dsimp at ha
  rcases List.mem_cons.mp ha with h | h
  · omega
  · obtain ⟨q, hq, hqa⟩ := List.mem_map.mp h
    have := relabelParams_pid_ge e.params (n + 1) q hq
    omega

/-- Splitting membership in a workout's id list. -/
theorem mem_ids_cases {w : AWorkout} {a : Nat} (h : a ∈ w.ids) :
    a = w.wid ∨ ∃ e ∈ w.exercises, a ∈ e.ids := by
  unfold AWorkout.ids at h
  rcases List.mem_cons.mp h with h | h
  · exact Or.inl h
  · obtain ⟨ids', hmem, hin⟩ := List.mem_flatten.mp h
    obtain ⟨e, he, hid⟩ := List.mem_map.mp hmem
    exact Or.inr ⟨e, he, hid ▸ hin⟩

/-- An id reachable from a member exercise is among the workout's ids. -/
theorem mem_ids_of_exercise {w : AWorkout} {e : AExercise} {a : Nat}
    (he : e ∈ w.exercises) (ha : a ∈ e.ids) : a ∈ w.ids := by
  unfold AWorkout.ids
  apply List.mem_cons_of_mem
  apply List.mem_flatten.mpr
  exact ⟨e.ids, List.mem_map_of_mem _ he, ha⟩

/-- An exercise write whose function only adds the single id `extra`
keeps every id in the original graph or equal to `extra`. -/
theorem ids_writeExerciseById_extra (eid : Nat) (f : AExercise → AExercise)
    (w : AWorkout) (extra : Nat)
    (hf : ∀ e, ∀ a ∈ (f e).ids, a ∈ e.ids ∨ a = extra) :
    ∀ a ∈ (writeExerciseById eid f w).ids, a ∈ w.ids ∨ a = extra := by
  intro a ha
  rcases mem_ids_cases ha with h | ⟨e', he', hae⟩
  · left
    subst h
    exact List.mem_cons_self _ _
  · unfold writeExerciseById at he'
    dsimp at he'
    obtain ⟨e₀, he₀, heq⟩ := List.mem_map.mp he'
    by_cases hcond : e₀.eid = eid
    · rw [if_pos hcond] at heq
      rcases hf e₀ a (heq ▸ hae) with h | h
      · exact Or.inl (mem_ids_of_exercise he₀ h)
      · exact Or.inr h
    · rw [if_neg hcond] at heq
      exact Or.inl (mem_ids_of_exercise he₀ (heq ▸ hae))

/-- `updateParamValue` never mutates its input object. -/
theorem updateParamValueA_frame (w : AWorkout) (i : Nat) (key v : Str) :
    (updateParamValueA w i key v).1 = w := by
  have hfresh := structuredCloneA_fresh w
  unfold updateParamValueA
  dsimp only
  cases hc : (structuredCloneA w).exercises[i]? with
  | none => rfl
  | some e =>
    dsimp only
    cases hfind : e.params.find? (fun p => decide (p.key = key)) with
    | none => rfl
    | some p =>
      dsimp only
      have he : e ∈ (structuredCloneA w).exercises := List.getElem?_mem hc
      have hp : p ∈ e.params := List.mem_of_find?_eq_some hfind
      exact writeParamById_not_present _ _ _
        (fun hmem => hfresh p.pid (pid_mem_ids _ e p he hp) hmem)

/-- In range, `updateParamValue` returns an object sharing no id with its
input. -/
theorem updateParamValueA_fresh (w : AWorkout) (i : Nat) (key v : Str)
    (hlt : i < w.exercises.length) : IdsFresh w (updateParamValueA w i key v).2 := by
  have hfresh := structuredCloneA_fresh w
  unfold updateParamValueA
  dsimp only
  cases hc : (structuredCloneA w).exercises[i]? with
  | none =>
    have hlen := List.getElem?_eq_none_iff.mp hc
    rw [structuredCloneA_exercises_length] at hlen
    omega
  | some e =>
    dsimp only
    cases hfind : e.params.find? (fun p => decide (p.key = key)) with
    | none => exact hfresh
    | some p =>
      dsimp only
      intro a ha
      rw [ids_writeParamById p.pid (fun q => { q with value := v })
        (structuredCloneA w) (fun q => rfl)] at ha
      exact hfresh a ha

/-- `updateExerciseState` never mutates its input object. -/
theorem updateExerciseStateA_frame (w : AWorkout) (i : Nat) (st : ExerciseState) :
    (updateExerciseStateA w i st).1 = w := by
  have hfresh := structuredCloneA_fresh w
  unfold updateExerciseStateA
  dsimp only
  cases hc : (structuredCloneA w).exercises[i]? with
  | none => rfl
  | some e =>
    dsimp only
    have he : e ∈ (structuredCloneA w).exercises := List.getElem?_mem hc
    exact writeExerciseById_not_present _ _ _
      (fun hmem => hfresh e.eid (eid_mem_ids _ e he) hmem)

/-- In range, `updateExerciseState` returns an object sharing no id with
its input. -/
theorem updateExerciseStateA_fresh (w : AWorkout) (i : Nat) (st : ExerciseState)
    (hlt : i < w.exercises.length) : IdsFresh w (updateExerciseStateA w i st).2 := by
  have hfresh := structuredCloneA_fresh w
  unfold updateExerciseStateA
  dsimp only
  cases hc : (structuredCloneA w).exercises[i]? with
  | none =>
    have hlen := List.getElem?_eq_none_iff.mp hc
    rw [structuredCloneA_exercises_length] at hlen
    omega
  | some e =>
    dsimp only
    intro a ha
    rw [ids_writeExerciseById e.eid (fun e => { e with state := st })
      (structuredCloneA w) (fun q => rfl)] at ha
    exact hfresh a ha

/-- `lockAllFields` never mutates its input object. -/
theorem lockAllFieldsA_frame (w : AWorkout) : (lockAllFieldsA w).1 = w := by
  have hfresh := structuredCloneA_fresh w
  unfold lockAllFieldsA
  dsimp only
  apply foldl_writeParamById_not_present
  intro pid hpid hmem
  apply hfresh pid ?_ hmem
  obtain ⟨l, hl, hin⟩ := List.mem_flatten.mp hpid
  obtain ⟨e, he, hel⟩ := List.mem_map.mp hl
  obtain ⟨p, hp, hppid⟩ := List.mem_map.mp (hel ▸ hin)
  exact hppid ▸ pid_mem_ids _ e p he hp

/-- `lockAllFields` returns an object sharing no id with its input. -/
theorem lockAllFieldsA_fresh (w : AWorkout) : IdsFresh w (lockAllFieldsA w).2 := by
  have hfresh := structuredCloneA_fresh w
  unfold lockAllFieldsA
  dsimp only
  intro a ha
  rw [ids_foldl_writeParamById (fun p => { p with editable := false })
    (fun q => rfl)] at ha
  exact hfresh a ha

/-- `setRecordedDuration` never mutates its input object. -/
theorem setRecordedDurationA_frame (w : AWorkout) (i : Nat) (d : Str) :
    (setRecordedDurationA w i d).1 = w := by
  have hfresh := structuredCloneA_fresh w
  unfold setRecordedDurationA
  dsimp only
  cases hc : (structuredCloneA w).exercises[i]? with
  | none => rfl
  | some e =>
    dsimp only
    have he : e ∈ (structuredCloneA w).exercises := List.getElem?_mem hc
    have heid : e.eid ∉ w.ids :=
      fun hmem => hfresh e.eid (eid_mem_ids _ e he) hmem
    cases hfind : e.params.find? (fun p => decide (lowerStr p.key = str "duration")) with
    | some p =>
      dsimp only
      have hp : p ∈ e.params := List.mem_of_find?_eq_some hfind
      rw [writeParamById_not_present _ _ _
        (fun hmem => hfresh p.pid (pid_mem_ids _ e p he hp) hmem)]
      exact writeExerciseById_not_present _ _ _ heid
    | none =>
      dsimp only
      rw [writeExerciseById_not_present _ _ _ heid]
      exact writeExerciseById_not_present _ _ _ heid

/-- In range, `setRecordedDuration` returns an object sharing no id with
its input. -/
theorem setRecordedDurationA_fresh (w : AWorkout) (i : Nat) (d : Str)
    (hlt : i < w.exercises.length) : IdsFresh w (setRecordedDurationA w i d).2 := by
  have hfresh := structuredCloneA_fresh w
  unfold setRecordedDurationA
  dsimp only
  cases hc : (structuredCloneA w).exercises[i]? with
  | none =>
    have hlen := List.getElem?_eq_none_iff.mp hc
    rw [structuredCloneA_exercises_length] at hlen
    omega
  | some e =>
    dsimp only
    cases hfind : e.params.find? (fun p => decide (lowerStr p.key = str "duration")) with
    | some p =>
      dsimp only
      intro a ha
      rw [ids_writeExerciseById e.eid (fun e => { e with recordedDuration := some d })
          _ (fun q => rfl),
        ids_writeParamById p.pid (fun p => { p with value := d, editable := false })
          (structuredCloneA w) (fun q => rfl)] at ha
      exact hfresh a ha
    | none =>
      dsimp only
      intro a ha
      rw [ids_writeExerciseById e.eid (fun e => { e with recordedDuration := some d })
        _ (fun q => rfl)] at ha
      have hextra := ids_writeExerciseById_extra e.eid _ (structuredCloneA w)
        (natsBound (w.ids ++ (structuredCloneA w).ids)) ?_ a ha
      · rcases hextra with h | h
        · exact hfresh a h
        · intro hmem
          have := lt_natsBound (w.ids ++ (structuredCloneA w).ids) a
            (List.mem_append_left _ hmem)
          omega
      · intro e' b hb
        unfold AExercise.ids at hb ⊢
        dsimp at hb
        rcases List.mem_cons.mp hb with h | h
        · exact Or.inl (h ▸ List.mem_cons_self _ _)
        · rw [List.map_append] at h
          rcases List.mem_append.mp h with h | h
          · exact Or.inl (List.mem_cons_of_mem _ h)
          · simp at h
            exact Or.inr h

/-- `addSet` never mutates its input object. -/
theorem addSetA_frame (w : AWorkout) (i : Nat) : (addSetA w i).1 = w := by
  have hfresh := structuredCloneA_fresh w
  unfold addSetA
  dsimp only
  cases hc : (structuredCloneA w).exercises[i]? with
  | none => rfl
  | some e =>
    dsimp only
    have hwid : w.wid ≠ (structuredCloneA w).wid := by
      intro h
      have h1 := lt_natsBound w.ids w.wid (List.mem_cons_self _ _)
      have h2 : (structuredCloneA w).wid = natsBound w.ids := rfl
      omega
    rw [writeRootExercises_ne _ _ _ hwid]
    apply foldl_writeExerciseById_not_present
    intro eid heid hmem
    obtain ⟨e', he', heq⟩ := List.mem_map.mp heid
    have he'' : e' ∈ (writeRootExercises (structuredCloneA w).wid _
        (structuredCloneA w)).exercises :=
      (List.drop_sublist _ _).mem he'
    rw [writeRootExercises] at he''
    rw [if_pos rfl] at he''
    dsimp at he''
    have hlen : i + 1 ≤ (structuredCloneA w).exercises.length := by
      have := (List.getElem?_eq_some.mp hc).1
      omega
    rcases (List.mem_insertIdx hlen).mp he'' with h | h
    · -- the freshly built duplicate: its id is at or above the fresh base
      have hbase : natsBound (w.ids ++ (structuredCloneA w).ids) ≤ e'.eid := by
        subst h
        exact le_refl _
      have := lt_natsBound (w.ids ++ (structuredCloneA w).ids) eid
        (List.mem_append_left _ (heq ▸ hmem))
      omega
    · exact hfresh eid (heq ▸ eid_mem_ids _ e' h) hmem

/-- In range, `addSet` returns an object sharing no id with its input. -/
theorem addSetA_fresh (w : AWorkout) (i : Nat)
    (hlt : i < w.exercises.length) : IdsFresh w (addSetA w i).2 := by
  have hfresh := structuredCloneA_fresh w
  unfold addSetA
  dsimp only
  cases hc : (structuredCloneA w).exercises[i]? with
  | none =>
    have hlen := List.getElem?_eq_none_iff.mp hc
    rw [structuredCloneA_exercises_length] at hlen
    omega
  | some e =>
    dsimp only
    intro a ha
    rw [ids_foldl_writeExerciseById (fun e => { e with lineIndex := e.lineIndex + 1 })
      (fun q => rfl)] at ha
    rw [writeRootExercises] at ha
    rw [if_pos rfl] at ha
    have hlen : i + 1 ≤ (structuredCloneA w).exercises.length := by
      have := (List.getElem?_eq_some.mp hc).1
      omega
    rcases mem_ids_cases ha with h | ⟨e', he', hae⟩
    · subst h
      exact hfresh _ (List.mem_cons_self _ _)
    · dsimp at he'
      rcases (List.mem_insertIdx hlen).mp he' with h | h
      · -- inside the freshly built duplicate
        intro hmem
        have hge : natsBound (w.ids ++ (structuredCloneA w).ids) ≤ a := by
          subst h
          unfold AExercise.ids at hae
          dsimp at hae
          rcases List.mem_cons.mp hae with h | h
          · rw [h]
            exact le_of_eq rfl
          · obtain ⟨q, hq, hqa⟩ := List.mem_map.mp h
            obtain ⟨q₀, hq₀, hq₀q⟩ := List.mem_map.mp hq
            have hgq : q.pid = q₀.pid := by
              subst hq₀q
              by_cases hcond : lowerStr q₀.key = str "duration" ∧ q₀.editable = false
              · rw [if_pos hcond]
              · rw [if_neg hcond]
            have := relabelParams_pid_ge e.params
              (natsBound (w.ids ++ (structuredCloneA w).ids) + 1) q₀ hq₀
            omega
        have := lt_natsBound (w.ids ++ (structuredCloneA w).ids) a
          (List.mem_append_left _ hmem)
        omega
      · exact hfresh a (mem_ids_of_exercise h hae)

/-- `updateExerciseState` at a present index is a `set`. -/
theorem updateExerciseState_exercises_eq (w : ParsedWorkout) (i : Nat)
    (st : ExerciseState) (e : Exercise) (h : w.exercises[i]? = some e) :
    (updateExerciseState w i st).exercises = w.exercises.set i { e with state := st } := by
  unfold updateExerciseState
  rw [h]

/-- `updateExerciseState` keeps the metadata. -/
theorem metadata_updateExerciseState (w : ParsedWorkout) (i : Nat) (st : ExerciseState) :
    (updateExerciseState w i st).metadata = w.metadata := by
  unfold updateExerciseState
  cases w.exercises[i]? <;> rfl

/-- `setRecordedDuration` keeps the metadata. -/
theorem metadata_setRecordedDuration (w : ParsedWorkout) (i : Nat) (d : Str) :
    (setRecordedDuration w i d).metadata = w.metadata := by
  unfold setRecordedDuration
  cases w.exercises[i]? <;> rfl

/-- `addSet` keeps the metadata. -/
theorem metadata_addSet (w : ParsedWorkout) (i : Nat) :
    (addSet w i).metadata = w.metadata := by
  unfold addSet
  cases w.exercises[i]? <;> rfl

/-- `addRest` keeps the metadata. -/
theorem metadata_addRest (w : ParsedWorkout) (i : Nat) (r : Str) :
    (addRest w i r).metadata = w.metadata := by
  unfold addRest
  cases w.exercises[i]? <;> rfl

/-- `setRecordedDuration` keeps the prefix before `i`. -/
theorem take_setRecordedDuration (w : ParsedWorkout) (i : Nat) (d : Str) :
    (setRecordedDuration w i d).exercises.take i = w.exercises.take i := by
  unfold setRecordedDuration
  cases w.exercises[i]? with
  | none => rfl
  | some e =>
    dsimp only
    exact take_set_self _ _ _

/-- `setRecordedDuration` keeps the suffix after `i`. -/
theorem drop_setRecordedDuration (w : ParsedWorkout) (i : Nat) (d : Str) :
    (setRecordedDuration w i d).exercises.drop (i + 1) = w.exercises.drop (i + 1) := by
  unfold setRecordedDuration
  cases w.exercises[i]? with
  | none => rfl
  | some e =>
    dsimp only
    exact drop_set_succ _ _ _

/-- `lockAllFields` keeps the `inProgress` count (it only writes
editability). -/
theorem cnt_lockAllFields (w : ParsedWorkout) :
    inProgressCountL (lockAllFields w).exercises = inProgressCountL w.exercises := by
  unfold lockAllFields inProgressCountL
  dsimp only
  rw [List.countP_map]
  rfl

/-- The `lineIndex` bump keeps the `inProgress` count. -/
theorem cnt_map_bump (l : List Exercise) :
    inProgressCountL (l.map (fun ex => { ex with lineIndex := ex.lineIndex + 1 })) =
      inProgressCountL l := by
  unfold inProgressCountL
  rw [List.countP_map]
  rfl

/-- A workout with at most one active exercise while `started` satisfies
the invariant. -/
theorem SingleActive_of_cnt_started (w : ParsedWorkout)
    (h1 : inProgressCountL w.exercises ≤ 1) (h2 : w.metadata.state = .started) :
    SingleActive w :=
  ⟨h1, fun hne => absurd h2 hne⟩

/-- A workout with no active exercise satisfies the invariant. -/
theorem SingleActive_of_cnt_zero (w : ParsedWorkout)
    (h : inProgressCountL w.exercises = 0) : SingleActive w := by
  constructor
  · show inProgressCountL w.exercises ≤ 1
    omega
  · exact fun _ => h

/-- The duration-recording step keeps the prefix before `i`. -/
theorem take_recordStep (w : ParsedWorkout) (i : Nat) (ts : Option TimerVal) :
    (recordStep w i ts).exercises.take i = w.exercises.take i := by
  cases ts with
  | none => rfl
  | some t => exact take_setRecordedDuration w i _

/-- The duration-recording step keeps the suffix after `i`. -/
theorem drop_recordStep (w : ParsedWorkout) (i : Nat) (ts : Option TimerVal) :
    (recordStep w i ts).exercises.drop (i + 1) = w.exercises.drop (i + 1) := by
  cases ts with
  | none => rfl
  | some t => exact drop_setRecordedDuration w i _

/-- The duration-recording step keeps all states. -/
theorem state_recordStep (w : ParsedWorkout) (i : Nat) (ts : Option TimerVal) (k : Nat) :
    ((recordStep w i ts).exercises[k]?).map Exercise.state =
      (w.exercises[k]?).map Exercise.state := by
  cases ts with
  | none => rfl
  | some t => exact state_setRecordedDuration w i _ k

/-- The duration-recording step keeps the length. -/
theorem length_recordStep (w : ParsedWorkout) (i : Nat) (ts : Option TimerVal) :
    (recordStep w i ts).exercises.length = w.exercises.length := by
  cases ts with
  | none => rfl
  | some t => exact length_setRecordedDuration w i _

/-- The duration-recording step keeps the metadata. -/
theorem metadata_recordStep (w : ParsedWorkout) (i : Nat) (ts : Option TimerVal) :
    (recordStep w i ts).metadata = w.metadata := by
  cases ts with
  | none => rfl
  | some t => exact metadata_setRecordedDuration w i _

/-- The skip-variant recording step keeps the prefix before `i`. -/
theorem take_skipRecordStep (w : ParsedWorkout) (i : Nat) (ts : Option TimerVal) :
    (skipRecordStep w i ts).exercises.take i = w.exercises.take i := by
  cases ts with
  | none => rfl
  | some t =>
    unfold skipRecordStep
    dsimp only
    by_cases h : t.exerciseElapsed > 0
    · rw [if_pos h]
      exact take_setRecordedDuration w i _
    · rw [if_neg h]

/-- The skip-variant recording step keeps the suffix after `i`. -/
theorem drop_skipRecordStep (w : ParsedWorkout) (i : Nat) (ts : Option TimerVal) :
    (skipRecordStep w i ts).exercises.drop (i + 1) = w.exercises.drop (i + 1) := by
  cases ts with
  | none => rfl
  | some t =>
    unfold skipRecordStep
    dsimp only
    by_cases h : t.exerciseElapsed > 0
    · rw [if_pos h]
      exact drop_setRecordedDuration w i _
    · rw [if_neg h]

/-- The skip-variant recording step keeps all states. -/
theorem state_skipRecordStep (w : ParsedWorkout) (i : Nat) (ts : Option TimerVal)
    (k : Nat) :
    ((skipRecordStep w i ts).exercises[k]?).map Exercise.state =
      (w.exercises[k]?).map Exercise.state := by
  cases ts with
  | none => rfl
  | some t =>
    unfold skipRecordStep
    dsimp only
    by_cases h : t.exerciseElapsed > 0
    · rw [if_pos h]
      exact state_setRecordedDuration w i _ k
    · rw [if_neg h]

/-- The skip-variant recording step keeps the length. -/
theorem length_skipRecordStep (w : ParsedWorkout) (i : Nat) (ts : Option TimerVal) :
    (skipRecordStep w i ts).exercises.length = w.exercises.length := by
  cases ts with
  | none => rfl
  | some t =>
    unfold skipRecordStep
    dsimp only
    by_cases h : t.exerciseElapsed > 0
    · rw [if_pos h]
      exact length_setRecordedDuration w i _
    · rw [if_neg h]

/-- The skip-variant recording step keeps the metadata. -/
theorem metadata_skipRecordStep (w : ParsedWorkout) (i : Nat) (ts : Option TimerVal) :
    (skipRecordStep w i ts).metadata = w.metadata := by
  cases ts with
  | none => rfl
  | some t =>
    unfold skipRecordStep
    dsimp only
    by_cases h : t.exerciseElapsed > 0
    · rw [if_pos h]
      exact metadata_setRecordedDuration w i _
    · rw [if_neg h]

/-- The optional workout-duration metadata write keeps the state field. -/
theorem state_setDurationMeta (w : ParsedWorkout) (ts : Option TimerVal) :
    (setDurationMeta w ts).metadata.state = w.metadata.state := by
  cases ts <;> rfl

/-- The optional workout-duration metadata write keeps the exercises. -/
theorem exercises_setDurationMeta (w : ParsedWorkout) (ts : Option TimerVal) :
    (setDurationMeta w ts).exercises = w.exercises := by
  cases ts <;> rfl

/-- `onStartWorkout`, fired on a planned workout, preserves the
single-active invariant. -/
theorem onStartWorkout_single_active (s : CState) (date : Str)
    (hg : s.currentParsed.metadata.state = .planned)
    (hInv : SingleActive s.currentParsed) :
    SingleActive (onStartWorkout s date).1.currentParsed := by
  have hcnt0 : inProgressCountL s.currentParsed.exercises = 0 := by
    apply hInv.2
    rw [hg]
    exact fun h => WorkoutState.noConfusion h
  unfold onStartWorkout
  dsimp only [updateFile]
  cases hf : (startMeta s.currentParsed date).exercises.findIdx?
      (fun e => decide (e.state = .pending)) with
  | none =>
    apply SingleActive_of_cnt_started
    · show inProgressCountL s.currentParsed.exercises ≤ 1
      omega
    · rfl
  | some j =>
    obtain ⟨e, he, hpe⟩ := findIdx?_some_spec _ _ _ hf
    apply SingleActive_of_cnt_started
    · rw [updateExerciseState_exercises_eq _ j .inProgress e he]
      have h1 := cnt_set_one (startMeta s.currentParsed date).exercises j e
        { e with state := .inProgress } he rfl
        (cnt_zero_parts (startMeta s.currentParsed date).exercises j (j + 1) hcnt0).1
        (cnt_zero_parts (startMeta s.currentParsed date).exercises j (j + 1) hcnt0).2
      omega
    · rw [metadata_updateExerciseState]
      rfl

/-- `onFinishWorkout`, fired with no active exercise, preserves the
single-active invariant. -/
theorem onFinishWorkout_single_active (s : CState) (ts : Option TimerVal)
    (hg : inProgressCount s.currentParsed = 0) :
    SingleActive (onFinishWorkout s ts).1.currentParsed := by
  unfold onFinishWorkout
  dsimp only [updateFile]
  apply SingleActive_of_cnt_zero
  rw [cnt_lockAllFields]
  show inProgressCountL (setDurationMeta s.currentParsed ts).exercises = 0
  rw [exercises_setDurationMeta]
  exact hg

/-- `onExerciseFinish`, fired while started with no other active
exercise, preserves the single-active invariant. -/
theorem onExerciseFinish_single_active (s : CState) (i : Nat) (ts : Option TimerVal)
    (hgs : s.currentParsed.metadata.state = .started)
    (hgo : othersNotInProgress s.currentParsed.exercises i)
    (hInv : SingleActive s.currentParsed) :
    SingleActive (onExerciseFinish s i ts).1.currentParsed := by
  obtain ⟨hg1, hg2⟩ := hgo
  unfold onExerciseFinish
  dsimp only [updateFile]
  cases hex : s.currentParsed.exercises[i]? with
  | none => exact hInv
  | some e =>
    dsimp only
    have hst := state_recordStep s.currentParsed i ts i
    rw [hex] at hst
    obtain ⟨e₁, he₁, hse₁⟩ := Option.map_eq_some'.mp hst
    have hw2cnt : inProgressCountL
        (updateExerciseState (recordStep s.currentParsed i ts) i .completed).exercises = 0 := by
      rw [updateExerciseState_exercises_eq _ i .completed e₁ he₁]
      apply cnt_set_zero
      · exact fun hcontra => ExerciseState.noConfusion hcontra
      · rw [take_recordStep]
        exact hg1
      · rw [drop_recordStep]
        exact hg2
    cases hnp : findNextPending
        (updateExerciseState (recordStep s.currentParsed i ts) i .completed).exercises i with
    | some j =>
      dsimp only
      obtain ⟨hn0, hij, ⟨ep, hep, hpend⟩, hmin⟩ :=
        findNextPendingFrom_some_spec i _ 0 j hnp
      rw [Nat.sub_zero] at hep
      apply SingleActive_of_cnt_started
      · rw [updateExerciseState_exercises_eq _ j .inProgress ep hep]
        have h1 := cnt_set_one _ j ep { ep with state := .inProgress } hep rfl
          (cnt_zero_parts _ j (j + 1) hw2cnt).1
          (cnt_zero_parts _ j (j + 1) hw2cnt).2
        omega
      · rw [metadata_updateExerciseState, metadata_updateExerciseState,
          metadata_recordStep]
        exact hgs
    | none =>
      dsimp only
      apply SingleActive_of_cnt_zero
      rw [cnt_lockAllFields]
      show inProgressCountL (setDurationMeta (completeMeta
        (updateExerciseState (recordStep s.currentParsed i ts) i .completed)) ts).exercises = 0
      rw [exercises_setDurationMeta]
      exact hw2cnt

/-- `onExerciseSkip`, fired while started with no other active exercise,
preserves the single-active invariant. -/
theorem onExerciseSkip_single_active (s : CState) (i : Nat) (ts : Option TimerVal)
    (hgs : s.currentParsed.metadata.state = .started)
    (hgo : othersNotInProgress s.currentParsed.exercises i) :
    SingleActive (onExerciseSkip s i ts).1.currentParsed := by
  obtain ⟨hg1, hg2⟩ := hgo
  unfold onExerciseSkip
  dsimp only [updateFile]
  have hw2cnt : inProgressCountL
      (updateExerciseState (skipRecordStep s.currentParsed i ts) i .skipped).exercises = 0 := by
    cases hex : (skipRecordStep s.currentParsed i ts).exercises[i]? with
    | none =>
      unfold updateExerciseState
      rw [hex]
      have hlen : (skipRecordStep s.currentParsed i ts).exercises.length ≤ i :=
        List.getElem?_eq_none_iff.mp hex
      have htk : (skipRecordStep s.currentParsed i ts).exercises.take i =
          (skipRecordStep s.currentParsed i ts).exercises :=
        List.take_of_length_le hlen
      rw [← htk, take_skipRecordStep]
      exact hg1
    | some e₁ =>
      rw [updateExerciseState_exercises_eq _ i .skipped e₁ hex]
      apply cnt_set_zero
      · exact fun hcontra => ExerciseState.noConfusion hcontra
      · rw [take_skipRecordStep]
        exact hg1
      · rw [drop_skipRecordStep]
        exact hg2
  cases hnp : findNextPending
      (updateExerciseState (skipRecordStep s.currentParsed i ts) i .skipped).exercises i with
  | some j =>
    dsimp only
    obtain ⟨hn0, hij, ⟨ep, hep, hpend⟩, hmin⟩ :=
      findNextPendingFrom_some_spec i _ 0 j hnp
    rw [Nat.sub_zero] at hep
    apply SingleActive_of_cnt_started
    · rw [updateExerciseState_exercises_eq _ j .inProgress ep hep]
      have h1 := cnt_set_one _ j ep { ep with state := .inProgress } hep rfl
        (cnt_zero_parts _ j (j + 1) hw2cnt).1
        (cnt_zero_parts _ j (j + 1) hw2cnt).2
      omega
    · rw [metadata_updateExerciseState, metadata_updateExerciseState,
        metadata_skipRecordStep]
      exact hgs
  | none =>
    dsimp only
    apply SingleActive_of_cnt_zero
    rw [cnt_lockAllFields]
    show inProgressCountL (setDurationMeta (completeMeta
      (updateExerciseState (skipRecordStep s.currentParsed i ts) i .skipped)) ts).exercises = 0
    rw [exercises_setDurationMeta]
    exact hw2cnt

/-- `onExerciseAddSet`, fired while started with no other active
exercise, preserves the single-active invariant. -/
theorem onExerciseAddSet_single_active (s : CState) (i : Nat) (ts : Option TimerVal)
    (hgs : s.currentParsed.metadata.state = .started)
    (hgo : othersNotInProgress s.currentParsed.exercises i)
    (hInv : SingleActive s.currentParsed) :
    SingleActive (onExerciseAddSet s i ts).1.currentParsed := by
  obtain ⟨hg1, hg2⟩ := hgo
  unfold onExerciseAddSet
  dsimp only [updateFile]
  cases hex : s.currentParsed.exercises[i]? with
  | none => exact hInv
  | some e =>
    dsimp only
    have hst := state_recordStep s.currentParsed i ts i
    rw [hex] at hst
    obtain ⟨e₁, he₁, hse₁⟩ := Option.map_eq_some'.mp hst
    have hlt₁ : i < (recordStep s.currentParsed i ts).exercises.length :=
      (List.getElem?_eq_some.mp he₁).1
    have hw2cnt : inProgressCountL
        (updateExerciseState (recordStep s.currentParsed i ts) i .completed).exercises = 0 := by
      rw [updateExerciseState_exercises_eq _ i .completed e₁ he₁]
      apply cnt_set_zero
      · exact fun hcontra => ExerciseState.noConfusion hcontra
      · rw [take_recordStep]
        exact hg1
      · rw [drop_recordStep]
        exact hg2
    have he₂ : (updateExerciseState (recordStep s.currentParsed i ts) i
        .completed).exercises[i]? = some { e₁ with state := .completed } := by
      rw [updateExerciseState_exercises_eq _ i .completed e₁ he₁, List.getElem?_set]
      simp [hlt₁]
    have hlt₂ : i < (updateExerciseState (recordStep s.currentParsed i ts) i
        .completed).exercises.length := (List.getElem?_eq_some.mp he₂).1
    have hlenT : ((updateExerciseState (recordStep s.currentParsed i ts) i
        .completed).exercises.take (i + 1)).length = i + 1 := by
      rw [List.length_take]
      omega
    have hw3 := addSet_exercises_eq _ i _ he₂
    have hw3cnt : inProgressCountL (addSet (updateExerciseState
        (recordStep s.currentParsed i ts) i .completed) i).exercises = 0 := by
      rw [hw3, cntL_append, cntL_cons, cnt_map_bump]
      rw [if_neg (fun hcontra => ExerciseState.noConfusion hcontra)]
      have hsum := cntL_append ((updateExerciseState (recordStep s.currentParsed i ts) i
          .completed).exercises.take (i + 1))
        ((updateExerciseState (recordStep s.currentParsed i ts) i
          .completed).exercises.drop (i + 1))
      rw [List.take_append_drop] at hsum
      omega
    have he₃ : (addSet (updateExerciseState (recordStep s.currentParsed i ts) i
        .completed) i).exercises[i + 1]? =
        some (addSetDup { e₁ with state := .completed }) := by
      rw [hw3, List.getElem?_append, if_neg (by rw [hlenT]; omega), hlenT, Nat.sub_self]
      simp
    apply SingleActive_of_cnt_started
    · rw [updateExerciseState_exercises_eq _ (i + 1) .inProgress _ he₃]
      exact le_of_eq (cnt_set_one _ (i + 1) _
        { addSetDup { e₁ with state := .completed } with state := .inProgress } he₃ rfl
        (cnt_zero_parts _ (i + 1) (i + 2) hw3cnt).1
        (cnt_zero_parts _ (i + 1) (i + 2) hw3cnt).2)
    · rw [metadata_updateExerciseState, metadata_addSet, metadata_updateExerciseState,
        metadata_recordStep]
      exact hgs

/-- `onExerciseAddRest`, fired while started with no other active
exercise, preserves the single-active invariant. -/
theorem onExerciseAddRest_single_active (s : CState) (i : Nat) (ts : Option TimerVal)
    (hgs : s.currentParsed.metadata.state = .started)
    (hgo : othersNotInProgress s.currentParsed.exercises i)
    (hInv : SingleActive s.currentParsed) :
    SingleActive (onExerciseAddRest s i ts).1.currentParsed := by
  obtain ⟨hg1, hg2⟩ := hgo
  unfold onExerciseAddRest
  dsimp only [updateFile]
  by_cases hcond : s.currentParsed.exercises[i]?.isNone = true ∨
      isFalsyStr s.currentParsed.metadata.restDuration = true
  · rw [if_pos hcond]
    exact hInv
  · rw [if_neg hcond]
    dsimp only
    have hst := state_recordStep s.currentParsed i ts i
    have hex : ∃ e, s.currentParsed.exercises[i]? = some e := by
      push_neg at hcond
      cases hsome : s.currentParsed.exercises[i]? with
      | none =>
        rw [hsome] at hcond
        exact absurd rfl hcond.1
      | some e => exact ⟨e, rfl⟩
    obtain ⟨e, hex⟩ := hex
    rw [hex] at hst
    obtain ⟨e₁, he₁, hse₁⟩ := Option.map_eq_some'.mp hst
    have hlt₁ : i < (recordStep s.currentParsed i ts).exercises.length :=
      (List.getElem?_eq_some.mp he₁).1
    have hw2cnt : inProgressCountL
        (updateExerciseState (recordStep s.currentParsed i ts) i .completed).exercises = 0 := by
      rw [updateExerciseState_exercises_eq _ i .completed e₁ he₁]
      apply cnt_set_zero
      · exact fun hcontra => ExerciseState.noConfusion hcontra
      · rw [take_recordStep]
        exact hg1
      · rw [drop_recordStep]
        exact hg2
    have he₂ : (updateExerciseState (recordStep s.currentParsed i ts) i
        .completed).exercises[i]? = some { e₁ with state := .completed } := by
      rw [updateExerciseState_exercises_eq _ i .completed e₁ he₁, List.getElem?_set]
      simp [hlt₁]
    have hlenT : ((updateExerciseState (recordStep s.currentParsed i ts) i
        .completed).exercises.take (i + 1)).length = i + 1 := by
      have hlt₂ : i < (updateExerciseState (recordStep s.currentParsed i ts) i
          .completed).exercises.length := (List.getElem?_eq_some.mp he₂).1
      rw [List.length_take]
      omega
    have hw3 := addRest_exercises_eq _ i _
      (s.currentParsed.metadata.restDuration.getD []) he₂
    have hw3cnt : inProgressCountL (addRest (updateExerciseState
        (recordStep s.currentParsed i ts) i .completed) i
        (s.currentParsed.metadata.restDuration.getD [])).exercises = 0 := by
      rw [hw3, cntL_append, cntL_cons, cnt_map_bump]
      rw [if_neg (fun hcontra => ExerciseState.noConfusion hcontra)]
      have hsum := cntL_append ((updateExerciseState (recordStep s.currentParsed i ts) i
          .completed).exercises.take (i + 1))
        ((updateExerciseState (recordStep s.currentParsed i ts) i
          .completed).exercises.drop (i + 1))
      rw [List.take_append_drop] at hsum
      omega
    have he₃ : (addRest (updateExerciseState (recordStep s.currentParsed i ts) i
        .completed) i (s.currentParsed.metadata.restDuration.getD
          [])).exercises[i + 1]? =
        some (mkRestExercise (s.currentParsed.metadata.restDuration.getD [])
          ({ e₁ with state := ExerciseState.completed }.lineIndex + 1)) := by
      rw [hw3, List.getElem?_append, if_neg (by rw [hlenT]; omega), hlenT, Nat.sub_self]
      simp
    apply SingleActive_of_cnt_started
    · rw [updateExerciseState_exercises_eq _ (i + 1) .inProgress _ he₃]
      exact le_of_eq (cnt_set_one _ (i + 1) _
        { mkRestExercise (s.currentParsed.metadata.restDuration.getD [])
            ({ e₁ with state := ExerciseState.completed }.lineIndex + 1) with
          state := .inProgress } he₃ rfl
        (cnt_zero_parts _ (i + 1) (i + 2) hw3cnt).1
        (cnt_zero_parts _ (i + 1) (i + 2) hw3cnt).2)
    · rw [metadata_updateExerciseState, metadata_addRest, metadata_updateExerciseState,
        metadata_recordStep]
      exact hgs

/-- One guarded operation preserves the single-active invariant. -/
theorem guard_step_single_active (s : CState) (op : Op) (hg : guardOk s op)
    (hInv : SingleActive s.currentParsed) :
    SingleActive (applyOp s op).1.currentParsed := by
  cases op with
  | startW date => exact onStartWorkout_single_active s date hg hInv
  | finishW ts => exact onFinishWorkout_single_active s ts hg
  | exFinish i ts => exact onExerciseFinish_single_active s i ts hg.1 hg.2 hInv
  | exSkip i ts => exact onExerciseSkip_single_active s i ts hg.1 hg.2
  | exAddSet i ts => exact onExerciseAddSet_single_active s i ts hg.1 hg.2 hInv
  | exAddRest i ts => exact onExerciseAddRest_single_active s i ts hg.1 hg.2 hInv

/-- C5 counterexample: the orchestrator callbacks do not preserve the
single-active invariant under arbitrary operation sequences — starting
the two-exercise planned workout `wAB` twice activates both exercises. -/
theorem C5_counterexample :
    sAB.currentParsed.metadata.state = .planned ∧
      inProgressCount sAB.currentParsed = 0 ∧
      ¬ SingleActive
        (runOps sAB [.startW (str "d"), .startW (str "d")]).currentParsed := by
  decide

/-- C5 (amended): starting from a workout satisfying the single-active
invariant (in particular a planned workout with no active exercise),
any sequence of orchestrator operations in which each operation fires
only from a situation the UI offers it — Start only on a planned
workout, the per-exercise operations only while started and only with no
other exercise active, Finish-workout only with no exercise active —
keeps at most one exercise `inProgress`, and only while the workout
state is `started`. -/
theorem C5_guarded_single_active :
    ∀ (ops : List Op) (s : CState), SingleActive s.currentParsed →
      GuardedRun s ops → SingleActive (runOps s ops).currentParsed
  | [], _, hInv, _ => hInv
  | op :: ops, s, hInv, hrun => by
    cases hrun with
    | cons _ _ _ hg hrest =>
      exact C5_guarded_single_active ops _
        (guard_step_single_active s op hg hInv) hrest

/-- Witness for C5 (amended): a guarded start-then-finish run on `sAB`. -/
theorem C5_guarded_single_active_witness :
    SingleActive sAB.currentParsed ∧
      GuardedRun sAB [.startW (str "d"), .exFinish 0 (some ⟨30, 10⟩)] ∧
      SingleActive
        (runOps sAB [.startW (str "d"), .exFinish 0 (some ⟨30, 10⟩)]).currentParsed := by
  have hg : GuardedRun sAB [Op.startW (str "d"), Op.exFinish 0 (some ⟨30, 10⟩)] := by
    apply GuardedRun.cons
    · show sAB.currentParsed.metadata.state = .planned
      decide
    · apply GuardedRun.cons
      · decide
      · exact GuardedRun.nil _
  exact ⟨by decide, hg, C5_guarded_single_active _ sAB (by decide) hg⟩

/-- `lockAllFields` keeps the metadata. -/
theorem metadata_lockAllFields (w : ParsedWorkout) :
    (lockAllFields w).metadata = w.metadata := rfl

/-- After `lockAllFields`, no parameter of any exercise is editable. -/
theorem lockAllFields_editable (w : ParsedWorkout) :
    ∀ ex ∈ (lockAllFields w).exercises, ∀ p ∈ ex.params, p.editable = false := by
  intro ex hex p hp
  unfold lockAllFields at hex
  dsimp at hex
  obtain ⟨e₀, _, he₀⟩ := List.mem_map.mp hex
  subst he₀
  dsimp at hp
  obtain ⟨p₀, _, hp₀⟩ := List.mem_map.mp hp
  subst hp₀
  rfl

/-- C6: finishing or skipping the exercise at an in-range index `i` with
a timer snapshot available either activates the first pending exercise
after `i` (when one exists), or — when no pending exercise remains after
`i` — completes the workout, sets the metadata duration from the
workout-elapsed time, and locks every parameter of every exercise. -/
theorem C6_advance_selects_first_pending_or_completes (s : CState) (i : Nat)
    (t : TimerVal) (e : Exercise) (he : s.currentParsed.exercises[i]? = some e) :
    ((∃ k ek, i < k ∧ s.currentParsed.exercises[k]? = some ek ∧ ek.state = .pending) →
      ∃ j ej, i < j ∧ s.currentParsed.exercises[j]? = some ej ∧ ej.state = .pending ∧
        (∀ m em, i < m → m < j → s.currentParsed.exercises[m]? = some em →
          em.state ≠ .pending) ∧
        ((onExerciseFinish s i (some t)).1.currentParsed.exercises[j]?).map
          Exercise.state = some .inProgress) ∧
    ((∀ k ek, i < k → s.currentParsed.exercises[k]? = some ek → ek.state ≠ .pending) →
      (onExerciseFinish s i (some t)).1.currentParsed.metadata.state = .completed ∧
      (onExerciseFinish s i (some t)).1.currentParsed.metadata.duration =
        some (formatDurationHuman t.workoutElapsed) ∧
      ∀ ex ∈ (onExerciseFinish s i (some t)).1.currentParsed.exercises,
        ∀ p ∈ ex.params, p.editable = false) ∧
    ((∃ k ek, i < k ∧ s.currentParsed.exercises[k]? = some ek ∧ ek.state = .pending) →
      ∃ j ej, i < j ∧ s.currentParsed.exercises[j]? = some ej ∧ ej.state = .pending ∧
        (∀ m em, i < m → m < j → s.currentParsed.exercises[m]? = some em →
          em.state ≠ .pending) ∧
        ((onExerciseSkip s i (some t)).1.currentParsed.exercises[j]?).map
          Exercise.state = some .inProgress) ∧
    ((∀ k ek, i < k → s.currentParsed.exercises[k]? = some ek → ek.state ≠ .pending) →
      (onExerciseSkip s i (some t)).1.currentParsed.metadata.state = .completed ∧
      (onExerciseSkip s i (some t)).1.currentParsed.metadata.duration =
        some (formatDurationHuman t.workoutElapsed) ∧
      ∀ ex ∈ (onExerciseSkip s i (some t)).1.currentParsed.exercises,
        ∀ p ∈ ex.params, p.editable = false) := by
  refine ⟨?_, ?_, ?_, ?_⟩
  · intro hpend
    cases hnp : findNextPending s.currentParsed.exercises i with
    | none =>
      obtain ⟨k, ek, hik, hk, hpk⟩ := hpend
      exact absurd hpk (findNextPendingFrom_none_spec i _ 0 hnp k ek (by omega) hk)
    | some j =>
      obtain ⟨h0j, hij, ⟨ej, hej, hpj⟩, hminS⟩ := findNextPendingFrom_some_spec i _ 0 j hnp
      rw [Nat.sub_zero] at hej
      have hnp₂ : findNextPending (updateExerciseState
          (recordStep s.currentParsed i (some t)) i .completed).exercises i = some j := by
        rw [findNextPending_updateExerciseState, findNextPending_recordStep]
        exact hnp
      obtain ⟨_, _, ⟨ep, hep, hpp⟩, _⟩ := findNextPendingFrom_some_spec i _ 0 j hnp₂
      rw [Nat.sub_zero] at hep
      refine ⟨j, ej, hij, hej, hpj, ?_, ?_⟩
      · intro m em him hmj hm
        exact hminS m em (by omega) (by omega) hm
      · unfold onExerciseFinish
        dsimp only [updateFile]
        simp only [he]
        rw [hnp₂]
        dsimp only
        rw [updateExerciseState_exercises_eq _ j .inProgress ep hep, List.getElem?_set]
        have hlt := (List.getElem?_eq_some.mp hep).1
        simp [hlt]
  · intro hnone
    have hnpS : findNextPending s.currentParsed.exercises i = none := by
      cases hnp : findNextPending s.currentParsed.exercises i with
      | none => rfl
      | some j =>
        obtain ⟨_, hij, ⟨ej, hej, hpj⟩, _⟩ := findNextPendingFrom_some_spec i _ 0 j hnp
        rw [Nat.sub_zero] at hej
        exact absurd hpj (hnone j ej hij hej)
    have hnp₂ : findNextPending (updateExerciseState
        (recordStep s.currentParsed i (some t)) i .completed).exercises i = none := by
      rw [findNextPending_updateExerciseState, findNextPending_recordStep]
      exact hnpS
    unfold onExerciseFinish
    dsimp only [updateFile]
    simp only [he]
    rw [hnp₂]
    dsimp only
    refine ⟨?_, ?_, ?_⟩
    · rw [metadata_lockAllFields]
      rfl
    · rw [metadata_lockAllFields]
      rfl
    · exact lockAllFields_editable _
  · intro hpend
    cases hnp : findNextPending s.currentParsed.exercises i with
    | none =>
      obtain ⟨k, ek, hik, hk, hpk⟩ := hpend
      exact absurd hpk (findNextPendingFrom_none_spec i _ 0 hnp k ek (by omega) hk)
    | some j =>
      obtain ⟨h0j, hij, ⟨ej, hej, hpj⟩, hminS⟩ := findNextPendingFrom_some_spec i _ 0 j hnp
      rw [Nat.sub_zero] at hej
      have hnp₂ : findNextPending (updateExerciseState
          (skipRecordStep s.currentParsed i (some t)) i .skipped).exercises i = some j := by
        rw [findNextPending_updateExerciseState, findNextPending_skipRecordStep]
        exact hnp
      obtain ⟨_, _, ⟨ep, hep, hpp⟩, _⟩ := findNextPendingFrom_some_spec i _ 0 j hnp₂
      rw [Nat.sub_zero] at hep
      refine ⟨j, ej, hij, hej, hpj, ?_, ?_⟩
      · intro m em him hmj hm
        exact hminS m em (by omega) (by omega) hm
      · unfold onExerciseSkip
        dsimp only [updateFile]
        rw [hnp₂]
        dsimp only
        rw [updateExerciseState_exercises_eq _ j .inProgress ep hep, List.getElem?_set]
        have hlt := (List.getElem?_eq_some.mp hep).1
        simp [hlt]
  · intro hnone
    have hnpS : findNextPending s.currentParsed.exercises i = none := by
      cases hnp : findNextPending s.currentParsed.exercises i with
      | none => rfl
      | some j =>
        obtain ⟨_, hij, ⟨ej, hej, hpj⟩, _⟩ := findNextPendingFrom_some_spec i _ 0 j hnp
        rw [Nat.sub_zero] at hej
        exact absurd hpj (hnone j ej hij hej)
    have hnp₂ : findNextPending (updateExerciseState
        (skipRecordStep s.currentParsed i (some t)) i .skipped).exercises i = none := by
      rw [findNextPending_updateExerciseState, findNextPending_skipRecordStep]
      exact hnpS
    unfold onExerciseSkip
    dsimp only [updateFile]
    rw [hnp₂]
    dsimp only
    refine ⟨?_, ?_, ?_⟩
    · rw [metadata_lockAllFields]
      rfl
    · rw [metadata_lockAllFields]
      rfl
    · exact lockAllFields_editable _

/-- Witness for C6 at `sAB`, index 0, timer snapshot 30s/10s. -/
theorem C6_advance_selects_first_pending_or_completes_witness :
    sAB.currentParsed.exercises[0]? = some exSquats ∧
      (∃ j ej, 0 < j ∧ sAB.currentParsed.exercises[j]? = some ej ∧
        ej.state = .pending ∧
        (∀ m em, 0 < m → m < j → sAB.currentParsed.exercises[m]? = some em →
          em.state ≠ .pending) ∧
        ((onExerciseFinish sAB 0 (some ⟨30, 10⟩)).1.currentParsed.exercises[j]?).map
          Exercise.state = some .inProgress) :=
  ⟨by decide,
   (C6_advance_selects_first_pending_or_completes sAB 0 ⟨30, 10⟩ exSquats
       (by decide)).1
     ⟨1, exPlank, by omega, by decide, by decide⟩⟩

/-- C4 counterexample: with an out-of-range index, `updateParamValue`
executes `return parsed`, handing back the input object itself — the
returned workout then shares every mutable object id with the input,
refuting "the returned workout shares no mutable aliasing with w" as a
universal statement (the input is still not mutated). -/
theorem C4_counterexample :
    ¬ ((updateParamValueA aw0 0 (str "Weight") (str "70")).1 = aw0 ∧
        IdsFresh aw0 (updateParamValueA aw0 0 (str "Weight") (str "70")).2) := by
  decide

/-- C4 (amended): every mutation-engine function leaves its input object
unmutated, and — whenever it takes the cloning path, i.e. for
`lockAllFields` always and for the indexed functions whenever the index
is in range — the returned workout shares no mutable object id with the
input; an out-of-range index returns the input object itself. -/
theorem C4_engine_frame_and_no_aliasing :
    (∀ (w : AWorkout) (i : Nat) (key v : Str),
        (updateParamValueA w i key v).1 = w ∧
          (i < w.exercises.length → IdsFresh w (updateParamValueA w i key v).2)) ∧
    (∀ (w : AWorkout) (i : Nat) (st : ExerciseState),
        (updateExerciseStateA w i st).1 = w ∧
          (i < w.exercises.length → IdsFresh w (updateExerciseStateA w i st).2)) ∧
    (∀ w : AWorkout, (lockAllFieldsA w).1 = w ∧ IdsFresh w (lockAllFieldsA w).2) ∧
    (∀ (w : AWorkout) (i : Nat),
        (addSetA w i).1 = w ∧ (i < w.exercises.length → IdsFresh w (addSetA w i).2)) ∧
    (∀ (w : AWorkout) (i : Nat) (d : Str),
        (setRecordedDurationA w i d).1 = w ∧
          (i < w.exercises.length → IdsFresh w (setRecordedDurationA w i d).2)) :=
  ⟨fun w i key v => ⟨updateParamValueA_frame w i key v,
      fun hlt => updateParamValueA_fresh w i key v hlt⟩,
   fun w i st => ⟨updateExerciseStateA_frame w i st,
      fun hlt => updateExerciseStateA_fresh w i st hlt⟩,
   fun w => ⟨lockAllFieldsA_frame w, lockAllFieldsA_fresh w⟩,
   fun w i => ⟨addSetA_frame w i, fun hlt => addSetA_fresh w i hlt⟩,
   fun w i d => ⟨setRecordedDurationA_frame w i d,
      fun hlt => setRecordedDurationA_fresh w i d hlt⟩⟩

/-- Witness for C4 (amended) at the one-exercise addressed workout
`aw1`, index 0. -/
theorem C4_engine_frame_and_no_aliasing_witness :
    ((updateParamValueA aw1 0 (str "Weight") (str "70")).1 = aw1 ∧
        IdsFresh aw1 (updateParamValueA aw1 0 (str "Weight") (str "70")).2) ∧
      ((updateExerciseStateA aw1 0 .completed).1 = aw1 ∧
        IdsFresh aw1 (updateExerciseStateA aw1 0 .completed).2) ∧
      ((lockAllFieldsA aw1).1 = aw1 ∧ IdsFresh aw1 (lockAllFieldsA aw1).2) ∧
      ((addSetA aw1 0).1 = aw1 ∧ IdsFresh aw1 (addSetA aw1 0).2) ∧
      ((setRecordedDurationA aw1 0 (str "10s")).1 = aw1 ∧
        IdsFresh aw1 (setRecordedDurationA aw1 0 (str "10s")).2) :=
  ⟨⟨(C4_engine_frame_and_no_aliasing.1 aw1 0 (str "Weight") (str "70")).1,
    (C4_engine_frame_and_no_aliasing.1 aw1 0 (str "Weight") (str "70")).2 (by decide)⟩,
   ⟨(C4_engine_frame_and_no_aliasing.2.1 aw1 0 .completed).1,
    (C4_engine_frame_and_no_aliasing.2.1 aw1 0 .completed).2 (by decide)⟩,
   C4_engine_frame_and_no_aliasing.2.2.1 aw1,
   ⟨(C4_engine_frame_and_no_aliasing.2.2.2.1 aw1 0).1,
    (C4_engine_frame_and_no_aliasing.2.2.2.1 aw1 0).2 (by decide)⟩,
   ⟨(C4_engine_frame_and_no_aliasing.2.2.2.2 aw1 0 (str "10s")).1,
    (C4_engine_frame_and_no_aliasing.2.2.2.2 aw1 0 (str "10s")).2 (by decide)⟩⟩

/-- Witness for C9: all four advance operations on `sAB` (active exercise
0, next pending exercise 1). -/
theorem C9_advance_timer_before_write_witness :
    (∃ c t₀, (onExerciseFinish sAB 0 none).2 = [.advanceTimer 1, .write c t₀]) ∧
      (∃ c t₀, (onExerciseSkip sAB 0 none).2 = [.advanceTimer 1, .write c t₀]) ∧
      (∃ c t₀, (onExerciseAddSet sAB 0 none).2 = [.advanceTimer 1, .write c t₀]) ∧
      (∃ c t₀, (onExerciseAddRest sAB 0 none).2 = [.advanceTimer 1, .write c t₀]) :=
  ⟨C9_advance_timer_before_write.1 sAB 0 none exSquats 1 (by decide) (by decide),
   C9_advance_timer_before_write.2.1 sAB 0 none 1 (by decide),
   C9_advance_timer_before_write.2.2.1 sAB 0 none exSquats (by decide),
   C9_advance_timer_before_write.2.2.2 sAB 0 none exSquats (by decide) (by decide)⟩

/-! ## Round-trip development (C1)

String-level inverse lemmas for the codec, stability of the serializer on
well-formed data, and well-formedness of everything the parser produces,
culminating in the round-trip law. -/

/-- `takeUntil` is a sublist. -/
theorem takeUntil_sublist (c : Char) (s : Str) :
    List.Sublist (takeUntil c s) s :=
  List.takeWhile_sublist _

/-- `dropThrough` is a sublist. -/
theorem dropThrough_sublist (c : Char) (s : Str) :
    List.Sublist (dropThrough c s) s :=
  (List.drop_sublist 1 _).trans (List.dropWhile_sublist _)

/-- Characters kept by `takeUntil` differ from the separator. -/
theorem ne_of_mem_takeUntil (c a : Char) (s : Str) (h : a ∈ takeUntil c s) :
    a ≠ c := by
  have := List.mem_takeWhile_imp h
  simpa using this

/-- Every character of a serialized parameter cell comes from the key, the
value, the unit or the fixed punctuation. -/
theorem mem_serializeParam (p : ExerciseParam) (a : Char)
    (h : a ∈ serializeParam p) :
    a ∈ p.key ∨ a ∈ p.value ∨ (∃ u, p.unit = some u ∧ a ∈ u) ∨
      a ∈ ([':', ' ', '[', ']'] : Str) := by
  unfold serializeParam at h
  rcases List.mem_append.mp h with h1 | h1
  · rcases List.mem_append.mp h1 with h2 | h2
    · rcases List.mem_append.mp h2 with h3 | h3
      · exact Or.inl h3
      · right; right; right
        rcases List.mem_cons.mp h3 with h4 | h4
        · simp [h4]
        · simp at h4
          simp [h4]
    · by_cases he : p.editable
      · rw [if_pos he] at h2
        rcases List.mem_append.mp h2 with h3 | h3
        · rcases List.mem_cons.mp h3 with h4 | h4
          · right; right; right; simp [h4]
          · exact Or.inr (Or.inl h4)
        · simp at h3
          right; right; right; simp [h3]
      · rw [if_neg he] at h2
        exact Or.inr (Or.inl h2)
  · cases hu : p.unit with
    | none => rw [hu] at h1; simp at h1
    | some u =>
      rw [hu] at h1
      rcases List.mem_cons.mp h1 with h2 | h2
      · right; right; right; simp [h2]
      · exact Or.inr (Or.inr (Or.inl ⟨u, rfl, h2⟩))

/-- A well-formed parameter serializes without a `|`. -/
theorem serializeParam_no_pipe (p : ExerciseParam) (hp : ParamWf p) :
    '|' ∉ serializeParam p := by
  obtain ⟨⟨hknl, hknp, hknc, hkt⟩, ⟨hvnl, hvnp⟩, hcond⟩ := hp
  intro h
  rcases mem_serializeParam p '|' h with h1 | h1 | ⟨u, hu, h1⟩ | h1
  · exact hknp h1
  · exact hvnp h1
  · by_cases he : p.editable
    · rw [if_pos he] at hcond
      exact (hcond.2 u hu).2.1 h1
    · rw [if_neg he] at hcond
      rw [hcond.2.2] at hu
      cases hu
  · simp at h1

/-- A well-formed parameter serializes without a newline. -/
theorem serializeParam_no_newline (p : ExerciseParam) (hp : ParamWf p) :
    '\n' ∉ serializeParam p := by
  obtain ⟨⟨hknl, hknp, hknc, hkt⟩, ⟨hvnl, hvnp⟩, hcond⟩ := hp
  intro h
  rcases mem_serializeParam p '\n' h with h1 | h1 | ⟨u, hu, h1⟩ | h1
  · exact hknl h1
  · exact hvnl h1
  · by_cases he : p.editable
    · rw [if_pos he] at hcond
      exact (hcond.2 u hu).1 h1
    · rw [if_neg he] at hcond
      rw [hcond.2.2] at hu
      cases hu
  · simp at h1

/-- A left-trimmed prefix keeps a string with a colon after it untrimmed. -/
theorem ltrim_key_colon (k : Str) (hk : ltrim k = k) (R : Str) :
    ltrim (k ++ ':' :: R) = k ++ ':' :: R := by
  rw [ltrim_append]
  by_cases h : ltrim k = []
  · rw [if_pos h]
    have hke : k = [] := by rw [← hk, h]
    simp only [hke, List.nil_append]
    exact ltrim_cons_of_ne ':' R (by decide)
  · rw [if_neg h, hk]

/-- A string ending in a non-space character is right-trimmed. -/
theorem rtrim_append_singleton (A : Str) (c : Char) (hc : c ≠ ' ') :
    rtrim (A ++ [c]) = A ++ [c] := by
  unfold rtrim
  rw [List.reverse_append]
  simp only [List.reverse_cons, List.reverse_nil, List.nil_append,
    List.singleton_append]
  rw [ltrim_cons_of_ne c _ hc]
  simp

/-- Trimming fixes a string that is both left- and right-trimmed. -/
theorem trimC_eq_self (s : Str) (h1 : ltrim s = s) (h2 : rtrim s = s) :
    trimC s = s := by
  unfold trimC
  rw [h1, h2]

/-- A key-colon string always contains a colon. -/
theorem containsC_key_colon (k R : Str) :
    containsC ':' (k ++ ':' :: R) = true := by
  rw [containsC_eq_true_iff]
  exact List.mem_append_right _ (List.mem_cons_self _ _)

/-- Serializing a well-formed parameter and parsing the cell back yields
the parameter unchanged. -/
theorem parseParamPiece_serializeParam (p : ExerciseParam) (hp : ParamWf p) :
    parseParamPiece (serializeParam p) = some p := by
  obtain ⟨key, value, editable, unit⟩ := p
  obtain ⟨⟨hknl, hknp, hknc, hkt⟩, ⟨hvnl, hvnp⟩, hcond⟩ := hp
  have hlk : ltrim key = key := ltrim_of_trimC_eq key hkt
  have htu : ∀ R : Str, takeUntil ':' (key ++ ':' :: R) = key :=
    fun R => takeUntil_append_cons ':' key R hknc
  have hdtc : ∀ R : Str, dropThrough ':' (key ++ ':' :: R) = R :=
    fun R => dropThrough_append_cons ':' key R hknc
  cases editable with
  | true =>
    rw [if_pos rfl] at hcond
    obtain ⟨hvnb, hunit⟩ := hcond
    cases unit with
    | none =>
      have hsp : serializeParam ⟨key, value, true, none⟩ =
          key ++ ':' :: ' ' :: '[' :: (value ++ [']']) := by
        show key ++ [':', ' '] ++ (('[' :: value) ++ [']']) ++ [] = _
        simp
      have h2 : rtrim (key ++ ':' :: ' ' :: '[' :: (value ++ [']'])) =
          key ++ ':' :: ' ' :: '[' :: (value ++ [']']) := by
        have heq : key ++ ':' :: ' ' :: '[' :: (value ++ [']']) =
            (key ++ ':' :: ' ' :: '[' :: value) ++ [']'] := by simp
        rw [heq, rtrim_append_of _ _ (by decide)]
        have hrb : rtrim ([']'] : Str) = [']'] := by decide
        rw [hrb]
      have ht : trimC (key ++ ':' :: ' ' :: '[' :: (value ++ [']'])) =
          key ++ ':' :: ' ' :: '[' :: (value ++ [']']) :=
        trimC_eq_self _ (ltrim_key_colon key hlk _) h2
      have hr : trimC (' ' :: '[' :: (value ++ [']'])) =
          '[' :: (value ++ [']']) := by
        rw [trimC_cons_space]
        apply trimC_eq_self
        · exact ltrim_cons_of_ne '[' _ (by decide)
        · have heq2 : '[' :: (value ++ [']']) = ('[' :: value) ++ [']'] := by
            simp
          rw [heq2, rtrim_append_of _ _ (by decide)]
          have hrb : rtrim ([']'] : Str) = [']'] := by decide
          rw [hrb]
      have hcb : containsC ']' (value ++ [']']) = true := by
        rw [containsC_eq_true_iff]
        exact List.mem_append_right _ (List.mem_cons_self _ _)
      have htk : takeUntil ']' (value ++ [']']) = value :=
        takeUntil_append_cons ']' value [] hvnb
      have hdt : dropThrough ']' (value ++ [']']) = [] :=
        dropThrough_append_cons ']' value [] hvnb
      have hemp : trimC ([] : Str) = [] := by decide
      rw [hsp]
      simp only [parseParamPiece, ht, containsC_key_colon, htu, hkt, hdtc,
        hr, hcb, htk, hdt, hemp]
      simp
    | some u =>
      obtain ⟨hunl, hunp, hut, hune⟩ := hunit u rfl
      have hru : rtrim u = u := rtrim_of_trimC_eq u hut
      have hrune : rtrim u ≠ [] := by rw [hru]; exact hune
      have hsp : serializeParam ⟨key, value, true, some u⟩ =
          key ++ ':' :: ' ' :: '[' :: (value ++ ']' :: ' ' :: u) := by
        show key ++ [':', ' '] ++ (('[' :: value) ++ [']']) ++ (' ' :: u) = _
        simp
      have h2 : rtrim (key ++ ':' :: ' ' :: '[' :: (value ++ ']' :: ' ' :: u)) =
          key ++ ':' :: ' ' :: '[' :: (value ++ ']' :: ' ' :: u) := by
        have heq : key ++ ':' :: ' ' :: '[' :: (value ++ ']' :: ' ' :: u) =
            (key ++ ':' :: ' ' :: '[' :: (value ++ [']', ' '])) ++ u := by simp
        rw [heq, rtrim_append_of _ _ hrune, hru]
      have ht : trimC (key ++ ':' :: ' ' :: '[' :: (value ++ ']' :: ' ' :: u)) =
          key ++ ':' :: ' ' :: '[' :: (value ++ ']' :: ' ' :: u) :=
        trimC_eq_self _ (ltrim_key_colon key hlk _) h2
      have hr : trimC (' ' :: '[' :: (value ++ ']' :: ' ' :: u)) =
          '[' :: (value ++ ']' :: ' ' :: u) := by
        rw [trimC_cons_space]
        apply trimC_eq_self
        · exact ltrim_cons_of_ne '[' _ (by decide)
        · have heq2 : '[' :: (value ++ ']' :: ' ' :: u) =
              ('[' :: (value ++ [']', ' '])) ++ u := by simp
          rw [heq2, rtrim_append_of _ _ hrune, hru]
      have hcb : containsC ']' (value ++ ']' :: ' ' :: u) = true := by
        rw [containsC_eq_true_iff]
        exact List.mem_append_right _ (List.mem_cons_self _ _)
      have htk : takeUntil ']' (value ++ ']' :: ' ' :: u) = value :=
        takeUntil_append_cons ']' value (' ' :: u) hvnb
      have hdt : dropThrough ']' (value ++ ']' :: ' ' :: u) = ' ' :: u :=
        dropThrough_append_cons ']' value (' ' :: u) hvnb
      have hu2 : trimC (' ' :: u) = u := by rw [trimC_cons_space]; exact hut
      rw [hsp]
      simp only [parseParamPiece, ht, containsC_key_colon, htu, hkt, hdtc,
        hr, hcb, htk, hdt, hu2]
      simp [hune]
  | false =>
    rw [if_neg (fun h => Bool.false_ne_true h)] at hcond
    obtain ⟨hvt, hvnb2, hu    ⟩ := hcond
    subst hu
    have hsp : serializeParam ⟨key, value, false, none⟩ =
        key ++ ':' :: ' ' :: value := by
      show key ++ [':', ' '] ++ value ++ [] = _
      simp
    by_cases hv : value = []
    · subst hv
      have ht : trimC (key ++ ':' :: ' ' :: ([] : Str)) = key ++ ':' :: [] := by
        unfold trimC
        rw [ltrim_key_colon key hlk]
        have heq : key ++ ':' :: ' ' :: ([] : Str) = (key ++ [':']) ++ [' '] := by
          simp
        rw [heq, rtrim_append_space, rtrim_append_singleton key ':' (by decide)]
      have hemp : trimC ([] : Str) = [] := by decide
      rw [hsp]
      simp only [parseParamPiece, ht, containsC_key_colon, htu, hkt, hdtc,
        hemp]
      simp
    · have hrv : rtrim value = value := rtrim_of_trimC_eq value hvt
      have hrvne : rtrim value ≠ [] := by rw [hrv]; exact hv
      have ht : trimC (key ++ ':' :: ' ' :: value) =
          key ++ ':' :: ' ' :: value := by
        apply trimC_eq_self
        · exact ltrim_key_colon key hlk _
        · have heq : key ++ ':' :: ' ' :: value =
              (key ++ [':', ' ']) ++ value := by simp
          rw [heq, rtrim_append_of _ _ hrvne, hrv]
      have hr : trimC (' ' :: value) = value := by
        rw [trimC_cons_space]; exact hvt
      rw [hsp]
      simp only [parseParamPiece, ht, containsC_key_colon, htu, hkt, hdtc, hr,
        if_true]
      split
      · rename_i r
        have hnb : ']' ∉ ('[' :: r : Str) := fun hmem => hvnb2 ⟨rfl, hmem⟩
        have hcf : containsC ']' r = false := by
          rw [containsC_eq_false_iff]
          exact fun hmem => hnb (List.mem_cons_of_mem _ hmem)
        rw [hcf]
        simp
      · rfl

/-- `parseParamPiece` only looks at the trimmed cell. -/
theorem parseParamPiece_congr (a b : Str) (h : trimC a = trimC b) :
    parseParamPiece a = parseParamPiece b := by
  simp only [parseParamPiece, h]

/-- Splitting a serialized exercise body at `|` yields the name cell and
the parameter cells described by `piecesAux`. -/
theorem splitOnC_pipe_body (ps : List ExerciseParam) :
    ∀ pre : Str, '|' ∉ pre → (∀ p ∈ ps, '|' ∉ serializeParam p) →
      splitOnC '|'
          (pre ++ (ps.map (fun p => str " | " ++ serializeParam p)).flatten) =
        piecesAux pre ps := by
  induction ps with
  | nil =>
    intro pre hpre _
    simp only [List.map_nil, List.flatten_nil, List.append_nil]
    exact splitOnC_of_not_mem '|' pre hpre
  | cons p rest ih =>
    intro pre hpre hps
    have hpp : '|' ∉ serializeParam p := hps p (List.mem_cons_self _ _)
    have heq :
        pre ++ ((p :: rest).map (fun q => str " | " ++ serializeParam q)).flatten =
          (pre ++ [' ']) ++ '|' :: ((' ' :: serializeParam p) ++
            (rest.map (fun q => str " | " ++ serializeParam q)).flatten) := by
      simp [str]
    have hnp : '|' ∉ pre ++ [' '] := by
      intro h
      rcases List.mem_append.mp h with h1 | h1
      · exact hpre h1
      · simp at h1
    have hpre2 : '|' ∉ (' ' :: serializeParam p : Str) := by
      intro h
      rcases List.mem_cons.mp h with h1 | h1
      · cases h1
      · exact hpp h1
    rw [heq, splitOnC_append_cons '|' _ _ hnp,
      ih (' ' :: serializeParam p) hpre2
        (fun q hq => hps q (List.mem_cons_of_mem _ hq))]
    rfl

/-- Parsing back the parameter cells of `piecesAux` recovers exactly the
parameters. -/
theorem filterMap_piecesAux (rest : List ExerciseParam) :
    ∀ p : ExerciseParam, ParamWf p → (∀ q ∈ rest, ParamWf q) →
      (piecesAux (' ' :: serializeParam p) rest).filterMap parseParamPiece =
        p :: rest := by
  induction rest with
  | nil =>
    intro p hp _
    show List.filterMap parseParamPiece [' ' :: serializeParam p] = [p]
    have h1 : parseParamPiece (' ' :: serializeParam p) = some p := by
      rw [parseParamPiece_congr _ (serializeParam p) (trimC_cons_space _)]
      exact parseParamPiece_serializeParam p hp
    simp [List.filterMap_cons, h1]
  | cons q qs ih =>
    intro p hp hqs
    show List.filterMap parseParamPiece
        ((' ' :: serializeParam p ++ [' ']) ::
          piecesAux (' ' :: serializeParam q) qs) = p :: q :: qs
    have h1 : parseParamPiece (' ' :: serializeParam p ++ [' ']) = some p := by
      rw [parseParamPiece_congr _ (serializeParam p)
        (by rw [show (' ' :: serializeParam p ++ [' '] : Str) =
              (' ' :: serializeParam p) ++ [' '] from rfl,
            trimC_append_space, trimC_cons_space])]
      exact parseParamPiece_serializeParam p hp
    rw [List.filterMap_cons, h1,
      ih q (hqs q (List.mem_cons_self _ _))
        (fun r hr => hqs r (List.mem_cons_of_mem _ hr))]

/-- The serializer's checkbox marker reads back as the same state. -/
theorem markerState_stateChar (st : ExerciseState) :
    markerState (stateChar st) = some st := by
  cases st <;> decide

/-- Unfolding equation for `parseExerciseLine` on a checklist-shaped line. -/
theorem parseExerciseLine_cons (c : Char) (rest : Str) :
    parseExerciseLine ('-' :: ' ' :: '[' :: c :: ']' :: rest) =
      match markerState c with
      | none => none
      | some st =>
        match splitOnC '|' (match rest with | ' ' :: r => r | r => r) with
        | [] => none
        | first :: cells =>
          some (st, trimC first, cells.filterMap parseParamPiece) := rfl

/-- Parsing a serialized well-formed exercise line recovers its state,
name and parameters. -/
theorem parseExerciseLine_serializeExercise (e : Exercise)
    (hwf : ExerciseWf e) :
    parseExerciseLine (serializeExercise e) =
      some (e.state, e.name, e.params) := by
  obtain ⟨st, name, params, td, rd, li⟩ := e
  obtain ⟨hnl, hnp, hnt, hpwf, hdd⟩ := hwf
  have hline : serializeExercise ⟨st, name, params, td, rd, li⟩ =
      '-' :: ' ' :: '[' :: stateChar st :: ']' :: ' ' ::
        (name ++ (params.map (fun p => str " | " ++ serializeParam p)).flatten) := by
    show str "- [" ++ [stateChar st] ++ str "] " ++ name ++
        (params.map (fun p => str " | " ++ serializeParam p)).flatten = _
    simp [str]
  rw [hline, parseExerciseLine_cons, markerState_stateChar]
  show (match splitOnC '|'
      (name ++ (params.map (fun p => str " | " ++ serializeParam p)).flatten) with
    | [] => none
    | first :: cells =>
      some (st, trimC first, cells.filterMap parseParamPiece)) =
    some (st, name, params)
  rw [splitOnC_pipe_body params name hnp
    (fun q hq => serializeParam_no_pipe q (hpwf q hq))]
  cases params with
  | nil =>
    show some (st, trimC name, List.filterMap parseParamPiece []) =
      some (st, name, [])
    rw [hnt]
    rfl
  | cons p rest =>
    show some (st, trimC (name ++ [' ']),
        (piecesAux (' ' :: serializeParam p) rest).filterMap parseParamPiece) =
      some (st, name, p :: rest)
    rw [trimC_append_space, hnt,
      filterMap_piecesAux rest p (hpwf p (List.mem_cons_self _ _))
        (fun r hr => hpwf r (List.mem_cons_of_mem _ hr))]

/-- Evaluating `parseMetadataLine` on a line with a trimmed, colon-free
key before the first colon. -/
theorem parseMetadataLine_key_colon (m : WorkoutMetadata) (k v : Str)
    (hk : ':' ∉ k) (hkt : trimC k = k) :
    parseMetadataLine m (k ++ ':' :: v) =
      if k = str "title" then
        (if trimC v = [] then m else { m with title := some (trimC v) })
      else if k = str "state" then
        (match readWorkoutState (trimC v) with
         | some s => { m with state := s }
         | none => m)
      else if k = str "startDate" then
        (if trimC v = [] then m else { m with startDate := some (trimC v) })
      else if k = str "duration" then
        (if trimC v = [] then m else { m with duration := some (trimC v) })
      else if k = str "restDuration" then
        (if trimC v = [] then m else { m with restDuration := some (trimC v) })
      else m := by
  have htu := takeUntil_append_cons ':' k v hk
  have hdt := dropThrough_append_cons ':' k v hk
  simp only [parseMetadataLine, containsC_key_colon, if_true, htu, hkt, hdt]

/-- A canonical `title:` line sets the title. -/
theorem parseMetadataLine_title (m : WorkoutMetadata) (t : Str)
    (ht : trimC t = t) (hne : t ≠ []) :
    parseMetadataLine m (str "title: " ++ t) = { m with title := some t } := by
  rw [show str "title: " ++ t = str "title" ++ ':' :: ' ' :: t from rfl,
    parseMetadataLine_key_colon m _ _ (by decide) (by decide),
    if_pos rfl, trimC_cons_space, ht, if_neg hne]

/-- A canonical `state:` line sets the state. -/
theorem parseMetadataLine_state (m : WorkoutMetadata) (s : WorkoutState) :
    parseMetadataLine m (str "state: " ++ workoutStateStr s) =
      { m with state := s } := by
  rw [show str "state: " ++ workoutStateStr s =
      str "state" ++ ':' :: ' ' :: workoutStateStr s from rfl,
    parseMetadataLine_key_colon m _ _ (by decide) (by decide),
    if_neg (by decide), if_pos rfl, trimC_cons_space]
  have h1 : trimC (workoutStateStr s) = workoutStateStr s := by
    cases s <;> decide
  have h2 : readWorkoutState (workoutStateStr s) = some s := by
    cases s <;> decide
  rw [h1, h2]

/-- An empty `startDate:` line leaves the metadata unchanged. -/
theorem parseMetadataLine_startDate_none (m : WorkoutMetadata) :
    parseMetadataLine m (str "startDate:") = m := by
  rw [show (str "startDate:" : Str) = str "startDate" ++ ':' :: [] from rfl,
    parseMetadataLine_key_colon m _ _ (by decide) (by decide),
    if_neg (by decide), if_neg (by decide), if_pos rfl, if_pos (by decide)]

/-- A filled `startDate:` line sets the start date. -/
theorem parseMetadataLine_startDate_some (m : WorkoutMetadata) (d : Str)
    (hd : trimC d = d) (hne : d ≠ []) :
    parseMetadataLine m (str "startDate:" ++ ' ' :: d) =
      { m with startDate := some d } := by
  rw [show str "startDate:" ++ ' ' :: d = str "startDate" ++ ':' :: ' ' :: d
      from rfl,
    parseMetadataLine_key_colon m _ _ (by decide) (by decide),
    if_neg (by decide), if_neg (by decide), if_pos rfl, trimC_cons_space, hd,
    if_neg hne]

/-- An empty `duration:` line leaves the metadata unchanged. -/
theorem parseMetadataLine_duration_none (m : WorkoutMetadata) :
    parseMetadataLine m (str "duration:") = m := by
  rw [show (str "duration:" : Str) = str "duration" ++ ':' :: [] from rfl,
    parseMetadataLine_key_colon m _ _ (by decide) (by decide),
    if_neg (by decide), if_neg (by decide), if_neg (by decide), if_pos rfl,
    if_pos (by decide)]

/-- A filled `duration:` line sets the duration. -/
theorem parseMetadataLine_duration_some (m : WorkoutMetadata) (d : Str)
    (hd : trimC d = d) (hne : d ≠ []) :
    parseMetadataLine m (str "duration:" ++ ' ' :: d) =
      { m with duration := some d } := by
  rw [show str "duration:" ++ ' ' :: d = str "duration" ++ ':' :: ' ' :: d
      from rfl,
    parseMetadataLine_key_colon m _ _ (by decide) (by decide),
    if_neg (by decide), if_neg (by decide), if_neg (by decide), if_pos rfl,
    trimC_cons_space, hd, if_neg hne]

/-- A `restDuration:` line sets the rest duration. -/
theorem parseMetadataLine_restDuration (m : WorkoutMetadata) (r : Str)
    (hr : trimC r = r) (hne : r ≠ []) :
    parseMetadataLine m (str "restDuration: " ++ r) =
      { m with restDuration := some r } := by
  rw [show str "restDuration: " ++ r = str "restDuration" ++ ':' :: ' ' :: r
      from rfl,
    parseMetadataLine_key_colon m _ _ (by decide) (by decide),
    if_neg (by decide), if_neg (by decide), if_neg (by decide),
    if_neg (by decide), if_pos rfl, trimC_cons_space, hr, if_neg hne]

/-- Folding the serialized metadata lines from the default metadata
recovers the metadata exactly. -/
theorem foldl_serializeMetadata (m : WorkoutMetadata) (hwf : MetadataWf m) :
    (serializeMetadata m).foldl parseMetadataLine defaultMetadata = m := by
  obtain ⟨title, state, startDate, duration, restDuration⟩ := m
  obtain ⟨hT, hS, hD, hR⟩ := hwf
  simp only [serializeMetadata] at *
  cases title <;> cases startDate <;> cases duration <;> cases restDuration <;>
    simp only [List.foldl_append, List.foldl_cons, List.foldl_nil,
      List.append_nil] <;>
    (try rw [parseMetadataLine_title _ _ (hT _ rfl).2.1 (hT _ rfl).2.2]) <;>
    rw [parseMetadataLine_state] <;>
    (first
      | rw [parseMetadataLine_startDate_some _ _ (hS _ rfl).2.1 (hS _ rfl).2.2]
      | rw [parseMetadataLine_startDate_none]) <;>
    (first
      | rw [parseMetadataLine_duration_some _ _ (hD _ rfl).2.1 (hD _ rfl).2.2]
      | rw [parseMetadataLine_duration_none]) <;>
    (try rw [parseMetadataLine_restDuration _ _ (hR _ rfl).2.1 (hR _ rfl).2.2]) <;>
    rfl

/-- Inventory of the serialized metadata lines. -/
theorem mem_serializeMetadata (m : WorkoutMetadata) (l : Str)
    (hl : l ∈ serializeMetadata m) :
    (∃ t, m.title = some t ∧ l = str "title: " ++ t) ∨
      l = str "state: " ++ workoutStateStr m.state ∨
      l = str "startDate:" ++
        (match m.startDate with | some d => ' ' :: d | none => []) ∨
      l = str "duration:" ++
        (match m.duration with | some d => ' ' :: d | none => []) ∨
      (∃ r, m.restDuration = some r ∧ l = str "restDuration: " ++ r) := by
  unfold serializeMetadata at hl
  rcases List.mem_append.mp hl with h | h
  · rcases List.mem_append.mp h with h | h
    · rcases List.mem_append.mp h with h | h
      · rcases List.mem_append.mp h with h | h
        · cases hmt : m.title with
          | none => rw [hmt] at h; simp at h
          | some t =>
            rw [hmt] at h
            simp at h
            exact Or.inl ⟨t, rfl, h⟩
        · simp at h
          exact Or.inr (Or.inl h)
      · simp at h
        exact Or.inr (Or.inr (Or.inl h))
    · simp at h
      exact Or.inr (Or.inr (Or.inr (Or.inl h)))
  · cases hmr : m.restDuration with
    | none => rw [hmr] at h; simp at h
    | some r =>
      rw [hmr] at h
      simp at h
      exact Or.inr (Or.inr (Or.inr (Or.inr ⟨r, rfl, h⟩)))

/-- Serialized metadata lines contain no newline. -/
theorem serializeMetadata_no_newline (m : WorkoutMetadata) (hwf : MetadataWf m)
    (l : Str) (hl : l ∈ serializeMetadata m) : '\n' ∉ l := by
  intro hmem
  rcases mem_serializeMetadata m l hl with
    ⟨t, ht, rfl⟩ | rfl | rfl | rfl | ⟨r, hr, rfl⟩
  · rcases List.mem_append.mp hmem with h | h
    · exact absurd h (by decide)
    · exact (hwf.1 t ht).1 h
  · rcases List.mem_append.mp hmem with h | h
    · exact absurd h (by decide)
    · revert h
      cases m.state <;> decide
  · rcases List.mem_append.mp hmem with h | h
    · exact absurd h (by decide)
    · cases hms : m.startDate with
      | none => rw [hms] at h; simp at h
      | some d =>
        rw [hms] at h
        rcases List.mem_cons.mp h with h1 | h1
        · exact absurd h1 (by decide)
        · exact (hwf.2.1 d hms).1 h1
  · rcases List.mem_append.mp hmem with h | h
    · exact absurd h (by decide)
    · cases hms : m.duration with
      | none => rw [hms] at h; simp at h
      | some d =>
        rw [hms] at h
        rcases List.mem_cons.mp h with h1 | h1
        · exact absurd h1 (by decide)
        · exact (hwf.2.2.1 d hms).1 h1
  · rcases List.mem_append.mp hmem with h | h
    · exact absurd h (by decide)
    · exact (hwf.2.2.2 r hr).1 h

/-- No serialized metadata line is the section separator. -/
theorem serializeMetadata_ne_sep (m : WorkoutMetadata) (l : Str)
    (hl : l ∈ serializeMetadata m) : l ≠ str "---" := by
  rcases mem_serializeMetadata m l hl with
    ⟨t, ht, rfl⟩ | rfl | rfl | rfl | ⟨r, hr, rfl⟩ <;> intro h
  · injection h with h1 _
    exact absurd h1 (by decide)
  · injection h with h1 _
    exact absurd h1 (by decide)
  · injection h with h1 _
    exact absurd h1 (by decide)
  · injection h with h1 _
    exact absurd h1 (by decide)
  · injection h with h1 _
    exact absurd h1 (by decide)

/-- The canonical cons form of a serialized exercise line. -/
theorem serializeExercise_eq_cons (e : Exercise) :
    serializeExercise e =
      '-' :: ' ' :: '[' :: stateChar e.state :: ']' :: ' ' ::
        (e.name ++
          (e.params.map (fun p => str " | " ++ serializeParam p)).flatten) := by
  show str "- [" ++ [stateChar e.state] ++ str "] " ++ e.name ++
      (e.params.map (fun p => str " | " ++ serializeParam p)).flatten = _
  simp [str]

/-- A serialized well-formed exercise line contains no newline. -/
theorem serializeExercise_no_newline (e : Exercise) (hwf : ExerciseWf e) :
    '\n' ∉ serializeExercise e := by
  obtain ⟨hnl, hnp, hnt, hpwf, hdd⟩ := hwf
  intro h
  unfold serializeExercise at h
  rcases List.mem_append.mp h with h1 | h1
  · rcases List.mem_append.mp h1 with h2 | h2
    · rcases List.mem_append.mp h2 with h3 | h3
      · rcases List.mem_append.mp h3 with h4 | h4
        · exact absurd h4 (by decide)
        · simp at h4
          revert h4
          cases e.state <;> decide
      · exact absurd h3 (by decide)
    · exact hnl h2
  · obtain ⟨lp, hlp, hmem⟩ := List.mem_flatten.mp h1
    obtain ⟨p, hp, rfl⟩ := List.mem_map.mp hlp
    rcases List.mem_append.mp hmem with h2 | h2
    · exact absurd h2 (by decide)
    · exact serializeParam_no_newline p (hpwf p hp) h2

/-- A serialized exercise line is never the section separator. -/
theorem serializeExercise_ne_sep (e : Exercise) :
    serializeExercise e ≠ str "---" := by
  intro h
  rw [serializeExercise_eq_cons] at h
  injection h with h1 h2
  injection h2 with h3 _
  exact absurd h3 (by decide)

/-- `findIdx?` finds the first position whose element satisfies the
predicate when everything before it fails it. -/
theorem findIdx?_append_first {α : Type} (p : α → Bool) (A : List α) (x : α)
    (B : List α) (hA : ∀ a ∈ A, p a = false) (hx : p x = true) :
    (A ++ x :: B).findIdx? p = some A.length := by
  induction A with
  | nil =>
    rw [List.nil_append, List.findIdx?_cons, if_pos hx]
    rfl
  | cons a as ih =>
    rw [List.cons_append, List.findIdx?_cons,
      if_neg (by simp [hA a (List.mem_cons_self a as)]), List.findIdx?_succ,
      ih (fun b hb => hA b (List.mem_cons_of_mem a hb))]
    rfl

/-- Rebuilding the serialized checklist lines yields semantically equal
exercises. -/
theorem buildExercises_sem (exs : List Exercise) :
    ∀ i : Nat, (∀ e ∈ exs, ExerciseWf e) →
      (buildExercises i (exs.map serializeExercise)).map Exercise.sem =
        exs.map Exercise.sem := by
  induction exs with
  | nil => intro i _; rfl
  | cons e rest ih =>
    intro i h
    have hwf := h e (List.mem_cons_self _ _)
    show (buildExercises i
        (serializeExercise e :: rest.map serializeExercise)).map Exercise.sem = _
    simp only [buildExercises,
      parseExerciseLine_serializeExercise e hwf]
    rw [List.map_cons, List.map_cons]
    congr 1
    · have hdd := hwf.2.2.2.2
      unfold Exercise.sem
      rw [← hdd]
    · exact ih (i + 1) (fun x hx => h x (List.mem_cons_of_mem _ hx))

/-- Parsing the serialization of a well-formed parsed workout recovers it
up to semantic equality. -/
theorem parse_serialize_semEq (w : ParsedWorkout) (hwf : WorkoutWf w) :
    semEq (parseWorkout (serializeWorkout w)) w := by
  obtain ⟨hm, hex⟩ := hwf
  have hnl : ∀ l ∈ serializeMetadata w.metadata ++ [str "---"] ++
      w.exercises.map serializeExercise, '\n' ∉ l := by
    intro l hl
    rcases List.mem_append.mp hl with h | h
    · rcases List.mem_append.mp h with h1 | h1
      · exact serializeMetadata_no_newline w.metadata hm l h1
      · simp at h1
        subst h1
        decide
    · obtain ⟨e, he, rfl⟩ := List.mem_map.mp h
      exact serializeExercise_no_newline e (hex e he)
  have hlines : splitOnC '\n' (serializeWorkout w) =
      serializeMetadata w.metadata ++ str "---" ::
        w.exercises.map serializeExercise := by
    unfold serializeWorkout
    rw [splitOnC_joinWith '\n' _ (by simp) hnl]
    simp
  have hA : ∀ a ∈ serializeMetadata w.metadata,
      (fun l => decide (l = str "---")) a = false := by
    intro a ha
    simpa using serializeMetadata_ne_sep w.metadata a ha
  have hidx : (serializeMetadata w.metadata ++ str "---" ::
      w.exercises.map serializeExercise).findIdx?
        (fun l => decide (l = str "---")) =
      some (serializeMetadata w.metadata).length :=
    findIdx?_append_first _ _ _ _ hA (by simp)
  constructor
  · show (parseWorkout (serializeWorkout w)).metadata = w.metadata
    simp only [parseWorkout, hlines, hidx, List.take_left]
    exact foldl_serializeMetadata w.metadata hm
  · show (parseWorkout (serializeWorkout w)).exercises.map Exercise.sem =
      w.exercises.map Exercise.sem
    simp only [parseWorkout, hlines, hidx]
    have hdrop : (serializeMetadata w.metadata ++ str "---" ::
        w.exercises.map serializeExercise).drop
          ((serializeMetadata w.metadata).length + 1) =
        w.exercises.map serializeExercise := by
      rw [show serializeMetadata w.metadata ++ str "---" ::
            w.exercises.map serializeExercise =
          (serializeMetadata w.metadata ++ [str "---"]) ++
            w.exercises.map serializeExercise from by simp,
        List.drop_left' (by simp)]
    rw [hdrop]
    exact buildExercises_sem w.exercises 0 hex

/-- Any parameter `parseParamPiece` extracts from a pipe-free,
newline-free cell is well-formed. -/
theorem parseParamPiece_wf (cell : Str) (p : ExerciseParam)
    (h : parseParamPiece cell = some p) (hnl : '\n' ∉ cell)
    (hnp : '|' ∉ cell) : ParamWf p := by
  simp only [parseParamPiece] at h
  have htnl : '\n' ∉ trimC cell :=
    fun hx => hnl ((trimC_sublist cell).subset hx)
  have htnp : '|' ∉ trimC cell :=
    fun hx => hnp ((trimC_sublist cell).subset hx)
  have hkey_sub : ∀ a, a ∈ trimC (takeUntil ':' (trimC cell)) →
      a ∈ trimC cell :=
    fun a ha =>
      (takeUntil_sublist ':' (trimC cell)).subset
        ((trimC_sublist _).subset ha)
  have hk_nc : ':' ∉ trimC (takeUntil ':' (trimC cell)) :=
    fun hx =>
      ne_of_mem_takeUntil ':' ':' (trimC cell)
        ((trimC_sublist _).subset hx) rfl
  have hk_nl : '\n' ∉ trimC (takeUntil ':' (trimC cell)) :=
    fun hx => htnl (hkey_sub _ hx)
  have hk_np : '|' ∉ trimC (takeUntil ':' (trimC cell)) :=
    fun hx => htnp (hkey_sub _ hx)
  have hk_t : trimC (trimC (takeUntil ':' (trimC cell))) =
      trimC (takeUntil ':' (trimC cell)) := trimC_idem _
  have hrest_sub : ∀ a, a ∈ trimC (dropThrough ':' (trimC cell)) →
      a ∈ trimC cell :=
    fun a ha =>
      (dropThrough_sublist ':' (trimC cell)).subset
        ((trimC_sublist _).subset ha)
  split at h
  · split at h
    · -- bracketed branch: rest = '[' :: r
      rename_i r heqr
      have hr_sub : ∀ a, a ∈ r → a ∈ trimC cell := by
        intro a ha
        apply hrest_sub
        rw [heqr]
        exact List.mem_cons_of_mem '[' ha
      split at h
      · -- contains a closing bracket: editable parameter
        rename_i hcb
        injection h with h
        subst h
        refine ⟨⟨hk_nl, hk_np, hk_nc, hk_t⟩, ?_, ?_⟩
        · constructor
          · intro hx
            exact htnl (hr_sub _
              ((takeUntil_sublist ']' r).subset hx))
          · intro hx
            exact htnp (hr_sub _
              ((takeUntil_sublist ']' r).subset hx))
        · rw [if_pos rfl]
          constructor
          · intro hx
            exact ne_of_mem_takeUntil ']' ']' r hx rfl
          · intro u hu
            by_cases hue : trimC (dropThrough ']' r) = []
            · rw [if_pos hue] at hu
              cases hu
            · rw [if_neg hue] at hu
              injection hu with hu
              subst hu
              have hu_sub : ∀ a, a ∈ trimC (dropThrough ']' r) → a ∈ r :=
                fun a ha =>
                  (dropThrough_sublist ']' r).subset
                    ((trimC_sublist _).subset ha)
              exact ⟨fun hx => htnl (hr_sub _ (hu_sub _ hx)),
                fun hx => htnp (hr_sub _ (hu_sub _ hx)), trimC_idem _, hue⟩
      · -- no closing bracket: locked parameter keeping the raw rest
        rename_i hcb
        injection h with h
        subst h
        refine ⟨⟨hk_nl, hk_np, hk_nc, hk_t⟩,
          ⟨fun hx => htnl (hrest_sub _ hx),
           fun hx => htnp (hrest_sub _ hx)⟩, ?_⟩
        rw [if_neg (fun hx => Bool.false_ne_true hx)]
        refine ⟨trimC_idem _, ?_, rfl⟩
        rintro ⟨hhead, hmem⟩
        rw [heqr] at hmem
        rcases List.mem_cons.mp hmem with h1 | h1
        · cases h1
        · have hcf : containsC ']' r = false := by
            rw [Bool.eq_false_iff]
            exact hcb
          rw [containsC_eq_false_iff] at hcf
          exact hcf h1
    · -- fallback branch: rest does not start with a bracket
      rename_i hshape
      injection h with h
      subst h
      refine ⟨⟨hk_nl, hk_np, hk_nc, hk_t⟩,
        ⟨fun hx => htnl (hrest_sub _ hx),
         fun hx => htnp (hrest_sub _ hx)⟩, ?_⟩
      rw [if_neg (fun hx => Bool.false_ne_true hx)]
      refine ⟨trimC_idem _, ?_, rfl⟩
      rintro ⟨hhead, hmem⟩
      cases hrc : trimC (dropThrough ':' (trimC cell)) with
      | nil => rw [hrc] at hhead; cases hhead
      | cons c rr =>
        rw [hrc] at hhead
        injection hhead with hhead
        exact hshape rr (by rw [hrc, hhead])
  · cases h

/-- The name and parameters `parseExerciseLine` extracts from a
newline-free line are well-formed. -/
theorem parseExerciseLine_wf (l : Str) (st : ExerciseState) (nm : Str)
    (ps : List ExerciseParam) (h : parseExerciseLine l = some (st, nm, ps))
    (hnl : '\n' ∉ l) :
    trimC nm = nm ∧ '\n' ∉ nm ∧ '|' ∉ nm ∧ ∀ p ∈ ps, ParamWf p := by
  simp only [parseExerciseLine] at h
  split at h
  · rename_i c rest
    split at h
    · cases h
    · rename_i st' hmk
      split at h
      · cases h
      · rename_i first cells heqs
        cases h
        have hC : ∀ a,
            a ∈ (match rest with | ' ' :: r => r | r => r : Str) →
              a ∈ rest := by
          intro a ha
          split at ha
          · exact List.mem_cons_of_mem _ ha
          · exact ha
        have hnlrest : '\n' ∉ rest := fun hx => hnl (by simp [hx])
        have hfirst_mem := heqs.symm ▸ List.mem_cons_self first cells
        have hfC := mem_of_mem_splitOnC '|' _ first hfirst_mem
        have hfnp := not_mem_of_mem_splitOnC '|' _ first hfirst_mem
        refine ⟨trimC_idem _, ?_, ?_, ?_⟩
        · intro hx
          exact hnlrest (hC _ (hfC _ ((trimC_sublist first).subset hx)))
        · intro hx
          exact hfnp ((trimC_sublist first).subset hx)
        · intro p hp
          obtain ⟨cell, hcell, hpc⟩ := List.mem_filterMap.mp hp
          have hcellmem := heqs.symm ▸ List.mem_cons_of_mem first hcell
          exact parseParamPiece_wf cell p hpc
            (fun hx =>
              hnlrest (hC _ (mem_of_mem_splitOnC '|' _ cell hcellmem _ hx)))
            (not_mem_of_mem_splitOnC '|' _ cell hcellmem)
  · cases h

/-- Every exercise built from newline-free lines is well-formed. -/
theorem buildExercises_wf (lines : List Str) :
    ∀ i : Nat, (∀ l ∈ lines, '\n' ∉ l) →
      ∀ e ∈ buildExercises i lines, ExerciseWf e := by
  induction lines with
  | nil => intro i _ e he; cases he
  | cons l ls ih =>
    intro i h e he
    unfold buildExercises at he
    split at he
    · rename_i st nm ps hpl
      rcases List.mem_cons.mp he with h1 | h1
      · subst h1
        obtain ⟨hnt, hnn, hnp, hppwf⟩ :=
          parseExerciseLine_wf l st nm ps hpl (h l (List.mem_cons_self _ _))
        exact ⟨hnn, hnp, hnt, hppwf, rfl⟩
      · exact ih (i + 1) (fun x hx => h x (List.mem_cons_of_mem _ hx)) e h1
    · exact ih (i + 1) (fun x hx => h x (List.mem_cons_of_mem _ hx)) e he

/-- `parseMetadataLine` preserves metadata well-formedness on
newline-free lines. -/
theorem parseMetadataLine_wf (m : WorkoutMetadata) (line : Str)
    (hm : MetadataWf m) (hnl : '\n' ∉ line) :
    MetadataWf (parseMetadataLine m line) := by
  have hvwf : ∀ x, trimC (dropThrough ':' line) ≠ [] →
      trimC (dropThrough ':' line) = x →
        MetaValWf (some x) := by
    intro x hne hx
    intro y hy
    injection hy with hy
    subst hy
    subst hx
    exact ⟨fun hmem =>
        hnl ((dropThrough_sublist ':' line).subset
          ((trimC_sublist _).subset hmem)),
      trimC_idem _, hne⟩
  simp only [parseMetadataLine]
  repeat' split
  all_goals
    first
      | exact ⟨hvwf _ (by assumption) rfl, hm.2.1, hm.2.2.1, hm.2.2.2⟩
      | exact ⟨hm.1, hvwf _ (by assumption) rfl, hm.2.2.1, hm.2.2.2⟩
      | exact ⟨hm.1, hm.2.1, hvwf _ (by assumption) rfl, hm.2.2.2⟩
      | exact ⟨hm.1, hm.2.1, hm.2.2.1, hvwf _ (by assumption) rfl⟩
      | exact ⟨hm.1, hm.2.1, hm.2.2.1, hm.2.2.2⟩

/-- Folding metadata lines preserves well-formedness. -/
theorem foldl_parseMetadataLine_wf (lines : List Str) :
    ∀ m : WorkoutMetadata, MetadataWf m → (∀ l ∈ lines, '\n' ∉ l) →
      MetadataWf (lines.foldl parseMetadataLine m) := by
  induction lines with
  | nil => intro m hm _; exact hm
  | cons l ls ih =>
    intro m hm h
    rw [List.foldl_cons]
    exact ih _ (parseMetadataLine_wf m l hm (h l (List.mem_cons_self _ _)))
      (fun x hx => h x (List.mem_cons_of_mem _ hx))

/-- Everything `parseWorkout` produces is well-formed. -/
theorem parseWorkout_wf (T : Str) : WorkoutWf (parseWorkout T) := by
  have hnl : ∀ l ∈ splitOnC '\n' T, '\n' ∉ l :=
    fun l hl => not_mem_of_mem_splitOnC '\n' T l hl
  have hd : MetadataWf defaultMetadata := by
    unfold MetadataWf
    refine ⟨?_, ?_, ?_, ?_⟩ <;> exact fun x hx => nomatch hx
  simp only [parseWorkout]
  split
  · rename_i k hk
    constructor
    · exact foldl_parseMetadataLine_wf _ _ hd
        (fun l hl => hnl l ((List.take_sublist k _).subset hl))
    · exact buildExercises_wf _ 0
        (fun l hl => hnl l ((List.drop_sublist (k + 1) _).subset hl))
  · constructor
    · exact foldl_parseMetadataLine_wf _ _ hd hnl
    · intro e he
      cases he

/-- C1: Round-trip law — for every workout text `T` accepted by the
grammar, parsing `serialize(parse(T))` yields a `ParsedWorkout` equal in
all semantic fields (exercise marker/state, name, params, target and
recorded durations, metadata) to `parse(T)`. -/
theorem C1_roundtrip_semantic (T : Str) (hT : acceptedByGrammar T = true) :
    semEq (parseWorkout (serializeWorkout (parseWorkout T)))
      (parseWorkout T) :=
  parse_serialize_semEq (parseWorkout T) (parseWorkout_wf T)

/-- Witness for C1 at the grammar-conforming sample text of the README. -/
theorem C1_roundtrip_semantic_witness :
    acceptedByGrammar sampleText = true ∧
      semEq (parseWorkout (serializeWorkout (parseWorkout sampleText)))
        (parseWorkout sampleText) :=
  ⟨by decide, C1_roundtrip_semantic sampleText (by decide)⟩

end WorkoutLog

